import Mathlib

/-!
# Custom UNIX shell: line parser, variable table and process orchestrator

A shallow embedding of `parsing.c` and `run_shell.c`.

* A C string is a `List Char` holding the bytes before the terminating NUL.
  Reading the byte at index `length` yields the terminator, reading at any
  larger index is outside the string and is reported as `none`.
* The `Variable` linked list is a `List Variable`; the head pointer is the
  list itself.
* Allocation (`malloc`, `strdup`, `realloc`, `calloc`) always succeeds. The
  block that holds the expanded line is followed with its size: a write
  beyond the size given to `malloc` or to the last `realloc` is reported as
  `overflow`.
* The `Command` linked list is a `List Command`; `args` holds the strings
  stored in the argument array and `args_end` the content of the slot after
  them: NULL, or indeterminate when `realloc` has added the slot and nothing
  has been written to it.
* Loops whose index is recomputed from a scan run on a budget of
  `strlen + 2` iterations; every iteration advances the index, so the budget
  is never the reason for a result (`out_of_fuel` is a separate outcome, shown
  unreachable in `parse_line_fuel`).
* The operating system (directory listings, `pipe`, `fork`, `waitpid`, `chdir`)
  is a parameter of the functions that call it.
-/

namespace CShell

/-- A C string: the characters before the NUL terminator. -/
abbrev CString := List Char

/-- The NUL terminator. -/
def NUL : Char := Char.ofNat 0

/-- Read `s[i]`: a character of the string, the terminator at `i = strlen s`,
and `none` beyond the terminator. -/
def cget (s : CString) (i : Nat) : Option Char :=
  if i < s.length then s.get? i
  else if i = s.length then some NUL
  else none

/-- Modelled from the spec: `shell.h` is not part of the sources; `CD` is the
name of the builtin (`run_shell.c` compares `exec_path` with the literal "cd"). -/
def CD : CString := "cd".toList

/-- Modelled from the spec: `shell.h` is not part of the sources;
`PATH_VAR_NAME` is the reserved variable name `PATH`. -/
def PATH_VAR_NAME : CString := "PATH".toList

/-- `isalpha((unsigned char)c)` in the C locale. -/
def isalpha (c : Char) : Bool :=
  (65 ≤ c.toNat && c.toNat ≤ 90) || (97 ≤ c.toNat && c.toNat ≤ 122)

/-- `isspace((unsigned char)c)` in the C locale: space, `\t`, `\n`, `\v`, `\f`, `\r`. -/
def isspace (c : Char) : Bool :=
  c.toNat = 32 || (9 ≤ c.toNat && c.toNat ≤ 13)

/-- `isValidVarChar`: a letter or an underscore. -/
def isValidVarChar (c : Char) : Bool :=
  isalpha c || c = '_'

/-! ## Variable table -/

/-- Modelled from the spec: `struct Variable` is declared in `shell.h`, which is
not part of the sources; the fields are those the code reads and writes. One
node of the linked list (the `next` pointer is the list tail). -/
structure Variable where
  name : CString
  value : CString
deriving DecidableEq

/-- `createVariable`: a fresh node holding copies of `name` and `value`. -/
def createVariable (name value : CString) : Variable :=
  { name := name, value := value }

/-- The traversal of `addOrUpdateVariable` (lines 175-195): replace the value of
the first node called `name`, or link a new node after the last one. -/
def updateOrAppend (name value : CString) : List Variable → List Variable
  | [] => [createVariable name value]
  | cur :: rest =>
    if cur.name = name then { cur with value := value } :: rest
    else cur :: updateOrAppend name value rest

/-- `addOrUpdateVariable(&variables, name, value)`: the return code and the
list afterwards. When `name` is `PATH` and the head is another variable, the
new node is linked in front of the old head (`newVar->next = *variables`) but
`*variables` is not reassigned, so the list seen through `variables` is the
old one. -/
def addOrUpdateVariable (vars : List Variable) (name value : CString) :
    Int × List Variable :=
  match vars with
  | [] => (0, [createVariable name value])
  | current :: rest =>
    if name = "PATH".toList then
      if current.name ≠ "PATH".toList then (0, current :: rest)
      else (0, { current with value := value } :: rest)
    else (0, updateOrAppend name value (current :: rest))

/-- `find_value_from_name`: the value of the first node called `name`, or
`none` for the NULL result. -/
def find_value_from_name (name : CString) : List Variable → Option CString
  | [] => none
  | current :: rest =>
    if current.name = name then some current.value
    else find_value_from_name name rest

/-- A sequence of `addOrUpdateVariable` calls applied left to right. -/
def upsertAll (vars : List Variable) (calls : List (CString × CString)) :
    List Variable :=
  calls.foldl (fun vs c => (addOrUpdateVariable vs c.1 c.2).2) vars

/-! ## Executable resolution -/

/-- The file system as seen by `opendir`/`readdir`: the entry names of a
directory in listing order, or `none` when the directory cannot be opened. -/
abbrev FileSystem := CString → Option (List CString)

/-- Result of `resolve_executable`: a path, NULL, or a fault (the PATH value
holds no directory, so `strtok` returns NULL and `opendir(NULL)` is called). -/
inductive Resolved
  | path (p : CString)
  | null
  | fault
deriving DecidableEq

/-- The successive results of `strtok(value, ":")`: the maximal runs of
characters other than the delimiter; empty runs are skipped. `cur` is the
run being collected. -/
def strtok_all (delim : Char) : CString → CString → List CString
  | cur, [] => if cur = [] then [] else [cur]
  | cur, c :: cs =>
    if c = delim then
      if cur = [] then strtok_all delim [] cs else cur :: strtok_all delim [] cs
    else strtok_all delim (cur ++ [c]) cs

/-- The path built at lines 71-79: directory, a slash unless the directory
ends in one, and the command name. -/
def join_path (current_path command_name : CString) : CString :=
  if current_path.getLast? ≠ some '/' then current_path ++ ['/'] ++ command_name
  else current_path ++ command_name

/-- The `do ... while` loop over the PATH directories (lines 45-87): a
directory that cannot be opened is skipped (the `closedir(NULL)` made there is
taken to fail without effect); the first directory whose listing holds an
entry equal to the command name gives the result. Errors of `readdir` are not
modelled. -/
def search_path (fs : FileSystem) (command_name : CString) : List CString → Resolved
  | [] => .null
  | current_path :: more =>
    match fs current_path with
    | none => search_path fs command_name more
    | some entries =>
      if command_name ∈ entries then .path (join_path current_path command_name)
      else search_path fs command_name more

/-- `resolve_executable(command_name, path)`; `path` is the head node of the
variable list (`none` for a NULL pointer). -/
def resolve_executable (fs : FileSystem) (command_name : CString)
    (path : Option Variable) : Resolved :=
  match path with
  | none => .null
  | some p =>
    if command_name = CD then .path CD
    else if p.name ≠ PATH_VAR_NAME then .null
    else if '/' ∈ command_name then .path command_name
    else
      match strtok_all ':' [] p.value with
      | [] => .fault
      | dirs => search_path fs command_name dirs

/-! ## Variable expansion -/

/-- A pointer scan `while (!stop) p++` over the characters from index `i` on:
the index where it stops, or `none` when it runs past the terminator. The
first argument of `stop` is the index, the second the character read. -/
def scanFrom (stop : Nat → Char → Bool) : List Char → Nat → Option Nat
  | [], i => if stop i NUL then some i else none
  | c :: cs, i => if stop i c then some i else scanFrom stop cs (i + 1)

/-- The scan started at index `i` of `s`; `none` when a read leaves the string. -/
def scan (stop : Nat → Char → Bool) (s : CString) (i : Nat) : Option Nat :=
  if i ≤ s.length then scanFrom stop (s.drop i) i else none

/-- `strndup(s + start, n)`. -/
def strndup (s : CString) (start n : Nat) : CString :=
  (s.drop start).take n

/-- Outcome of the scan of a variable name. -/
inductive NameScan
  | stop_at (j : Nat)
  | invalid
deriving DecidableEq

/-- The name loops of `replace_variables_mk_line` (lines 541-547 and 589-595):
advance `j` until an end character, failing on a character that is not valid
in a name. Both loops stop at the terminator. -/
def scan_name (is_end : Char → Bool) : List Char → Nat → NameScan
  | [], j => .stop_at j
  | c :: cs, j =>
    if is_end c then .stop_at j
    else if !isValidVarChar c then .invalid
    else scan_name is_end cs (j + 1)

/-- Result of `replace_variables_mk_line`: the new line, NULL, a read outside
the line (`out_of_bounds`), or a write outside the block that holds the new
line (`overflow`). `out_of_fuel` is the exhaustion of the loop budget of the
model. -/
inductive Expanded
  | new_line (s : CString)
  | null
  | out_of_bounds
  | overflow
  | out_of_fuel
deriving DecidableEq

/-- The `while (line[i] != 0)` loop of `replace_variables_mk_line`. `size` is
the size in bytes of the block `new_line` points to: a substitution sets it to
`strlen(new_line) + strlen(var_value) + 1` (the `realloc` at lines 569-570 and
609-610); the copy of a plain character writes `new_line[len]` and
`new_line[len + 1]` (lines 622-624), which lies inside the block when
`len + 2 ≤ size`. -/
def replace_loop (vars : List Variable) (line : CString) :
    Nat → Nat → CString → Nat → Expanded
  | 0, _, _, _ => .out_of_fuel
  | fuel + 1, i, new_line, size =>
    match cget line i with
    | none => .out_of_bounds
    | some c =>
      if c = NUL then .new_line new_line
      else if c = '$' then
        match cget line (i + 1) with
        | none => .out_of_bounds
        | some c1 =>
          if c1 = '{' then
            match cget line (i + 2) with
            | none => .out_of_bounds
            | some c2 =>
              if c2 = '=' then .null
              else
                match scan_name (fun x => x = '}' || x = NUL) (line.drop (i + 2)) (i + 2) with
                | .invalid => .null
                | .stop_at j =>
                  if cget line j = some NUL then .null
                  else
                    match find_value_from_name (strndup line (i + 2) (j - (i + 2))) vars with
                    | none => .null
                    | some var_value =>
                      replace_loop vars line fuel (j + 1) (new_line ++ var_value)
                        (new_line.length + var_value.length + 1)
          else if c1 = '=' then .null
          else
            match scan_name (fun x => x = ' ' || x = '.' || x = NUL) (line.drop (i + 1)) (i + 1) with
            | .invalid => .null
            | .stop_at j =>
              match find_value_from_name (strndup line (i + 1) (j - (i + 1))) vars with
              | none => .null
              | some var_value =>
                replace_loop vars line fuel (j + 1) (new_line ++ var_value)
                  (new_line.length + var_value.length + 1)
      else if new_line.length + 2 ≤ size then
        replace_loop vars line fuel (i + 1) (new_line ++ [c]) size
      else .overflow

/-- `replace_variables_mk_line(line, variables)`: the block of the new line
is allocated with `strlen(line) + 1` bytes. Every iteration advances `i`, so
`strlen(line) + 2` iterations are never exhausted. -/
def replace_variables_mk_line (line : CString) (vars : List Variable) : Expanded :=
  replace_loop vars line (line.length + 2) 0 [] (line.length + 1)

/-! ## Line parser -/

/-- Content of the slot of the argument array that follows the stored
strings: NULL (after `calloc` and after `args[arg_count] = NULL`), or
indeterminate (a slot added by `realloc` and not written yet). -/
inductive ArgvEnd
  | null
  | indeterminate
deriving DecidableEq

/-- Modelled from the spec: `struct Command` is declared in `shell.h`, which is
not part of the sources; the fields are those the code reads and writes. One
node of the linked list (the `next` pointer is the list tail). `args` holds
the strings of the argument array in order, `args_end` the slot after them
(NULL unless stated otherwise). -/
structure Command where
  exec_path : CString
  args : List CString
  stdin_fd : Int
  stdout_fd : Int
  redir_in_path : Option CString
  redir_out_path : Option CString
  redir_append : Nat
  args_end : ArgvEnd := .null
deriving DecidableEq

/-- Descriptor of the standard input. -/
def STDIN_FILENO : Int := 0

/-- Descriptor of the standard output. -/
def STDOUT_FILENO : Int := 1

/-- Return value of `parse_line`: `head cmds` is the pointer to the command
list (`head []` is NULL: no pipeline), `error` is `(Command *)-1`,
`undefined` stands for an execution that reads outside the line, writes
outside the block of the expanded line or calls `opendir(NULL)`.
`out_of_fuel` is the exhaustion of the loop budget of the model. -/
inductive ParseResult
  | head (cmds : List Command)
  | error
  | undefined
  | out_of_fuel
deriving DecidableEq

/-- Stop test of `while (*curr && isspace(*curr)) curr++`. -/
def stop_space (_ : Nat) (c : Char) : Bool := c = NUL || !isspace c

/-- Stop test of `while (*curr != ' ' && *curr != '>' && *curr != '<') curr++`. -/
def stop_word (_ : Nat) (c : Char) : Bool := c = ' ' || c = '>' || c = '<'

/-- Stop test of the target scan of the `>` branch (line 404), which also
stops at `pipe_index`. -/
def stop_word_or_pipe (pipe_index : Nat) (i : Nat) (c : Char) : Bool :=
  c = ' ' || c = '>' || c = '<' || i = pipe_index

/-- Stop test of `while (*pipe_index != '|' && *pipe_index != 0) pipe_index++`. -/
def stop_pipe (_ : Nat) (c : Char) : Bool := c = '|' || c = NUL

/-- Outcome of reading the target of a redirect operator. -/
inductive Target
  | name (path : CString) (curr : Nat)
  | error
  | out_of_bounds
deriving DecidableEq

/-- The common shape of the three redirect branches once `curr` is past the
operator: skip white space, reject a missing target, scan the target with
`stop`, reject a target that ends at `pipe_index`, copy it. -/
def redirect_target (stop : Nat → Char → Bool) (s : CString) (pipe_index curr : Nat) :
    Target :=
  match scan stop_space s curr with
  | none => .out_of_bounds
  | some p =>
    match cget s p with
    | none => .out_of_bounds
    | some c =>
      if c = NUL || p = pipe_index || c = '<' || c = '#' || c = '>' then .error
      else
        match scan stop s p with
        | none => .out_of_bounds
        | some q =>
          if q = pipe_index then .error
          else .name (strndup s p (q - p)) q

/-- Outcome of the per-command loop: `done` when `curr` has reached
`pipe_index`, `comment` for the return at `#` (lines 448-450); both carry the
command node as the loop leaves it. -/
inductive StageResult
  | done (cmd : Command)
  | comment (cmd : Command)
  | error
  | out_of_bounds
  | out_of_fuel
deriving DecidableEq

/-- The per-command loop `while (curr < pipe_index)` (lines 366-480). An
argument is stored after `realloc` has grown the array by one slot (line
468): the slot after the new argument is indeterminate from then on. -/
def parse_tokens (s : CString) (pipe_index : Nat) : Nat → Nat → Command → StageResult
  | 0, _, _ => .out_of_fuel
  | fuel + 1, curr, cmd =>
    if curr < pipe_index then
      match cget s curr with
      | none => .out_of_bounds
      | some c =>
        if c = '>' then
          match cget s (curr + 1) with
          | none => .out_of_bounds
          | some c1 =>
            if c1 = '>' then
              match redirect_target stop_word s pipe_index (curr + 2) with
              | .out_of_bounds => .out_of_bounds
              | .error => .error
              | .name path q =>
                parse_tokens s pipe_index fuel (q + 1)
                  { cmd with redir_append := 1, redir_out_path := some path }
            else
              match redirect_target (stop_word_or_pipe pipe_index) s pipe_index (curr + 1) with
              | .out_of_bounds => .out_of_bounds
              | .error => .error
              | .name path q =>
                parse_tokens s pipe_index fuel (q + 1) { cmd with redir_out_path := some path }
        else if c = '<' then
          match redirect_target stop_word s pipe_index (curr + 1) with
          | .out_of_bounds => .out_of_bounds
          | .error => .error
          | .name path q =>
            parse_tokens s pipe_index fuel (q + 1) { cmd with redir_in_path := some path }
        else if c = '#' then .comment cmd
        else if c ≠ ' ' then
          match scan stop_word s curr with
          | none => .out_of_bounds
          | some q =>
            parse_tokens s pipe_index fuel (q + 1)
              { cmd with args := cmd.args ++ [strndup s curr (q - curr)],
                         args_end := .indeterminate }
        else parse_tokens s pipe_index fuel (curr + 1) cmd
    else .done cmd

/-- The main loop `while (*curr != 0)` of `parse_line` (lines 306-487) over the
expanded line `s`; `path` is `variables[0]`, `head` the commands linked so far.
The argument array comes from `calloc(2, ...)`, so the slot after the command
name is NULL. When the per-command loop ends at `pipe_index`,
`args[arg_count] = NULL` (line 482) closes the array; the return at `#` is
made inside that loop and leaves the array as it is. -/
def parse_commands (fs : FileSystem) (path : Option Variable) (s : CString) :
    Nat → Nat → List Command → ParseResult
  | 0, _, _ => .out_of_fuel
  | fuel + 1, curr, head =>
    match cget s curr with
    | none => .undefined
    | some c0 =>
      if c0 = NUL then .head head
      else
        match scan stop_space s curr with
        | none => .undefined
        | some p =>
          match cget s p with
          | none => .undefined
          | some c =>
            if !isValidVarChar c || c = '|' || c = '>' || c = '<' then .error
            else
              match scan stop_pipe s p with
              | none => .undefined
              | some pipe_index =>
                match scan stop_word s p with
                | none => .undefined
                | some q =>
                  match resolve_executable fs (strndup s p (q - p)) path with
                  | .null => .error
                  | .fault => .undefined
                  | .path exec_path =>
                    match parse_tokens s pipe_index (s.length + 2) q
                        { exec_path := exec_path, args := [strndup s p (q - p)],
                          stdin_fd := STDIN_FILENO, stdout_fd := STDOUT_FILENO,
                          redir_in_path := none, redir_out_path := none,
                          redir_append := 0, args_end := .null } with
                    | .out_of_fuel => .out_of_fuel
                    | .out_of_bounds => .undefined
                    | .error => .error
                    | .comment cmd => .head (head ++ [cmd])
                    | .done cmd =>
                      parse_commands fs path s fuel (pipe_index + 1)
                        (head ++ [{ cmd with args_end := .null }])

/-- `strchr(line, c)` as an index: the position of the first `c`, or `none`
for NULL. -/
def strchr (c : Char) : CString → Option Nat
  | [] => none
  | x :: xs => if x = c then some 0 else (strchr c xs).map (· + 1)

/-- `startsWithEqualSign`. -/
def startsWithEqualSign (line : CString) : Bool :=
  line.head? = some '='

/-- `defines_path_variable`: `strncmp(line, "PATH=", 5) == 0`. -/
def defines_path_variable (line : CString) : Bool :=
  line.take 5 = "PATH=".toList

/-- The blank-or-comment test of lines 236-245: the first character that is
not white space is the terminator or `#`. -/
def is_blank_or_comment (line : CString) : Bool :=
  match (line.dropWhile isspace).head? with
  | none => true
  | some c => c = NUL || c = '#'

/-- `parse_line(line, &variables)`: the returned pointer and the variable list
afterwards. `addOrUpdateVariable` never returns -1 here (allocation does not
fail), so the two `check == -1` exits are not taken. -/
def parse_line (fs : FileSystem) (vars : List Variable) (line : CString) :
    ParseResult × List Variable :=
  if line.head? = none ∨ line.head? = some NUL then (.head [], vars)
  else if is_blank_or_comment line then (.head [], vars)
  else if startsWithEqualSign line then (.error, vars)
  else
    let vars1 :=
      if defines_path_variable line then
        (addOrUpdateVariable vars "PATH".toList (line.drop 5)).2
      else vars
    match strchr '=' line with
    | some equalsPtr =>
      if (line.take equalsPtr).all isValidVarChar then
        (.head [], (addOrUpdateVariable vars1 (line.take equalsPtr) (line.drop (equalsPtr + 1))).2)
      else (.error, vars1)
    | none =>
      match replace_variables_mk_line line vars1 with
      | .null => (.error, vars1)
      | .out_of_bounds => (.undefined, vars1)
      | .overflow => (.undefined, vars1)
      | .out_of_fuel => (.out_of_fuel, vars1)
      | .new_line s => (parse_commands fs vars1.head? s (s.length + 2) 0 [], vars1)

/-! ## Process orchestrator -/

/-- How the child of one `run_command` call ended, as the parent sees it. -/
inductive ChildOutcome
  | fork_failed
  | exited (code : Nat)
  | killed
deriving DecidableEq

/-- What the operating system answers to the calls made for one stage:
`pipe(fd)` (`none` for -1, else the read and write ends), the fate of the
forked child, and the status of `cd_cscshell`. -/
structure StageOS where
  pipe_fds : Option (Int × Int)
  child : ChildOutcome
  cd_status : Int

/-- Where a standard stream of a child comes from or goes to. -/
inductive Stream
  | inherited
  | descriptor (fd : Int)
  | file (path : CString)
deriving DecidableEq

/-- Standard input of the child of `run_command` (lines 130-133): `stdin_fd`
is duplicated onto descriptor 0 unless it is descriptor 0 already. -/
def child_stdin (command : Command) : Stream :=
  if command.stdin_fd ≠ STDIN_FILENO then .descriptor command.stdin_fd else .inherited

/-- Standard output of the child of `run_command` (lines 135-138). -/
def child_stdout (command : Command) : Stream :=
  if command.stdout_fd ≠ STDOUT_FILENO then .descriptor command.stdout_fd else .inherited

/-- Return value of `run_command` in the parent: -1 when `fork` fails,
`WEXITSTATUS` when the child exited, -1 otherwise. -/
def run_command (_command : Command) : ChildOutcome → Int
  | .fork_failed => -1
  | .exited code => ((code % 256 : Nat) : Int)
  | .killed => -1

/-- The system calls of `execute_line`, in program order. `run idx cmd` is the
call `run_command(current)` for stage `idx` with its descriptors assigned. -/
inductive Event
  | pipe (fds : Option (Int × Int))
  | cd (idx : Nat) (target : Option CString)
  | run (idx : Nat) (cmd : Command)
  | close (fd : Int)
deriving DecidableEq

/-- State of `execute_line` when its `for` loop is left: the value of
`*result`, the value of `lastInput`, and the system calls made by the loop. -/
structure LoopExit where
  result : Int
  lastInput : Int
  log : List Event

/-- The `for` loop of `execute_line` (lines 45-83) from stage `idx` on; `fd`
is the current content of the array `fd[2]`, `result` the current `*result`. -/
def execute_loop (os : Nat → StageOS) :
    Nat → List Command → Int → Int × Int → Int → LoopExit
  | _, [], lastInput, _, result => ⟨result, lastInput, []⟩
  | idx, current :: next, lastInput, fd, _ =>
    if next ≠ [] ∧ (os idx).pipe_fds = none then ⟨-1, lastInput, [.pipe none]⟩
    else
      let fd1 := if next ≠ [] then (os idx).pipe_fds.getD fd else fd
      let log1 := if next ≠ [] then [Event.pipe (os idx).pipe_fds] else []
      if current.exec_path = "cd".toList then
        let r := execute_loop os (idx + 1) next lastInput fd1 (os idx).cd_status
        ⟨r.result, r.lastInput, log1 ++ [.cd idx (current.args.get? 1)] ++ r.log⟩
      else
        let cmd := { current with
          stdin_fd := lastInput,
          stdout_fd := if next ≠ [] then fd1.2 else STDOUT_FILENO }
        let result1 := run_command cmd (os idx).child
        let log2 := log1 ++ [.run idx cmd] ++
          (if lastInput ≠ STDIN_FILENO then [.close lastInput] else [])
        if next = [] ∨ result1 ≠ 0 then
          ⟨result1, fd1.1, log2 ++ (if next ≠ [] then [.close fd1.1, .close fd1.2] else [])⟩
        else
          let r := execute_loop os (idx + 1) next fd1.1 fd1 result1
          ⟨r.result, r.lastInput, log2 ++ [.close fd1.2] ++ r.log⟩

/-- What `execute_line` returns and does: `result` is the pointed-to integer
(`none` for a NULL return), `log` the system calls made. -/
structure Execution where
  result : Option Int
  log : List Event

/-- `execute_line(head)`. `fd0` is the indeterminate initial content of the
local array `fd[2]`. -/
def execute_line (os : Nat → StageOS) (fd0 : Int × Int) (head : List Command) : Execution :=
  if head = [] then ⟨none, []⟩
  else
    let e := execute_loop os 0 head STDIN_FILENO fd0 0
    ⟨some e.result,
      e.log ++ (if e.lastInput ≠ STDIN_FILENO then [.close e.lastInput] else [])⟩

/-- The stage indices for which `run_command` was called, in call order. -/
def spawned (log : List Event) : List Nat :=
  log.filterMap (fun e => match e with
    | .run idx _ => some idx
    | _ => none)

/-- Position `i` of `line` is inside the string and `suf` is what remains from there. -/
def suffix_at (line : List Char) (i : Nat) (suf : List Char) : Prop :=
  i ≤ line.length ∧ line.drop i = suf

/-! ## Lines of spaced stages

The text of pipelines in which every token of a stage is followed by a space,
used to state what the parser returns on them. -/

/-- A character that can stand inside a plain token: not a space, not an
operator, not the terminator. -/
def plain_char (c : Char) : Bool :=
  !(c = ' ' || c = '<' || c = '>' || c = '|' || c = NUL)

/-- A plain argument: non-empty, made of plain characters, not starting a
comment. -/
def word_ok (w : CString) : Bool :=
  w.all plain_char &&
    (match w with
     | [] => false
     | c :: _ => decide (c ≠ '#'))

/-- A redirect target: a plain word that does not start with white space. -/
def target_ok (w : CString) : Bool :=
  word_ok w &&
    (match w with
     | [] => false
     | c :: _ => !isspace c)

/-- One item after the command name, as it is written in the line: a single
space, an argument, or a redirect operator with the white space `gap` and the
target `w`; arguments and targets are followed by one space. -/
inductive Item
  | space
  | arg (w : CString)
  | redir_in (gap w : CString)
  | redir_out (gap w : CString)
  | redir_append (gap w : CString)

/-- The text of an item. -/
def Item.text : Item → CString
  | .space => [' ']
  | .arg w => w ++ [' ']
  | .redir_in gap w => '<' :: (gap ++ (w ++ [' ']))
  | .redir_out gap w => '>' :: (gap ++ (w ++ [' ']))
  | .redir_append gap w => '>' :: '>' :: (gap ++ (w ++ [' ']))

/-- The item is well formed. -/
def Item.ok : Item → Bool
  | .space => true
  | .arg w => word_ok w
  | .redir_in gap w => gap.all isspace && target_ok w
  | .redir_out gap w => gap.all isspace && target_ok w
  | .redir_append gap w => gap.all isspace && target_ok w

/-- What the per-command loop does to the command node on an item. -/
def Item.apply (cmd : Command) : Item → Command
  | .space => cmd
  | .arg w => { cmd with args := cmd.args ++ [w], args_end := .indeterminate }
  | .redir_in _ w => { cmd with redir_in_path := some w }
  | .redir_out _ w => { cmd with redir_out_path := some w }
  | .redir_append _ w => { cmd with redir_append := 1, redir_out_path := some w }

/-- The text of the items, in order. -/
def tokens_text : List Item → CString
  | [] => []
  | it :: t => it.text ++ tokens_text t

/-- The command node after the items, applied in order. -/
def apply_items (cmd : Command) : List Item → Command
  | [] => cmd
  | it :: t => apply_items (it.apply cmd) t

/-- One stage in which every token is followed by a space: leading white
space, a command name, a space, and items (arguments, redirects, further
spaces); `exec_path` is the path the name resolves to. -/
structure SpacedStage where
  ws : CString
  cmd : CString
  items : List Item
  exec_path : CString

/-- The text of the stage. -/
def SpacedStage.text (st : SpacedStage) : CString :=
  st.ws ++ (st.cmd ++ ' ' :: tokens_text st.items)

/-- The command node the per-command loop has built when it has read the
items of the stage: the slot after the argument strings is NULL when the stage
has no argument and indeterminate otherwise. -/
def SpacedStage.command (st : SpacedStage) : Command :=
  apply_items
    { exec_path := st.exec_path, args := [st.cmd],
      stdin_fd := STDIN_FILENO, stdout_fd := STDOUT_FILENO,
      redir_in_path := none, redir_out_path := none, redir_append := 0,
      args_end := .null }
    st.items

/-- The command node of a stage that ends at `|`: the argument array has been
closed with NULL. -/
def SpacedStage.closed (st : SpacedStage) : Command :=
  { st.command with args_end := .null }

/-- The stage is well formed and its command name resolves to `exec_path`. -/
def SpacedStage.ok (fs : FileSystem) (path : Option Variable) (st : SpacedStage) : Bool :=
  st.ws.all isspace && st.cmd.all plain_char &&
    (match st.cmd with
     | [] => false
     | c :: _ => isValidVarChar c) &&
    st.items.all Item.ok &&
    decide (resolve_executable fs st.cmd path = .path st.exec_path)

/-- The stages each followed by `|`, then the text `tail`. -/
def pipe_line : List SpacedStage → CString → CString
  | [], tail => tail
  | st :: more, tail => st.text ++ '|' :: pipe_line more tail

/-! ## Concrete data used by the closed theorems -/

/-- A file system with the single directory `/bin` listing `ls`, `echo`, `wc`. -/
def fs_bin : FileSystem := fun d =>
  if d = "/bin".toList then some ["ls".toList, "echo".toList, "wc".toList] else none

/-- A table with `PATH=/bin` at the head and `A` bound to `hi`. -/
def vars_path_A : List Variable :=
  [⟨"PATH".toList, "/bin".toList⟩, ⟨"A".toList, "hi".toList⟩]

/-- The stage `ls -l ` (every token followed by a space), resolved in `/bin`. -/
def stage_ls_l : SpacedStage :=
  { ws := [], cmd := "ls".toList, items := [.arg "-l".toList], exec_path := "/bin/ls".toList }

/-- A table whose only entry is `A=1`. -/
def vars_A : List Variable := [⟨"A".toList, "1".toList⟩]

/-- A table binding `X` to a text that itself holds references. -/
def vars_X : List Variable := [⟨"X".toList, "$Y $\x7bZ\x7d".toList⟩]

/-- The stage `ls` with an output redirect path. -/
def cmd_ls_out : Command :=
  { exec_path := "/bin/ls".toList, args := ["ls".toList], stdin_fd := 0, stdout_fd := 1,
    redir_in_path := none, redir_out_path := some "out.txt".toList, redir_append := 0 }

/-- The stage `wc` with an input redirect path. -/
def cmd_wc_in : Command :=
  { exec_path := "/bin/wc".toList, args := ["wc".toList], stdin_fd := 0, stdout_fd := 1,
    redir_in_path := some "in.txt".toList, redir_out_path := none, redir_append := 0 }

/-- Every pipe is created with ends 3 and 4 and every child exits 0. -/
def os_pipe_ok : Nat → StageOS := fun _ =>
  { pipe_fds := some (3, 4), child := .exited 0, cd_status := 0 }

/-- Pipes succeed; the child of stage 0 exits 1, every other child exits 0. -/
def os_first_exit_one : Nat → StageOS := fun i =>
  { pipe_fds := some (3, 4), child := .exited (if i = 0 then 1 else 0), cd_status := 0 }

/-- Pipes succeed; the child of stage 2 exits 7, every other child exits 0. -/
def os_last_seven : Nat → StageOS := fun i =>
  { pipe_fds := some (3, 4), child := .exited (if i = 2 then 7 else 0), cd_status := 0 }

/-- No pipe can be created. -/
def os_no_pipe : Nat → StageOS := fun _ =>
  { pipe_fds := none, child := .exited 0, cd_status := 0 }

/-! ## Vocabulary of the statements on PATH search, redirects and descriptors -/

/-- The first directory of `dirs`, in listed order, that can be opened and
whose listing holds an entry equal to `command_name`. -/
def first_match (fs : FileSystem) (command_name : CString) (dirs : List CString) :
    Option CString :=
  dirs.find? (fun d =>
    match fs d with
    | some entries => decide (command_name ∈ entries)
    | none => false)

/-- A PATH value: the directories written one after the other with a colon
between neighbours. -/
def colon_joined : List CString → CString
  | [] => []
  | [d] => d
  | d :: e :: more => d ++ ':' :: colon_joined (e :: more)

/-- A table whose only entry is `PATH` with the empty value, as the line
`PATH=` leaves it. -/
def vars_path_empty : List Variable := [⟨"PATH".toList, []⟩]

/-- The item is an output redirect (`>` or `>>`). -/
def Item.is_output : Item → Bool
  | .redir_out _ _ => true
  | .redir_append _ _ => true
  | _ => false

/-- The builtin stage `cd /tmp`. -/
def cmd_cd_tmp : Command :=
  { exec_path := "cd".toList, args := ["cd".toList, "/tmp".toList], stdin_fd := 0,
    stdout_fd := 1, redir_in_path := none, redir_out_path := none, redir_append := 0 }

/-- The stage `ls` without redirects. -/
def cmd_ls : Command :=
  { exec_path := "/bin/ls".toList, args := ["ls".toList], stdin_fd := 0, stdout_fd := 1,
    redir_in_path := none, redir_out_path := none, redir_append := 0 }

/-- The tokens of the line stored in a command node: the argument array and
the two redirect paths. -/
def Command.tokens (cmd : Command) : List CString :=
  cmd.args ++ cmd.redir_in_path.toList ++ cmd.redir_out_path.toList

/-- No token of the command node holds a space, `<` or `>`. -/
def Command.clean (cmd : Command) : Prop :=
  ∀ tok ∈ cmd.tokens, ∀ c ∈ tok, c ≠ ' ' ∧ c ≠ '<' ∧ c ≠ '>'

/-! ## Reading a string -/

theorem suffix_at_zero (line : List Char) : suffix_at line 0 line := by
  simp [suffix_at]

theorem suffix_at_cons {line : List Char} {i : Nat} {c : Char} {t : List Char}
    (h : suffix_at line i (c :: t)) : cget line i = some c ∧ suffix_at line (i + 1) t := by
  obtain ⟨hle, hd⟩ := h
  have hlt : i < line.length := by
    rcases Nat.lt_or_ge i line.length with h1 | h1
    · exact h1
    · rw [List.drop_eq_nil_of_le h1] at hd; cases hd
  refine ⟨?_, hlt, ?_⟩
  · have h2 : List.get? line i = some c := by
      rw [List.get?_eq_getElem?, ← List.head?_drop, hd]; rfl
    simp only [cget, hlt, if_true, h2]
  · have : line.drop (i + 1) = (line.drop i).drop 1 := by
      rw [List.drop_drop]
    rw [this, hd]; rfl

theorem suffix_at_nil {line : List Char} {i : Nat} (h : suffix_at line i []) :
    i = line.length ∧ cget line i = some NUL := by
  obtain ⟨hle, hd⟩ := h
  have : line.length ≤ i := by
    have := congrArg List.length hd
    simp at this; omega
  have e : i = line.length := by omega
  subst e
  simp [cget]

theorem suffix_at_append {line : List Char} {i : Nat} (x t : List Char)
    (h : suffix_at line i (x ++ t)) : suffix_at line (i + x.length) t := by
  induction x generalizing i with
  | nil => simpa using h
  | cons c x ih =>
    have := (suffix_at_cons h).2
    have := ih this
    simpa [Nat.add_assoc, Nat.add_comm 1] using this

theorem strndup_suffix {line : List Char} {i : Nat} (tok t : List Char)
    (h : suffix_at line i (tok ++ t)) : strndup line i tok.length = tok := by
  simp [strndup, h.2]

/-! ## Variable table: theorems -/

/-- C1 (failing input). Upserting `A` and then `PATH` into the empty table
leaves the table with the single entry `A`: the `PATH` node is created and
linked in front of the old head, but the head pointer is never moved, so the
first entry is not `PATH` although the sequence contains a `PATH` call. -/
theorem C1_path_upsert_lost :
    upsertAll [] [("A".toList, "1".toList), ("PATH".toList, "/bin".toList)]
        = [⟨"A".toList, "1".toList⟩]
      ∧ (upsertAll [] [("A".toList, "1".toList), ("PATH".toList, "/bin".toList)]).head?.map
          Variable.name ≠ some "PATH".toList := by
  decide

/-- C2 (failing input). On the table holding only `A=1` the line `PATH=/bin`
returns NULL and leaves the table unchanged, so the lookup of `PATH`
afterwards finds nothing instead of `/bin`. -/
theorem C2_path_assignment_lost :
    parse_line fs_bin vars_A "PATH=/bin".toList = (.head [], vars_A)
      ∧ find_value_from_name "PATH".toList (parse_line fs_bin vars_A "PATH=/bin".toList).2
          = none := by
  decide

/-! ## Variable expansion: theorems -/

theorem isValidVarChar_ne {c : Char} (h : isValidVarChar c = true) :
    c ≠ NUL ∧ c ≠ '}' ∧ c ≠ '=' ∧ c ≠ ' ' ∧ c ≠ '.' ∧ c ≠ '$' := by
  refine ⟨?_, ?_, ?_, ?_, ?_, ?_⟩ <;> rintro rfl <;> revert h <;> decide

/-- The copy branch: characters that are neither `$` nor the terminator are
appended to the output one by one, as long as the block has room for them and
the closing NUL. -/
theorem replace_loop_copy (vars : List Variable) (line a : List Char)
    (ha : ∀ c ∈ a, c ≠ NUL ∧ c ≠ '$') :
    ∀ (rest out : List Char) (i fuel size : Nat), suffix_at line i (a ++ rest) →
      (a = [] ∨ out.length + a.length + 1 ≤ size) →
      replace_loop vars line (fuel + a.length) i out size
        = replace_loop vars line fuel (i + a.length) (out ++ a) size := by
  induction a with
  | nil => intro rest out i fuel size _ _; simp
  | cons c a ih =>
    intro rest out i fuel size h hsize
    have hc := ha c (List.mem_cons_self _ _)
    obtain ⟨g, h1⟩ := suffix_at_cons h
    have hroom : out.length + (c :: a).length + 1 ≤ size := by
      rcases hsize with h0 | h0
      · cases h0
      · exact h0
    have hstep : out.length + 2 ≤ size := by
      simp only [List.length_cons] at hroom; omega
    have ih1 := ih (fun x hx => ha x (List.mem_cons_of_mem _ hx)) rest (out ++ [c]) (i + 1) fuel
      size h1 (Or.inr (by simp only [List.length_cons, List.length_append,
        List.length_singleton, List.length_nil] at hroom ⊢; omega))
    have e2 : fuel + (c :: a).length = (fuel + a.length) + 1 := by simp; omega
    rw [e2, replace_loop, g]
    simp only [hc.1, hc.2, if_false, hstep, if_true]
    rw [ih1]
    simp [Nat.add_assoc, Nat.add_comm 1]

/-- The loop ends at the terminator. -/
theorem replace_loop_end (vars : List Variable) (line out : List Char) (i fuel size : Nat)
    (h : suffix_at line i []) :
    replace_loop vars line (fuel + 1) i out size = .new_line out := by
  rw [replace_loop, (suffix_at_nil h).2]
  simp

/-- The copy of a plain character into a block that holds exactly the text
written so far and its NUL writes outside the block. -/
theorem replace_loop_overflow (vars : List Variable) (line out : List Char) (i fuel size : Nat)
    (c : Char) (rest : List Char) (h : suffix_at line i (c :: rest))
    (hc : c ≠ NUL ∧ c ≠ '$') (hsize : size < out.length + 2) :
    replace_loop vars line (fuel + 1) i out size = .overflow := by
  rw [replace_loop, (suffix_at_cons h).1]
  simp only [hc.1, hc.2, if_false, show ¬ (out.length + 2 ≤ size) by omega]

/-- The name scan over a valid name stops at the end character that follows it. -/
theorem scan_name_valid (is_end : Char → Bool) (N : List Char) (d : Char) (rest : List Char)
    (hN : ∀ c ∈ N, isValidVarChar c = true ∧ is_end c = false) (hd : is_end d = true) :
    ∀ j, scan_name is_end (N ++ d :: rest) j = .stop_at (j + N.length) := by
  induction N with
  | nil => intro j; simp [scan_name, hd]
  | cons c N ih =>
    intro j
    have hc := hN c (List.mem_cons_self _ _)
    have := ih (fun x hx => hN x (List.mem_cons_of_mem _ hx)) (j + 1)
    rw [List.cons_append, scan_name]
    simp only [hc.1, hc.2, Bool.false_eq_true, if_false, Bool.not_true]
    rw [this]
    congr 1
    simp; omega

theorem isValidVarChar_ne_brace {c : Char} (h : isValidVarChar c = true) : c ≠ '{' := by
  rintro rfl; revert h; decide

/-- One iteration on a braced reference: the name is looked up; when it is
bound the value is appended to the new line, the block is resized to hold
exactly the new text and its NUL, and the loop goes on after the closing
brace; when it is not bound the result is NULL. -/
theorem replace_loop_braced (vars : List Variable) (line N b out : List Char)
    (i fuel size : Nat)
    (hs : suffix_at line i ('$' :: '{' :: (N ++ '}' :: b)))
    (hvalid : ∀ c ∈ N, isValidVarChar c = true) :
    replace_loop vars line (fuel + 1) i out size
      = match find_value_from_name N vars with
        | none => .null
        | some v =>
          replace_loop vars line fuel (i + 1 + 1 + N.length + 1) (out ++ v)
            (out.length + v.length + 1) := by
  obtain ⟨g0, h2⟩ := suffix_at_cons hs
  obtain ⟨g1, h3⟩ := suffix_at_cons h2
  have hfirst : ∃ c2, cget line (i + 1 + 1) = some c2 ∧ c2 ≠ '=' := by
    cases N with
    | nil => exact ⟨'}', (suffix_at_cons (by simpa using h3)).1, by decide⟩
    | cons n0 N1 =>
      exact ⟨n0, (suffix_at_cons (by simpa using h3)).1,
        (isValidVarChar_ne (hvalid n0 (List.mem_cons_self _ _))).2.2.1⟩
  obtain ⟨c2, g2, hc2⟩ := hfirst
  have h4 := suffix_at_append N _ h3
  obtain ⟨g3, -⟩ := suffix_at_cons h4
  have hscan := scan_name_valid (fun x => x = '}' || x = NUL) N '}' b
    (fun c hc => by
      have := isValidVarChar_ne (hvalid c hc)
      simp [hvalid c hc, this.1, this.2.1])
    (by simp) (i + 1 + 1)
  have hdup := strndup_suffix N _ h3
  rw [replace_loop, g0]
  simp only [show ¬ ('$' = NUL) by decide, if_false, if_true]
  rw [g1]
  simp only [if_true]
  rw [g2]
  simp only [hc2, if_false]
  rw [h3.2, hscan]
  simp only [g3, Nat.add_sub_cancel_left]
  rw [hdup]
  simp only [show ¬ (some '}' = some NUL) by decide, if_false]

/-- One iteration on a bare reference ended by a space or a dot: as for the
braced form, and the loop goes on after the character that ended the name,
which is not copied. -/
theorem replace_loop_bare (vars : List Variable) (line N b out : List Char) (d : Char)
    (i fuel size : Nat)
    (hs : suffix_at line i ('$' :: (N ++ d :: b)))
    (hvalid : ∀ c ∈ N, isValidVarChar c = true) (hd : d = ' ' ∨ d = '.') :
    replace_loop vars line (fuel + 1) i out size
      = match find_value_from_name N vars with
        | none => .null
        | some v =>
          replace_loop vars line fuel (i + 1 + N.length + 1) (out ++ v)
            (out.length + v.length + 1) := by
  obtain ⟨g0, h2⟩ := suffix_at_cons hs
  have hfirst : ∃ c1, cget line (i + 1) = some c1 ∧ c1 ≠ '{' ∧ c1 ≠ '=' := by
    cases N with
    | nil =>
      refine ⟨d, (suffix_at_cons (by simpa using h2)).1, ?_, ?_⟩ <;>
        rcases hd with rfl | rfl <;> decide
    | cons n0 N1 =>
      have hn := hvalid n0 (List.mem_cons_self _ _)
      exact ⟨n0, (suffix_at_cons (by simpa using h2)).1, isValidVarChar_ne_brace hn,
        (isValidVarChar_ne hn).2.2.1⟩
  obtain ⟨c1, g1, hc1, hc1e⟩ := hfirst
  have hscan := scan_name_valid (fun x => x = ' ' || x = '.' || x = NUL) N d b
    (fun c hc => by
      have := isValidVarChar_ne (hvalid c hc)
      simp [hvalid c hc, this.1, this.2.2.2.1, this.2.2.2.2.1])
    (by rcases hd with rfl | rfl <;> simp) (i + 1)
  have hdup := strndup_suffix N _ h2
  rw [replace_loop, g0]
  simp only [show ¬ ('$' = NUL) by decide, if_false, if_true]
  rw [g1]
  simp only [hc1, hc1e, if_false]
  rw [h2.2, hscan]
  simp only [Nat.add_sub_cancel_left]
  rw [hdup]

/-- What follows a substitution: at the end of the line the new line is
returned; a plain character does not fit into the block, which was resized to
the text written so far. -/
theorem replace_loop_after_value (vars : List Variable) (line out b : List Char)
    (i fuel : Nat) (hs : suffix_at line i b) (hb : ∀ c ∈ b, c ≠ NUL ∧ c ≠ '$') :
    replace_loop vars line (fuel + 1) i out (out.length + 1)
      = if b = [] then .new_line out else .overflow := by
  cases b with
  | nil => simpa using replace_loop_end vars line out i fuel _ hs
  | cons c rest =>
    simp only [reduceCtorEq, if_false]
    exact replace_loop_overflow vars line out i fuel _ c rest hs
      (hb c (List.mem_cons_self _ _)) (by omega)

/-- The braced reference in a line without further `$`: the text before it and
the value are written; when the line ends with the closing brace the result
is `a ++ v`, the value being copied as it is and never scanned; when text
follows, its first character is written outside the block. -/
theorem replace_variables_mk_line_braced (vars : List Variable) (a N v b : CString)
    (ha : ∀ c ∈ a, c ≠ NUL ∧ c ≠ '$') (hb : ∀ c ∈ b, c ≠ NUL ∧ c ≠ '$')
    (hvalid : ∀ c ∈ N, isValidVarChar c = true)
    (hv : find_value_from_name N vars = some v) :
    replace_variables_mk_line (a ++ ('$' :: '{' :: (N ++ '}' :: b))) vars
      = if b = [] then .new_line (a ++ v) else .overflow := by
  unfold replace_variables_mk_line
  generalize hline : a ++ ('$' :: '{' :: (N ++ '}' :: b)) = line
  have h0 : suffix_at line 0 (a ++ ('$' :: '{' :: (N ++ '}' :: b))) := by
    rw [hline]; exact suffix_at_zero line
  have hlen : line.length = a.length + (N.length + b.length + 3) := by
    rw [← hline]; simp; omega
  have hfuel : line.length + 2 = ((N.length + b.length + 3) + 1 + 1) + a.length := by omega
  rw [hfuel, replace_loop_copy vars line a ha _ _ 0 _ _ h0
    (Or.inr (by simp only [List.length_nil]; omega))]
  have h1 := suffix_at_append a _ h0
  simp only [Nat.zero_add, List.nil_append] at h1 ⊢
  rw [replace_loop_braced vars line N b a _ _ _ h1 hvalid, hv]
  simp only []
  have h5 := suffix_at_append N _ (suffix_at_cons (suffix_at_cons h1).2).2
  have h6 := (suffix_at_cons h5).2
  have hfin := replace_loop_after_value vars line (a ++ v) b _ (N.length + b.length + 3) h6 hb
  rw [List.length_append] at hfin
  exact hfin

/-- C3 (failing input). With `X` bound to a text that holds `$Y` and a braced
reference, the braced reference to `X` at the end of the line is replaced by
the value as it is; with the text ` end` after the reference, the block of the
new line, resized to exactly the text written so far (lines 569-570), has no
room for the next character and the copy (lines 622-624) writes outside it. -/
theorem C3_text_after_reference_overflows :
    replace_variables_mk_line "echo $\x7bX\x7d".toList vars_X
        = .new_line "echo $Y $\x7bZ\x7d".toList
      ∧ replace_variables_mk_line "echo $\x7bX\x7d end".toList vars_X = .overflow
      ∧ parse_line fs_bin vars_path_A "echo $\x7bA\x7d b #".toList
          = (.undefined, vars_path_A) := by
  decide


/-! ## Pointer scans -/

theorem scan_eq_scanFrom {s : List Char} {i : Nat} {suf : List Char}
    (stop : Nat → Char → Bool) (h : suffix_at s i suf) :
    scan stop s i = scanFrom stop suf i := by
  simp [scan, h.1, h.2]

/-- A scan over characters that do not stop it ends at the first stop character. -/
theorem scanFrom_run (stop : Nat → Char → Bool) (x : List Char) (d : Char) (rest : List Char) :
    ∀ i, (∀ k, ∀ c ∈ x, stop (i + k) c = false) → stop (i + x.length) d = true →
      scanFrom stop (x ++ d :: rest) i = some (i + x.length) := by
  induction x with
  | nil =>
    intro i _ hd
    have hd1 : stop i d = true := by simpa using hd
    simp [scanFrom, hd1]
  | cons c x ih =>
    intro i hx hd
    have hc : stop i c = false := by simpa using hx 0 c (List.mem_cons_self _ _)
    have h1 := ih (i + 1)
      (fun k y hy => by
        have := hx (k + 1) y (List.mem_cons_of_mem _ hy)
        rwa [show i + (k + 1) = i + 1 + k by omega] at this)
      (by rwa [show i + 1 + x.length = i + (c :: x).length by simp; omega])
    rw [List.cons_append, scanFrom]
    simp only [hc, Bool.false_eq_true, if_false]
    rw [h1]
    congr 1
    simp; omega

/-- A scan that stops at the terminator never leaves the string. -/
theorem scanFrom_total (stop : Nat → Char → Bool) (hstop : ∀ k, stop k NUL = true)
    (suf : List Char) : ∀ i, ∃ q, scanFrom stop suf i = some q := by
  induction suf with
  | nil => intro i; exact ⟨i, by simp [scanFrom, hstop]⟩
  | cons c suf ih =>
    intro i
    rw [scanFrom]
    by_cases h : stop i c = true
    · exact ⟨i, by simp [h]⟩
    · obtain ⟨q, hq⟩ := ih (i + 1)
      exact ⟨q, by simp [h, hq]⟩

theorem isspace_ne {c : Char} (h : isspace c = true) :
    c ≠ NUL ∧ isValidVarChar c = false := by
  constructor
  · rintro rfl; revert h; decide
  · simp only [isspace, Bool.or_eq_true, decide_eq_true_eq, Bool.and_eq_true] at h
    simp only [isValidVarChar, isalpha, Bool.or_eq_false_iff, Bool.and_eq_false_iff,
      decide_eq_false_iff_not]
    refine ⟨⟨by omega, by omega⟩, ?_⟩
    rintro rfl
    revert h
    decide


/-! ## Line parser: theorems -/

theorem strchr_none {c : Char} {l : List Char} (h : c ∉ l) : strchr c l = none := by
  induction l with
  | nil => rfl
  | cons x l ih =>
    have hx : x ≠ c := fun e => h (by simp [e])
    have hl : c ∉ l := fun e => h (List.mem_cons_of_mem _ e)
    simp [strchr, hx, ih hl]

theorem dropWhile_isspace_run (ws : List Char) (c : Char) (rest : List Char)
    (hws : ∀ x ∈ ws, isspace x = true) (hc : isspace c = false) :
    (ws ++ c :: rest).dropWhile isspace = c :: rest := by
  induction ws with
  | nil => simp [List.dropWhile, hc]
  | cons w ws ih =>
    have hw := hws w (List.mem_cons_self _ _)
    simp only [List.cons_append, List.dropWhile, hw]
    exact ih (fun x hx => hws x (List.mem_cons_of_mem _ hx))

/-- A stage whose command name does not resolve ends the main loop with the
error result, wherever the stage starts and whatever was parsed before. -/
theorem parse_commands_unresolved (fs : FileSystem) (path : Option Variable)
    (s ws : List Char) (c0 : Char) (ct : List Char) (d : Char) (rest : List Char)
    (curr fuel : Nat) (head : List Command)
    (hs : suffix_at s curr (ws ++ (c0 :: ct ++ d :: rest)))
    (hws : ∀ x ∈ ws, isspace x = true)
    (hc0 : isValidVarChar c0 = true)
    (hword : ∀ x ∈ c0 :: ct, stop_word 0 x = false)
    (hd : stop_word 0 d = true)
    (hres : resolve_executable fs (c0 :: ct) path = .null) :
    parse_commands fs path s (fuel + 1) curr head = .error := by
  have hp : suffix_at s (curr + ws.length) (c0 :: ct ++ d :: rest) := suffix_at_append ws _ hs
  obtain ⟨gp, -⟩ := suffix_at_cons (by simpa using hp : suffix_at s (curr + ws.length) (c0 :: (ct ++ d :: rest)))
  have hc0n := isValidVarChar_ne hc0
  -- the first character read is not the terminator
  have hfirst : ∃ f, cget s curr = some f ∧ f ≠ NUL := by
    cases ws with
    | nil =>
      refine ⟨c0, ?_, hc0n.1⟩
      simpa using gp
    | cons w ws =>
      have := (suffix_at_cons (by simpa using hs :
        suffix_at s curr (w :: (ws ++ (c0 :: ct ++ d :: rest))))).1
      exact ⟨w, this, (isspace_ne (hws w (List.mem_cons_self _ _))).1⟩
  obtain ⟨f, hf, hfn⟩ := hfirst
  -- skipping white space stops at the command name
  have hskip : scan stop_space s curr = some (curr + ws.length) := by
    rw [scan_eq_scanFrom stop_space hs]
    have : ws ++ (c0 :: ct ++ d :: rest) = ws ++ c0 :: (ct ++ d :: rest) := by simp
    rw [this]
    apply scanFrom_run
    · intro k x hx
      simp [stop_space, hws x hx, (isspace_ne (hws x hx)).1]
    · have : isspace c0 = false := by
        cases h : isspace c0
        · rfl
        · have := (isspace_ne h).2
          rw [hc0] at this; cases this
      simp [stop_space, this]
  obtain ⟨pipe_index, hpipe⟩ : ∃ q, scan stop_pipe s (curr + ws.length) = some q := by
    rw [scan_eq_scanFrom stop_pipe hp]
    exact scanFrom_total stop_pipe (fun _ => by simp [stop_pipe]) _ _
  have hexec : scan stop_word s (curr + ws.length)
      = some (curr + ws.length + (c0 :: ct).length) := by
    rw [scan_eq_scanFrom stop_word hp]
    apply scanFrom_run
    · intro k x hx; exact hword x hx
    · exact hd
  have hname : strndup s (curr + ws.length) (c0 :: ct).length = c0 :: ct :=
    strndup_suffix (c0 :: ct) _ hp
  rw [parse_commands, hf]
  simp only [hfn, if_false]
  rw [hskip]
  simp only [gp]
  have hops : ¬ ((!isValidVarChar c0 || decide (c0 = '|') || decide (c0 = '>') ||
      decide (c0 = '<')) = true) := by
    have h1 : c0 ≠ '|' := by rintro rfl; revert hc0; decide
    have h2 : c0 ≠ '>' := by rintro rfl; revert hc0; decide
    have h3 : c0 ≠ '<' := by rintro rfl; revert hc0; decide
    simp [hc0, h1, h2, h3]
  rw [if_neg hops, hpipe]
  simp only [hexec, Nat.add_sub_cancel_left, hname, hres]

/-- A command name for which `resolve_executable` returns NULL is a parse
error. When the first token of a stage, a name `c0 :: ct` beginning with a
letter or underscore and ended by a space, `<` or `>`, gets the NULL result,
(1) the main loop returns the error result from any stage start, whatever
stages precede, and (2) `parse_line` returns the error result and leaves the
table unchanged for every line that is not an assignment and whose expansion
starts with that stage. -/
theorem parse_line_unresolved_command (fs : FileSystem) (vars : List Variable)
    (ws : List Char) (c0 : Char) (ct : List Char) (d : Char) (rest : List Char)
    (hws : ∀ x ∈ ws, isspace x = true)
    (hc0 : isValidVarChar c0 = true)
    (hword : ∀ x ∈ c0 :: ct, stop_word 0 x = false)
    (hd : stop_word 0 d = true)
    (hres : resolve_executable fs (c0 :: ct) vars.head? = .null) :
    (∀ (s : CString) (curr fuel : Nat) (head : List Command),
        suffix_at s curr (ws ++ (c0 :: ct ++ d :: rest)) →
        parse_commands fs vars.head? s (fuel + 1) curr head = .error)
    ∧ (∀ line : CString, is_blank_or_comment line = false → '=' ∉ line →
        replace_variables_mk_line line vars = .new_line (ws ++ (c0 :: ct ++ d :: rest)) →
        parse_line fs vars line = (.error, vars)) := by
  refine ⟨fun s curr fuel head hs =>
    parse_commands_unresolved fs _ s ws c0 ct d rest curr fuel head hs hws hc0 hword hd hres, ?_⟩
  intro line hblank heq hexp
  have hhead : ¬ (line.head? = none ∨ line.head? = some NUL) := by
    cases line with
    | nil => simp [is_blank_or_comment] at hblank
    | cons x t =>
      rintro (h | h)
      · simp at h
      · simp only [List.head?_cons, Option.some.injEq] at h
        subst h
        revert hblank
        simp [is_blank_or_comment, List.dropWhile, show isspace NUL = false by decide]
  have hstart : startsWithEqualSign line = false := by
    cases line with
    | nil => simp [startsWithEqualSign]
    | cons x t =>
      have : x ≠ '=' := fun e => heq (by simp [e])
      simp [startsWithEqualSign, this]
  have hpath : defines_path_variable line = false := by
    simp only [defines_path_variable, decide_eq_false_iff_not]
    intro h
    apply heq
    have : '=' ∈ line.take 5 := by rw [h]; decide
    exact List.mem_of_mem_take this
  unfold parse_line
  rw [if_neg hhead]
  simp only [hblank, hstart, hpath, Bool.false_eq_true, if_false, strchr_none heq, hexp]
  have := parse_commands_unresolved fs vars.head? (ws ++ (c0 :: ct ++ d :: rest)) ws c0 ct d rest
    0 ((ws ++ (c0 :: ct ++ d :: rest)).length + 1) [] (suffix_at_zero _) hws hc0 hword hd hres
  rw [this]

/-- The line of the specification: `nosuchcmd123 arg` with `PATH=/bin`, where
`/bin` lists no such entry, is a parse error. -/
theorem parse_line_unresolved_command_example :
    resolve_executable fs_bin "nosuchcmd123".toList vars_path_A.head? = .null
      ∧ parse_line fs_bin vars_path_A "nosuchcmd123 arg".toList = (.error, vars_path_A) :=
  ⟨by decide,
    (parse_line_unresolved_command fs_bin vars_path_A [] 'n' "osuchcmd123".toList ' '
      "arg".toList (by decide) (by decide) (by decide) (by decide) (by decide)).2
      "nosuchcmd123 arg".toList (by decide) (by decide) (by decide)⟩

/-- C5 (failing input). The command `nosuchcmd123` is listed in no PATH
directory, yet the error result is not what `parse_line` gives for every
table and line: with the table `PATH=` (empty value) the search passes the
NULL result of `strtok` to `opendir`, and when the name is the last token of
the line the scan of the name reads past the terminator. With `PATH=/bin` and
an argument after the name the error result is returned. -/
theorem C5_unresolved_command_not_reported :
    parse_line fs_bin vars_path_empty "nosuchcmd123 arg".toList
        = (.undefined, vars_path_empty)
      ∧ parse_line fs_bin vars_path_A "nosuchcmd123".toList = (.undefined, vars_path_A)
      ∧ parse_line fs_bin vars_path_A "nosuchcmd123 arg".toList
        = (.error, vars_path_A) := by
  decide


/-! ## Spaced stages: theorems -/

theorem scanFrom_skip (stop : Nat → Char → Bool) (x suf : List Char) :
    ∀ i, (∀ k, ∀ c ∈ x, stop (i + k) c = false) →
      scanFrom stop (x ++ suf) i = scanFrom stop suf (i + x.length) := by
  induction x with
  | nil => intro i _; simp
  | cons c x ih =>
    intro i hx
    have hc : stop i c = false := by simpa using hx 0 c (List.mem_cons_self _ _)
    have h1 := ih (i + 1)
      (fun k y hy => by
        have := hx (k + 1) y (List.mem_cons_of_mem _ hy)
        rwa [show i + (k + 1) = i + 1 + k by omega] at this)
    rw [List.cons_append, scanFrom]
    simp only [hc, Bool.false_eq_true, if_false]
    rw [h1]
    congr 1
    simp; omega

theorem scanFrom_ge (stop : Nat → Char → Bool) (suf : List Char) :
    ∀ i q, scanFrom stop suf i = some q → i ≤ q := by
  induction suf with
  | nil =>
    intro i q h
    rw [scanFrom] at h
    split at h
    · simp at h; omega
    · cases h
  | cons c suf ih =>
    intro i q h
    rw [scanFrom] at h
    split at h
    · simp at h; omega
    · have := ih _ _ h; omega

theorem plain_char_ne {c : Char} (h : plain_char c = true) :
    c ≠ ' ' ∧ c ≠ '<' ∧ c ≠ '>' ∧ c ≠ '|' ∧ c ≠ NUL := by
  simp only [plain_char, Bool.not_eq_true', Bool.or_eq_false_iff, decide_eq_false_iff_not] at h
  tauto

theorem plain_char_stop {c : Char} (h : plain_char c = true) (k : Nat) :
    stop_word k c = false ∧ stop_pipe k c = false := by
  have := plain_char_ne h
  simp [stop_word, stop_pipe, this]

/-- A scan whose stop test depends on the index: the characters of `x` do not
stop it at their own positions. -/
theorem scanFrom_run_lt (stop : Nat → Char → Bool) (x : List Char) (d : Char)
    (rest : List Char) :
    ∀ i, (∀ k, k < x.length → ∀ c ∈ x, stop (i + k) c = false) →
      stop (i + x.length) d = true →
      scanFrom stop (x ++ d :: rest) i = some (i + x.length) := by
  induction x with
  | nil =>
    intro i _ hd
    have hd1 : stop i d = true := by simpa using hd
    simp [scanFrom, hd1]
  | cons c x ih =>
    intro i hx hd
    have hc : stop i c = false := by
      simpa using hx 0 (by simp) c (List.mem_cons_self _ _)
    have h1 := ih (i + 1)
      (fun k hk y hy => by
        have := hx (k + 1) (by simp; omega) y (List.mem_cons_of_mem _ hy)
        rwa [show i + (k + 1) = i + 1 + k by omega] at this)
      (by rwa [show i + 1 + x.length = i + (c :: x).length by simp; omega])
    rw [List.cons_append, scanFrom]
    simp only [hc, Bool.false_eq_true, if_false]
    rw [h1]
    congr 1
    simp; omega

theorem word_ok_parts {w : CString} (h : word_ok w = true) :
    (∀ x ∈ w, plain_char x = true) ∧ ∃ c t, w = c :: t ∧ c ≠ '#' := by
  simp only [word_ok, Bool.and_eq_true, List.all_eq_true] at h
  obtain ⟨h1, h2⟩ := h
  refine ⟨h1, ?_⟩
  cases w with
  | nil => simp at h2
  | cons c t => exact ⟨c, t, rfl, by simpa using h2⟩

theorem Item.text_stop_pipe (it : Item) (hok : it.ok = true) :
    ∀ c ∈ it.text, ∀ k, stop_pipe k c = false := by
  have hsp : ∀ x, isspace x = true → ∀ k, stop_pipe k x = false := by
    intro x hx k
    have h1 : x ≠ '|' := by rintro rfl; revert hx; decide
    simp [stop_pipe, h1, (isspace_ne hx).1]
  have hpl : ∀ w, word_ok w = true → ∀ x ∈ w, ∀ k, stop_pipe k x = false :=
    fun w hw x hx k => (plain_char_stop ((word_ok_parts hw).1 x hx) k).2
  intro c hc k
  cases it with
  | space =>
    simp only [Item.text, List.mem_singleton] at hc
    subst hc; rfl
  | arg w =>
    simp only [Item.text, List.mem_append, List.mem_singleton] at hc
    rcases hc with hc | rfl
    · exact hpl w hok c hc k
    · rfl
  | redir_in gap w =>
    simp only [Item.ok, target_ok, Bool.and_eq_true, List.all_eq_true] at hok
    simp only [Item.text, List.mem_cons, List.mem_append, List.not_mem_nil, or_false] at hc
    rcases hc with rfl | hc | hc | rfl
    · rfl
    · exact hsp c (hok.1 c hc) k
    · exact hpl w hok.2.1 c hc k
    · rfl
  | redir_out gap w =>
    simp only [Item.ok, target_ok, Bool.and_eq_true, List.all_eq_true] at hok
    simp only [Item.text, List.mem_cons, List.mem_append, List.not_mem_nil, or_false] at hc
    rcases hc with rfl | hc | hc | rfl
    · rfl
    · exact hsp c (hok.1 c hc) k
    · exact hpl w hok.2.1 c hc k
    · rfl
  | redir_append gap w =>
    simp only [Item.ok, target_ok, Bool.and_eq_true, List.all_eq_true] at hok
    simp only [Item.text, List.mem_cons, List.mem_append, List.not_mem_nil, or_false] at hc
    rcases hc with rfl | rfl | hc | hc | rfl
    · rfl
    · rfl
    · exact hsp c (hok.1 c hc) k
    · exact hpl w hok.2.1 c hc k
    · rfl

theorem tokens_text_stop_pipe (items : List Item) (hok : ∀ it ∈ items, it.ok = true) :
    ∀ c ∈ tokens_text items, ∀ k, stop_pipe k c = false := by
  induction items with
  | nil => intro c hc; simp [tokens_text] at hc
  | cons it t ih =>
    intro c hc k
    simp only [tokens_text, List.mem_append] at hc
    rcases hc with hc | hc
    · exact Item.text_stop_pipe it (hok it (List.mem_cons_self _ _)) c hc k
    · exact ih (fun x hx => hok x (List.mem_cons_of_mem _ hx)) c hc k

theorem Item.text_length_pos (it : Item) : 1 ≤ it.text.length := by
  cases it <;> simp [Item.text]

/-- The target of a redirect operator that is followed by a space before the
end of the stage is read as it is written. -/
theorem redirect_target_name (stop : Nat → Char → Bool) (s : List Char)
    (pipe_index curr : Nat) (gap w rest : List Char)
    (hs : suffix_at s curr (gap ++ (w ++ ' ' :: rest)))
    (hgap : ∀ x ∈ gap, isspace x = true) (hw : target_ok w = true)
    (hle : curr + gap.length + w.length < pipe_index)
    (hstop : stop = stop_word ∨ stop = stop_word_or_pipe pipe_index) :
    redirect_target stop s pipe_index curr = .name w (curr + gap.length + w.length) := by
  simp only [target_ok, Bool.and_eq_true] at hw
  obtain ⟨hwok, hfirst⟩ := hw
  obtain ⟨hplain, c, t, rfl, hhash⟩ := word_ok_parts hwok
  have hcs : isspace c = false := by simpa using hfirst
  have hc := plain_char_ne (hplain c (List.mem_cons_self _ _))
  have hp := suffix_at_append gap _ hs
  obtain ⟨gp, -⟩ := suffix_at_cons (by simpa using hp :
    suffix_at s (curr + gap.length) (c :: (t ++ ' ' :: rest)))
  have hskip : scan stop_space s curr = some (curr + gap.length) := by
    have hs1 : suffix_at s curr (gap ++ c :: (t ++ ' ' :: rest)) := by simpa using hs
    rw [scan_eq_scanFrom stop_space hs1]
    apply scanFrom_run
    · intro k x hx
      simp [stop_space, hgap x hx, (isspace_ne (hgap x hx)).1]
    · simp [stop_space, hcs]
  have hscan : scan stop s (curr + gap.length)
      = some (curr + gap.length + (c :: t).length) := by
    rw [scan_eq_scanFrom stop hp]
    apply scanFrom_run_lt
    · intro k hk x hx
      have hx1 := plain_char_ne (hplain x hx)
      rcases hstop with rfl | rfl
      · simp [stop_word, hx1]
      · have : curr + gap.length + k ≠ pipe_index := by omega
        simp [stop_word_or_pipe, hx1, this]
    · rcases hstop with rfl | rfl
      · rfl
      · simp [stop_word_or_pipe]
  have hdup := strndup_suffix (c :: t) _ hp
  have hne1 : curr + gap.length ≠ pipe_index := by omega
  have hne2 : curr + gap.length + (c :: t).length ≠ pipe_index := by omega
  unfold redirect_target
  rw [hskip]
  simp only [gp, hc.2.2.2.2, hne1, hc.2.1, hhash, hc.2.2.1, decide_False, Bool.or_self,
    Bool.false_eq_true, if_false, hscan, hne2, Nat.add_sub_cancel_left, hdup]

/-- One iteration of the per-command loop on a well-formed item. -/
theorem parse_tokens_item (s : List Char) (pipe_index : Nat) (it : Item) (rest : List Char)
    (fuel curr : Nat) (cmd : Command)
    (hs : suffix_at s curr (it.text ++ rest))
    (hle : curr + it.text.length ≤ pipe_index)
    (hok : it.ok = true) :
    parse_tokens s pipe_index (fuel + 1) curr cmd
      = parse_tokens s pipe_index fuel (curr + it.text.length) (it.apply cmd) := by
  have hlt : curr < pipe_index := by
    have := Item.text_length_pos it
    omega
  cases it with
  | space =>
    simp only [Item.text, List.cons_append, List.nil_append, List.length_cons,
      List.length_nil] at hs hle ⊢
    obtain ⟨g, -⟩ := suffix_at_cons hs
    rw [parse_tokens, if_pos hlt, g]
    simp only [show ¬ (' ' = '>') by decide, show ¬ (' ' = '<') by decide,
      show ¬ (' ' = '#') by decide, if_false, ne_eq, not_true_eq_false, Item.apply]
  | arg w =>
    obtain ⟨hplain, c, t, rfl, hhash⟩ := word_ok_parts hok
    have hc := plain_char_ne (hplain c (List.mem_cons_self _ _))
    have hs0 : suffix_at s curr ((c :: t) ++ (' ' :: rest)) := by
      simpa [Item.text] using hs
    obtain ⟨g, -⟩ := suffix_at_cons (by simpa using hs0 :
      suffix_at s curr (c :: (t ++ (' ' :: rest))))
    have hscan : scan stop_word s curr = some (curr + (c :: t).length) := by
      rw [scan_eq_scanFrom stop_word hs0]
      apply scanFrom_run
      · intro k x hx; exact (plain_char_stop (hplain x hx) _).1
      · rfl
    have hdup := strndup_suffix (c :: t) _ hs0
    rw [parse_tokens, if_pos hlt, g]
    simp only [hc.2.2.1, hc.2.1, hhash, hc.1, if_false, ne_eq, not_false_eq_true, if_true]
    rw [hscan]
    simp only [Nat.add_sub_cancel_left]
    rw [hdup]
    simp only [Item.apply, Item.text, List.length_append, List.length_cons, List.length_nil]
    congr 1
  | redir_in gap w =>
    simp only [Item.ok, Bool.and_eq_true, List.all_eq_true] at hok
    simp only [Item.text, List.length_cons, List.length_append, List.length_nil] at hle ⊢
    have hs0 : suffix_at s curr ('<' :: (gap ++ (w ++ ' ' :: rest))) := by
      simpa [Item.text] using hs
    obtain ⟨g, hs1⟩ := suffix_at_cons hs0
    rw [parse_tokens, if_pos hlt, g]
    simp only [show ¬ ('<' = '>') by decide, if_false, if_true]
    rw [redirect_target_name stop_word s pipe_index (curr + 1) gap w rest hs1 hok.1 hok.2
      (by omega) (Or.inl rfl)]
    simp only [Item.apply]
    congr 1
    omega
  | redir_out gap w =>
    simp only [Item.ok, Bool.and_eq_true, List.all_eq_true] at hok
    simp only [Item.text, List.length_cons, List.length_append, List.length_nil] at hle ⊢
    have hs0 : suffix_at s curr ('>' :: (gap ++ (w ++ ' ' :: rest))) := by
      simpa [Item.text] using hs
    obtain ⟨g, hs1⟩ := suffix_at_cons hs0
    obtain ⟨c1, hc1, hc1n⟩ : ∃ c1, cget s (curr + 1) = some c1 ∧ c1 ≠ '>' := by
      have hw := hok.2
      simp only [target_ok, Bool.and_eq_true] at hw
      obtain ⟨hplain, c, t, rfl, -⟩ := word_ok_parts hw.1
      cases gap with
      | nil =>
        have := (suffix_at_cons (by simpa using hs1 :
          suffix_at s (curr + 1) (c :: (t ++ ' ' :: rest)))).1
        exact ⟨c, this, (plain_char_ne (hplain c (List.mem_cons_self _ _))).2.2.1⟩
      | cons x gap1 =>
        have := (suffix_at_cons (by simpa using hs1 :
          suffix_at s (curr + 1) (x :: (gap1 ++ (c :: t ++ ' ' :: rest))))).1
        refine ⟨x, this, ?_⟩
        have hx := hok.1 x (List.mem_cons_self _ _)
        rintro rfl
        revert hx
        decide
    rw [parse_tokens, if_pos hlt, g]
    simp only [if_true, hc1, hc1n, if_false]
    rw [redirect_target_name (stop_word_or_pipe pipe_index) s pipe_index (curr + 1) gap w rest
      hs1 hok.1 hok.2 (by omega) (Or.inr rfl)]
    simp only [Item.apply]
    congr 1
    omega
  | redir_append gap w =>
    simp only [Item.ok, Bool.and_eq_true, List.all_eq_true] at hok
    simp only [Item.text, List.length_cons, List.length_append, List.length_nil] at hle ⊢
    have hs0 : suffix_at s curr ('>' :: '>' :: (gap ++ (w ++ ' ' :: rest))) := by
      simpa [Item.text] using hs
    obtain ⟨g, hs1⟩ := suffix_at_cons hs0
    obtain ⟨g1, hs2⟩ := suffix_at_cons hs1
    rw [parse_tokens, if_pos hlt, g]
    simp only [if_true, g1]
    rw [redirect_target_name stop_word s pipe_index (curr + 1 + 1) gap w rest hs2 hok.1 hok.2
      (by omega) (Or.inl rfl)]
    simp only [Item.apply]
    congr 1
    omega

/-- The per-command loop over well-formed items: one iteration per item, each
applied to the command node in order. -/
theorem parse_tokens_items (s : List Char) (pipe_index : Nat) :
    ∀ (items : List Item) (rest : List Char) (fuel curr : Nat) (cmd : Command),
      suffix_at s curr (tokens_text items ++ rest) →
      curr + (tokens_text items).length ≤ pipe_index →
      (∀ it ∈ items, it.ok = true) →
      parse_tokens s pipe_index (fuel + items.length) curr cmd
        = parse_tokens s pipe_index fuel (curr + (tokens_text items).length)
            (apply_items cmd items) := by
  intro items
  induction items with
  | nil =>
    intro rest fuel curr cmd _ _ _
    simp [tokens_text, apply_items]
  | cons it t ih =>
    intro rest fuel curr cmd hs hle hok
    have e : fuel + (it :: t).length = (fuel + t.length) + 1 := by
      simp only [List.length_cons]; omega
    simp only [tokens_text, List.length_append] at hle ⊢
    have hs0 : suffix_at s curr (it.text ++ (tokens_text t ++ rest)) := by
      simpa [tokens_text] using hs
    rw [e, parse_tokens_item s pipe_index it _ _ curr cmd hs0 (by omega)
      (hok it (List.mem_cons_self _ _)),
      ih rest fuel _ _ (suffix_at_append it.text _ hs0) (by omega)
        (fun x hx => hok x (List.mem_cons_of_mem _ hx))]
    simp only [apply_items]
    congr 1
    omega

theorem suffix_at_length {s : List Char} {i : Nat} {suf : List Char} (h : suffix_at s i suf) :
    i + suf.length = s.length := by
  obtain ⟨hle, hd⟩ := h
  rw [← hd, List.length_drop]
  omega

theorem tokens_text_length (items : List Item) :
    items.length ≤ (tokens_text items).length := by
  induction items with
  | nil => simp [tokens_text]
  | cons it t ih =>
    have := Item.text_length_pos it
    simp only [tokens_text, List.length_append, List.length_cons]
    omega

/-- One iteration of the main loop up to the per-command loop. -/
theorem parse_commands_step (fs : FileSystem) (path : Option Variable) (s : List Char)
    (fuel curr : Nat) (head : List Command) (f c : Char) (p pipe_index q : Nat)
    (exec_path : CString)
    (hf : cget s curr = some f) (hfn : f ≠ NUL)
    (hskip : scan stop_space s curr = some p)
    (hc : cget s p = some c) (hvalid : isValidVarChar c = true)
    (hpipe : scan stop_pipe s p = some pipe_index)
    (hexec : scan stop_word s p = some q)
    (hres : resolve_executable fs (strndup s p (q - p)) path = .path exec_path) :
    parse_commands fs path s (fuel + 1) curr head
      = match parse_tokens s pipe_index (s.length + 2) q
            { exec_path := exec_path, args := [strndup s p (q - p)],
              stdin_fd := STDIN_FILENO, stdout_fd := STDOUT_FILENO,
              redir_in_path := none, redir_out_path := none, redir_append := 0 } with
        | .out_of_fuel => .out_of_fuel
        | .out_of_bounds => .undefined
        | .error => .error
        | .comment cmd => .head (head ++ [cmd])
        | .done cmd =>
          parse_commands fs path s fuel (pipe_index + 1)
            (head ++ [{ cmd with args_end := .null }]) := by
  rw [parse_commands, hf]
  simp only [hfn, if_false]
  rw [hskip]
  simp only [hc]
  have hops : ¬ ((!isValidVarChar c || decide (c = '|') || decide (c = '>') ||
      decide (c = '<')) = true) := by
    have h1 : c ≠ '|' := by rintro rfl; revert hvalid; decide
    have h2 : c ≠ '>' := by rintro rfl; revert hvalid; decide
    have h3 : c ≠ '<' := by rintro rfl; revert hvalid; decide
    simp [hvalid, h1, h2, h3]
  rw [if_neg hops, hpipe]
  simp only [hexec, hres]

/-- What a well-formed stage says about its parts. -/
theorem SpacedStage.ok_parts {fs : FileSystem} {path : Option Variable} {st : SpacedStage}
    (h : st.ok fs path = true) :
    (∀ x ∈ st.ws, isspace x = true) ∧ (∀ x ∈ st.cmd, plain_char x = true)
      ∧ (∃ c0 ct, st.cmd = c0 :: ct ∧ isValidVarChar c0 = true)
      ∧ (∀ it ∈ st.items, it.ok = true)
      ∧ resolve_executable fs st.cmd path = .path st.exec_path := by
  simp only [SpacedStage.ok, Bool.and_eq_true, List.all_eq_true, decide_eq_true_eq] at h
  obtain ⟨⟨⟨⟨h1, h2⟩, h3⟩, h4⟩, h5⟩ := h
  refine ⟨h1, h2, ?_, h4, h5⟩
  cases hcmd : st.cmd with
  | nil => rw [hcmd] at h3; simp at h3
  | cons c0 ct => rw [hcmd] at h3; exact ⟨c0, ct, rfl, h3⟩

/-- The main loop on a well-formed stage, up to the end of its items:
the command name is resolved, its arguments are collected, and the
per-command loop stands at the first character after the text of the stage. -/
theorem parse_commands_plain_start (fs : FileSystem) (path : Option Variable) (s : List Char)
    (st : SpacedStage) (tail : List Char) (fuel curr pipe_index : Nat) (head : List Command)
    (hok : st.ok fs path = true)
    (hs : suffix_at s curr (st.text ++ tail))
    (hpi : scanFrom stop_pipe tail (curr + st.text.length) = some pipe_index) :
    parse_commands fs path s (fuel + 1) curr head
      = match parse_tokens s pipe_index (s.length - st.items.length + 1)
            (curr + st.text.length) st.command with
        | .out_of_fuel => .out_of_fuel
        | .out_of_bounds => .undefined
        | .error => .error
        | .comment cmd => .head (head ++ [cmd])
        | .done cmd =>
          parse_commands fs path s fuel (pipe_index + 1)
            (head ++ [{ cmd with args_end := .null }]) := by
  obtain ⟨hws, hcmd, ⟨c0, ct, hcmd0, hc0⟩, hitems, hres⟩ := SpacedStage.ok_parts hok
  have hc0n := isValidVarChar_ne hc0
  have hbound := scanFrom_ge _ _ _ _ hpi
  have hs0 : suffix_at s curr
      (st.ws ++ (st.cmd ++ (tokens_text (Item.space :: st.items) ++ tail))) := by
    simpa [SpacedStage.text, tokens_text, Item.text] using hs
  have htextlen : st.text.length
      = st.ws.length + st.cmd.length + (tokens_text (Item.space :: st.items)).length := by
    simp [SpacedStage.text, tokens_text, Item.text]; omega
  have hitems1 : ∀ it ∈ Item.space :: st.items, it.ok = true := by
    intro it hit
    rcases List.mem_cons.1 hit with h | h
    · subst h; rfl
    · exact hitems it h
  have hcommand : st.command = apply_items
      { exec_path := st.exec_path, args := [st.cmd],
        stdin_fd := STDIN_FILENO, stdout_fd := STDOUT_FILENO,
        redir_in_path := none, redir_out_path := none, redir_append := 0 }
      (Item.space :: st.items) := by
    simp [SpacedStage.command, apply_items, Item.apply]
  have hilen : (Item.space :: st.items).length = st.items.length + 1 := rfl
  have hsp : ∃ t, tokens_text (Item.space :: st.items) = ' ' :: t := ⟨_, rfl⟩
  rw [htextlen] at hpi hbound ⊢
  rw [hcommand]
  clear htextlen hcommand
  generalize (Item.space :: st.items) = items1 at hs0 hitems1 hsp hilen hpi hbound ⊢
  generalize hT : tokens_text items1 = text at hs0 hsp hpi hbound ⊢
  obtain ⟨text1, htext1⟩ := hsp
  have hstopT : ∀ x ∈ text, ∀ k, stop_pipe k x = false := by
    rw [← hT]; exact tokens_text_stop_pipe items1 hitems1
  have hil : items1.length ≤ text.length := by
    rw [← hT]; exact tokens_text_length items1
  have hp := suffix_at_append st.ws _ hs0
  have hq := suffix_at_append st.cmd _ hp
  have hlen := suffix_at_length hq
  rw [List.length_append] at hlen
  obtain ⟨gp, -⟩ := suffix_at_cons (by simpa [hcmd0] using hp :
    suffix_at s (curr + st.ws.length) (c0 :: (ct ++ (text ++ tail))))
  -- the first character read is not the terminator
  have hfirst : ∃ f, cget s curr = some f ∧ f ≠ NUL := by
    cases hw : st.ws with
    | nil =>
      refine ⟨c0, ?_, hc0n.1⟩
      simpa [hw] using gp
    | cons w ws =>
      have := (suffix_at_cons (by simpa [hw] using hs0 :
        suffix_at s curr (w :: (ws ++ (st.cmd ++ (text ++ tail)))))).1
      exact ⟨w, this, (isspace_ne (hws w (by simp [hw]))).1⟩
  obtain ⟨f, hf, hfn⟩ := hfirst
  have hskip : scan stop_space s curr = some (curr + st.ws.length) := by
    rw [scan_eq_scanFrom stop_space hs0, hcmd0]
    apply scanFrom_run
    · intro k x hx
      simp [stop_space, hws x hx, (isspace_ne (hws x hx)).1]
    · have : isspace c0 = false := by
        cases h : isspace c0
        · rfl
        · have := (isspace_ne h).2
          rw [hc0] at this; cases this
      simp [stop_space, this]
  have hexec : scan stop_word s (curr + st.ws.length)
      = some (curr + st.ws.length + st.cmd.length) := by
    rw [scan_eq_scanFrom stop_word hp, htext1, List.cons_append]
    apply scanFrom_run
    · intro k x hx; exact (plain_char_stop (hcmd x hx) _).1
    · rfl
  have hname : strndup s (curr + st.ws.length) st.cmd.length = st.cmd :=
    strndup_suffix st.cmd _ hp
  have hpipe : scan stop_pipe s (curr + st.ws.length) = some pipe_index := by
    rw [scan_eq_scanFrom stop_pipe hp,
      scanFrom_skip stop_pipe st.cmd _ _ (fun k x hx => (plain_char_stop (hcmd x hx) _).2),
      scanFrom_skip stop_pipe text _ _ (fun k x hx => hstopT x hx _)]
    rw [← hpi]
    congr 1
    omega
  have hres1 : resolve_executable fs
      (strndup s (curr + st.ws.length) (curr + st.ws.length + st.cmd.length - (curr + st.ws.length)))
      path = .path st.exec_path := by
    rw [Nat.add_sub_cancel_left, hname]; exact hres
  rw [parse_commands_step fs path s fuel curr head f c0 _ pipe_index _ st.exec_path
    hf hfn hskip gp hc0 hpipe hexec hres1]
  rw [Nat.add_sub_cancel_left, hname]
  -- the items
  have hfuel : s.length + 2 = (s.length - st.items.length + 1) + items1.length := by
    omega
  have hq1 : suffix_at s (curr + st.ws.length + st.cmd.length)
      (tokens_text items1 ++ tail) := by rw [hT]; exact hq
  rw [hfuel, parse_tokens_items s pipe_index items1 tail _ _ _ hq1
    (by rw [hT]; omega) hitems1, hT]
  have e : curr + st.ws.length + st.cmd.length + text.length
      = curr + (st.ws.length + st.cmd.length + text.length) := by omega
  rw [e]

/-- One well-formed stage followed by `|` or `#`: the main loop links
its command node and either goes on after the `|` or returns at the `#`. -/
theorem parse_commands_plain_stage (fs : FileSystem) (path : Option Variable) (s : List Char)
    (st : SpacedStage) (term : Char) (rest : List Char) (fuel curr : Nat) (head : List Command)
    (hok : st.ok fs path = true)
    (hs : suffix_at s curr (st.text ++ term :: rest))
    (hterm : term = '|' ∨ term = '#') :
    parse_commands fs path s (fuel + 1) curr head
      = if term = '#' then .head (head ++ [st.command])
        else parse_commands fs path s fuel (curr + st.text.length + 1) (head ++ [st.closed]) := by
  obtain ⟨gend, -⟩ := suffix_at_cons (suffix_at_append st.text _ hs)
  rcases hterm with rfl | rfl
  · have hpi : scanFrom stop_pipe ('|' :: rest) (curr + st.text.length)
        = some (curr + st.text.length) := by
      simp [scanFrom, stop_pipe]
    rw [parse_commands_plain_start fs path s st _ fuel curr _ head hok hs hpi, parse_tokens]
    simp [SpacedStage.closed]
  · obtain ⟨q, hq⟩ := scanFrom_total stop_pipe (fun _ => by simp [stop_pipe]) rest
      (curr + st.text.length + 1)
    have hge := scanFrom_ge _ _ _ _ hq
    have hpi : scanFrom stop_pipe ('#' :: rest) (curr + st.text.length) = some q := by
      rw [scanFrom]
      simp only [stop_pipe, show ¬ ('#' = '|') by decide, show ¬ ('#' = NUL) by decide,
        decide_False, Bool.or_self, Bool.false_eq_true, if_false]
      exact hq
    rw [parse_commands_plain_start fs path s st _ fuel curr _ head hok hs hpi, parse_tokens,
      if_pos (by omega), gend]
    simp

/-- A line without `$` expands to itself. -/
theorem replace_variables_mk_line_plain (vars : List Variable) (line : CString)
    (h : ∀ c ∈ line, c ≠ NUL ∧ c ≠ '$') :
    replace_variables_mk_line line vars = .new_line line := by
  unfold replace_variables_mk_line
  have h0 : suffix_at line 0 (line ++ []) := by simpa using suffix_at_zero line
  have e : line.length + 2 = (1 + 1) + line.length := by omega
  rw [e, replace_loop_copy vars line line h [] [] 0 _ _ h0
    (Or.inr (by simp only [List.length_nil]; omega))]
  exact replace_loop_end vars line _ _ _ _ (suffix_at_append line [] h0)

/-- A line without `=`, `$` and NUL that starts, after white space, with a
letter or underscore is handed to the main loop as it is. -/
theorem parse_line_command_line (fs : FileSystem) (vars : List Variable)
    (ws : List Char) (c0 : Char) (tail : List Char)
    (hws : ∀ x ∈ ws, isspace x = true) (hc0 : isValidVarChar c0 = true)
    (hline : ∀ c ∈ ws ++ c0 :: tail, c ≠ NUL ∧ c ≠ '$' ∧ c ≠ '=') :
    parse_line fs vars (ws ++ c0 :: tail)
      = (parse_commands fs vars.head? (ws ++ c0 :: tail) ((ws ++ c0 :: tail).length + 2) 0 [],
          vars) := by
  generalize hl : ws ++ c0 :: tail = line at hline ⊢
  have hc0s : isspace c0 = false := by
    cases h : isspace c0
    · rfl
    · have := (isspace_ne h).2
      rw [hc0] at this; cases this
  have hc0n := isValidVarChar_ne hc0
  have hc0h : c0 ≠ '#' := by rintro rfl; revert hc0; decide
  have hblank : is_blank_or_comment line = false := by
    rw [← hl, is_blank_or_comment, dropWhile_isspace_run ws c0 tail hws hc0s]
    simp [hc0n.1, hc0h]
  have heq : '=' ∉ line := fun h => (hline _ h).2.2 rfl
  have hexp := replace_variables_mk_line_plain vars line
    (fun c hc => ⟨(hline c hc).1, (hline c hc).2.1⟩)
  have hhead : ¬ (line.head? = none ∨ line.head? = some NUL) := by
    rw [← hl]
    cases hw : ws with
    | nil => simp [hc0n.1]
    | cons w ws1 => simp [(isspace_ne (hws w (by simp [hw]))).1]
  have hstart : startsWithEqualSign line = false := by
    cases hl1 : line with
    | nil => simp [startsWithEqualSign]
    | cons x t =>
      have : x ≠ '=' := fun e => heq (by simp [hl1, e])
      simp [startsWithEqualSign, this]
  have hpath : defines_path_variable line = false := by
    simp only [defines_path_variable, decide_eq_false_iff_not]
    intro h
    apply heq
    have : '=' ∈ line.take 5 := by rw [h]; decide
    exact List.mem_of_mem_take this
  unfold parse_line
  rw [if_neg hhead]
  simp only [hblank, hstart, hpath, Bool.false_eq_true, if_false, strchr_none heq, hexp]

/-- C6 (failing input). With `ls` resolvable, the line of the specification
`ls -l # list files | wc -l` returns one stage with the strings `ls` and `-l`
in its argument array, and the `|` inside the comment starts no stage, but the
return at `#` is made before `args[arg_count] = NULL`: the slot after `-l`,
added by `realloc`, is never written and the array has no closing NULL. The
same stage closed by `|` is returned with the array closed, and so is a stage
without argument, whose array still is the one `calloc` has zeroed. -/
theorem C6_comment_leaves_argv_open :
    parse_line fs_bin vars_path_A "ls -l # list files | wc -l".toList
        = (.head [{ exec_path := "/bin/ls".toList, args := ["ls".toList, "-l".toList],
                    stdin_fd := 0, stdout_fd := 1, redir_in_path := none,
                    redir_out_path := none, redir_append := 0,
                    args_end := .indeterminate }], vars_path_A)
      ∧ parse_line fs_bin vars_path_A "ls -l |".toList
        = (.head [{ exec_path := "/bin/ls".toList, args := ["ls".toList, "-l".toList],
                    stdin_fd := 0, stdout_fd := 1, redir_in_path := none,
                    redir_out_path := none, redir_append := 0,
                    args_end := .null }], vars_path_A)
      ∧ parse_line fs_bin vars_path_A "ls # list files | wc -l".toList
        = (.head [{ exec_path := "/bin/ls".toList, args := ["ls".toList],
                    stdin_fd := 0, stdout_fd := 1, redir_in_path := none,
                    redir_out_path := none, redir_append := 0,
                    args_end := .null }], vars_path_A) := by
  decide

/-- The text after the `#` is not always without effect: the test for an
assignment looks for the first `=` anywhere in the line, so with `x=1` in the
comment the line is classified as an assignment with an invalid name and
`parse_line` returns the error result. -/
theorem comment_with_equals_sign_is_error :
    parse_line fs_bin vars_path_A "ls -l # x=1".toList = (.error, vars_path_A)
      ∧ parse_line fs_bin vars_path_A "ls -l # x".toList
          = (.head [stage_ls_l.command], vars_path_A) := by
  decide

/-- C4 (failing input). With `A` bound to `hi` and `echo` listed in `/bin`, the
line with the braced reference to `A` after `echo` expands to `echo hi`, but
the scan of the last argument has no end-of-line test and reads past the
terminator: no pipeline is returned. The same happens after a trailing space,
where the advance to `pipe_index + 1` steps over the terminator. -/
theorem C4_last_token_scan_leaves_line :
    replace_variables_mk_line "echo $\x7bA\x7d".toList vars_path_A
        = .new_line "echo hi".toList
      ∧ resolve_executable fs_bin "echo".toList vars_path_A.head? = .path "/bin/echo".toList
      ∧ parse_line fs_bin vars_path_A "echo $\x7bA\x7d".toList = (.undefined, vars_path_A)
      ∧ parse_line fs_bin vars_path_A "echo hi ".toList = (.undefined, vars_path_A) := by
  decide

/-! ## Lines whose last token runs to the end of the line -/

/-- The main loop over well-formed stages each closed by `|` links their
command nodes and arrives at the text after the last `|`. -/
theorem parse_commands_pipe_line (fs : FileSystem) (path : Option Variable) (s : List Char)
    (tail : List Char) :
    ∀ (stages : List SpacedStage) (fuel curr : Nat) (head : List Command),
      (∀ x ∈ stages, x.ok fs path = true) →
      suffix_at s curr (pipe_line stages tail) →
      ∃ next, suffix_at s next tail
        ∧ parse_commands fs path s (fuel + stages.length) curr head
            = parse_commands fs path s fuel next (head ++ stages.map SpacedStage.closed) := by
  intro stages
  induction stages with
  | nil =>
    intro fuel curr head _ hs
    exact ⟨curr, hs, by simp⟩
  | cons st more ih =>
    intro fuel curr head hok hs
    have hs1 : suffix_at s curr (st.text ++ '|' :: pipe_line more tail) := hs
    have hnext := (suffix_at_cons (suffix_at_append st.text _ hs1)).2
    obtain ⟨next, hn, hrec⟩ := ih fuel _ (head ++ [st.closed])
      (fun x hx => hok x (List.mem_cons_of_mem _ hx)) hnext
    refine ⟨next, hn, ?_⟩
    have e : fuel + (st :: more).length = (fuel + more.length) + 1 := by
      simp only [List.length_cons]; omega
    rw [e, parse_commands_plain_stage fs path s st '|' _ _ curr head
      (hok st (List.mem_cons_self _ _)) hs1 (Or.inl rfl)]
    simp only [show ¬ ('|' = '#') by decide, if_false]
    rw [hrec]
    simp

/-- A well-formed stage that ends with the line: after a trailing space
the advance to `pipe_index + 1` steps over the terminator; a last argument
that runs to the end of the line is scanned past the terminator. -/
theorem parse_commands_stage_at_end (fs : FileSystem) (path : Option Variable) (s : List Char)
    (st : SpacedStage) (last : List Char) (fuel curr : Nat) (head : List Command)
    (hok : st.ok fs path = true)
    (hs : suffix_at s curr (st.text ++ last))
    (hlast : last = [] ∨ word_ok last = true) :
    parse_commands fs path s (fuel + 2) curr head = .undefined := by
  have hend := suffix_at_append st.text _ hs
  rcases hlast with rfl | hw
  · have hlen := (suffix_at_nil hend).1
    have hpi : scanFrom stop_pipe [] (curr + st.text.length) = some (curr + st.text.length) := by
      simp [scanFrom, stop_pipe]
    rw [parse_commands_plain_start fs path s st _ (fuel + 1) curr _ head hok hs hpi,
      parse_tokens]
    simp only [Nat.lt_irrefl, if_false]
    rw [parse_commands]
    simp [cget, hlen]
  · simp only [word_ok, Bool.and_eq_true, List.all_eq_true] at hw
    obtain ⟨hplain, hhead⟩ := hw
    cases last with
    | nil => simp at hhead
    | cons c w =>
      simp only [decide_eq_true_eq] at hhead
      have hc := plain_char_ne (hplain c (List.mem_cons_self _ _))
      obtain ⟨gend, -⟩ := suffix_at_cons hend
      have hskipw : scanFrom stop_pipe (c :: w) (curr + st.text.length)
          = some (curr + st.text.length + (c :: w).length) := by
        have := scanFrom_skip stop_pipe (c :: w) [] (curr + st.text.length)
          (fun k x hx => (plain_char_stop (hplain x hx) _).2)
        rw [List.append_nil] at this
        rw [this]
        simp [scanFrom, stop_pipe]
      have hscan : scan stop_word s (curr + st.text.length) = none := by
        have hend1 : suffix_at s (curr + st.text.length) ((c :: w) ++ []) := by
          simpa using hend
        rw [scan_eq_scanFrom stop_word hend1,
          scanFrom_skip stop_word (c :: w) [] _
            (fun k x hx => (plain_char_stop (hplain x hx) _).1)]
        simp [scanFrom, stop_word, NUL]
      rw [parse_commands_plain_start fs path s st _ (fuel + 1) curr _ head hok hs hskipw,
        parse_tokens, if_pos (by simp), gend]
      simp only [hc.2.2.1, hc.2.1, hhead, hc.1, if_false, ne_eq, not_false_eq_true, if_true,
        hscan]


/-- A command name that runs to the end of the line is scanned past the
terminator. -/
theorem parse_commands_bare_command (fs : FileSystem) (path : Option Variable) (s : List Char)
    (ws : List Char) (c0 : Char) (ct : List Char) (fuel curr : Nat) (head : List Command)
    (hs : suffix_at s curr (ws ++ c0 :: ct))
    (hws : ∀ x ∈ ws, isspace x = true) (hc0 : isValidVarChar c0 = true)
    (hplain : ∀ x ∈ c0 :: ct, plain_char x = true) :
    parse_commands fs path s (fuel + 1) curr head = .undefined := by
  have hp := suffix_at_append ws _ hs
  obtain ⟨gp, -⟩ := suffix_at_cons hp
  have hc0n := isValidVarChar_ne hc0
  have hfirst : ∃ f, cget s curr = some f ∧ f ≠ NUL := by
    cases ws with
    | nil => exact ⟨c0, by simpa using gp, hc0n.1⟩
    | cons w ws1 =>
      have := (suffix_at_cons (by simpa using hs : suffix_at s curr (w :: (ws1 ++ c0 :: ct)))).1
      exact ⟨w, this, (isspace_ne (hws w (List.mem_cons_self _ _))).1⟩
  obtain ⟨f, hf, hfn⟩ := hfirst
  have hskip : scan stop_space s curr = some (curr + ws.length) := by
    rw [scan_eq_scanFrom stop_space hs]
    apply scanFrom_run
    · intro k x hx
      simp [stop_space, hws x hx, (isspace_ne (hws x hx)).1]
    · have : isspace c0 = false := by
        cases h : isspace c0
        · rfl
        · have := (isspace_ne h).2
          rw [hc0] at this; cases this
      simp [stop_space, this]
  obtain ⟨pipe_index, hpipe⟩ : ∃ q, scan stop_pipe s (curr + ws.length) = some q := by
    rw [scan_eq_scanFrom stop_pipe hp]
    exact scanFrom_total stop_pipe (fun _ => by simp [stop_pipe]) _ _
  have hexec : scan stop_word s (curr + ws.length) = none := by
    have hp1 : suffix_at s (curr + ws.length) ((c0 :: ct) ++ []) := by simpa using hp
    rw [scan_eq_scanFrom stop_word hp1,
      scanFrom_skip stop_word (c0 :: ct) [] _ (fun k x hx => (plain_char_stop (hplain x hx) _).1)]
    simp [scanFrom, stop_word, NUL]
  rw [parse_commands, hf]
  simp only [hfn, if_false]
  rw [hskip]
  simp only [gp]
  have hops : ¬ ((!isValidVarChar c0 || decide (c0 = '|') || decide (c0 = '>') ||
      decide (c0 = '<')) = true) := by
    have h1 : c0 ≠ '|' := by rintro rfl; revert hc0; decide
    have h2 : c0 ≠ '>' := by rintro rfl; revert hc0; decide
    have h3 : c0 ≠ '<' := by rintro rfl; revert hc0; decide
    simp [hc0, h1, h2, h3]
  rw [if_neg hops, hpipe]
  simp only [hexec]

theorem pipe_line_length (tail : List Char) :
    ∀ stages : List SpacedStage, stages.length ≤ (pipe_line stages tail).length := by
  intro stages
  induction stages with
  | nil => simp
  | cons st more ih =>
    simp only [pipe_line, List.length_append, List.length_cons]
    omega

theorem pipe_line_shape (fs : FileSystem) (path : Option Variable) (stages : List SpacedStage)
    (ws : List Char) (c0 : Char) (t : List Char)
    (hok : ∀ x ∈ stages, x.ok fs path = true)
    (hws : ∀ x ∈ ws, isspace x = true) (hc0 : isValidVarChar c0 = true) :
    ∃ ws1 c1 t1, pipe_line stages (ws ++ c0 :: t) = ws1 ++ c1 :: t1
      ∧ (∀ x ∈ ws1, isspace x = true) ∧ isValidVarChar c1 = true := by
  cases stages with
  | nil => exact ⟨ws, c0, t, rfl, hws, hc0⟩
  | cons st more =>
    obtain ⟨hws1, -, ⟨c1, ct, hcmd, hc1⟩, -, -⟩ :=
      SpacedStage.ok_parts (hok st (List.mem_cons_self _ _))
    exact ⟨st.ws, c1, ct ++ ' ' :: (tokens_text st.items ++ '|' :: pipe_line more (ws ++ c0 :: t)),
      by simp [pipe_line, SpacedStage.text, hcmd], hws1, hc1⟩

/-- Every line of well-formed stages joined by `|` whose last stage ends
with the line (after its last argument or after a trailing space) makes
`parse_line` read outside the expanded line: no pipeline is returned. -/
theorem parse_line_stage_at_end (fs : FileSystem) (vars : List Variable)
    (stages : List SpacedStage) (st : SpacedStage) (last : CString)
    (hok : ∀ x ∈ stages, x.ok fs vars.head? = true) (hst : st.ok fs vars.head? = true)
    (hlast : last = [] ∨ word_ok last = true)
    (hline : ∀ c ∈ pipe_line stages (st.text ++ last), c ≠ NUL ∧ c ≠ '$' ∧ c ≠ '=') :
    parse_line fs vars (pipe_line stages (st.text ++ last)) = (.undefined, vars) := by
  obtain ⟨hws, -, ⟨c0, ct, hcmd, hc0⟩, -, -⟩ := SpacedStage.ok_parts hst
  have htext : st.text ++ last = st.ws ++ c0 :: (ct ++ ' ' :: (tokens_text st.items ++ last)) := by
    simp [SpacedStage.text, hcmd]
  obtain ⟨ws1, c1, t1, hshape, hws1, hc1⟩ :=
    pipe_line_shape fs vars.head? stages st.ws c0 _ hok hws hc0
  rw [← htext] at hshape
  have hl := pipe_line_length (st.text ++ last) stages
  rw [hshape] at hline hl ⊢
  rw [parse_line_command_line fs vars ws1 c1 t1 hws1 hc1 hline]
  rw [← hshape] at hl ⊢
  obtain ⟨next, hn, hrec⟩ := parse_commands_pipe_line fs vars.head? _ (st.text ++ last) stages
    ((pipe_line stages (st.text ++ last)).length - stages.length + 2) 0 [] hok (suffix_at_zero _)
  have e : (pipe_line stages (st.text ++ last)).length + 2
      = ((pipe_line stages (st.text ++ last)).length - stages.length + 2) + stages.length := by
    omega
  rw [e, hrec, parse_commands_stage_at_end fs vars.head? _ st last _ next _ hst hn hlast]

/-- Every line of well-formed stages joined by `|` that ends with a bare
command name makes `parse_line` read outside the expanded line. -/
theorem parse_line_bare_command_at_end (fs : FileSystem) (vars : List Variable)
    (stages : List SpacedStage) (ws : CString) (c0 : Char) (ct : CString)
    (hok : ∀ x ∈ stages, x.ok fs vars.head? = true)
    (hws : ∀ x ∈ ws, isspace x = true) (hc0 : isValidVarChar c0 = true)
    (hplain : ∀ x ∈ c0 :: ct, plain_char x = true)
    (hline : ∀ c ∈ pipe_line stages (ws ++ c0 :: ct), c ≠ NUL ∧ c ≠ '$' ∧ c ≠ '=') :
    parse_line fs vars (pipe_line stages (ws ++ c0 :: ct)) = (.undefined, vars) := by
  obtain ⟨ws1, c1, t1, hshape, hws1, hc1⟩ :=
    pipe_line_shape fs vars.head? stages ws c0 ct hok hws hc0
  have hl := pipe_line_length (ws ++ c0 :: ct) stages
  rw [hshape] at hline hl ⊢
  rw [parse_line_command_line fs vars ws1 c1 t1 hws1 hc1 hline]
  rw [← hshape] at hl ⊢
  obtain ⟨next, hn, hrec⟩ := parse_commands_pipe_line fs vars.head? _ (ws ++ c0 :: ct) stages
    ((pipe_line stages (ws ++ c0 :: ct)).length - stages.length + 1 + 1) 0 [] hok
    (suffix_at_zero _)
  have e : (pipe_line stages (ws ++ c0 :: ct)).length + 2
      = ((pipe_line stages (ws ++ c0 :: ct)).length - stages.length + 1 + 1) + stages.length := by
    omega
  rw [e, hrec, parse_commands_bare_command fs vars.head? _ ws c0 ct _ next _ hn hws hc0 hplain]


/-! ## Process orchestrator: theorems -/

theorem run_not_mem_close_one (j : Nat) (cmd : Command) (c : Prop) [Decidable c] (a : Int) :
    Event.run j cmd ∈ (if c then [Event.close a] else []) ↔ False := by
  split_ifs <;> simp

theorem run_not_mem_close_two (j : Nat) (cmd : Command) (c : Prop) [Decidable c] (a b : Int) :
    Event.run j cmd ∈ (if c then [Event.close a, Event.close b] else []) ↔ False := by
  split_ifs <;> simp

/-- Every `run_command` call made by the loop is for a stage of the list, with
`stdin_fd` set to `lastInput` for the first stage of the loop and to the read
end of the preceding pipe after an external stage, and `stdout_fd` set to the
write end of the stage's own pipe when a stage follows. -/
theorem execute_loop_run (os : Nat → StageOS) :
    ∀ (cmds : List Command) (idx : Nat) (lastInput : Int) (fd : Int × Int) (result : Int)
      (j : Nat) (cmd : Command),
      Event.run j cmd ∈ (execute_loop os idx cmds lastInput fd result).log →
      idx ≤ j
      ∧ (∃ c, cmds.get? (j - idx) = some c
          ∧ cmd = { c with stdin_fd := cmd.stdin_fd, stdout_fd := cmd.stdout_fd })
      ∧ (j = idx → cmd.stdin_fd = lastInput)
      ∧ (∀ prev, idx < j → cmds.get? (j - idx - 1) = some prev →
          prev.exec_path ≠ "cd".toList →
          ∃ r w, (os (j - 1)).pipe_fds = some (r, w) ∧ cmd.stdin_fd = r)
      ∧ (∀ nxt, cmds.get? (j - idx + 1) = some nxt →
          ∃ r w, (os j).pipe_fds = some (r, w) ∧ cmd.stdout_fd = w) := by
  intro cmds
  induction cmds with
  | nil =>
    intro idx lastInput fd result j cmd h
    simp [execute_loop] at h
  | cons current next ih =>
    intro idx lastInput fd result j cmd h
    -- facts about the step of a later stage
    have later : ∀ (li : Int) (fd1 : Int × Int) (res : Int),
        Event.run j cmd ∈ (execute_loop os (idx + 1) next li fd1 res).log →
        (current.exec_path ≠ "cd".toList →
          ∃ r w, (os idx).pipe_fds = some (r, w) ∧ li = r) →
        idx ≤ j
        ∧ (∃ c, (current :: next).get? (j - idx) = some c
            ∧ cmd = { c with stdin_fd := cmd.stdin_fd, stdout_fd := cmd.stdout_fd })
        ∧ (j = idx → cmd.stdin_fd = lastInput)
        ∧ (∀ prev, idx < j → (current :: next).get? (j - idx - 1) = some prev →
            prev.exec_path ≠ "cd".toList →
            ∃ r w, (os (j - 1)).pipe_fds = some (r, w) ∧ cmd.stdin_fd = r)
        ∧ (∀ nxt, (current :: next).get? (j - idx + 1) = some nxt →
            ∃ r w, (os j).pipe_fds = some (r, w) ∧ cmd.stdout_fd = w) := by
      intro li fd1 res hmem hli
      obtain ⟨hle, ⟨c, hc, hcmd⟩, hfirst, hprev, hnext⟩ := ih (idx + 1) li fd1 res j cmd hmem
      have e1 : j - idx = (j - (idx + 1)) + 1 := by omega
      refine ⟨by omega, ⟨c, ?_, hcmd⟩, fun h => by omega, ?_, ?_⟩
      · rw [e1]; simpa using hc
      · intro prev _ hp hext
        rcases Nat.lt_or_ge (idx + 1) j with hlt | hge
        · have e2 : j - idx - 1 = (j - (idx + 1) - 1) + 1 := by omega
          rw [e2] at hp
          exact hprev prev hlt (by simpa using hp) hext
        · have e3 : j = idx + 1 := by omega
          subst e3
          have hp0 : prev = current := by simpa using hp.symm
          subst hp0
          obtain ⟨r, w, hrw, hl⟩ := hli hext
          refine ⟨r, w, by simpa using hrw, ?_⟩
          rw [hfirst rfl, hl]
      · intro nxt hn
        have e4 : j - idx + 1 = (j - (idx + 1) + 1) + 1 := by omega
        rw [e4] at hn
        exact hnext nxt (by simpa using hn)
    -- facts about the call for this stage
    have here : ∀ (out : Int), j = idx →
        cmd = { current with stdin_fd := lastInput, stdout_fd := out } →
        (∀ nxt, next.head? = some nxt → ∃ r w, (os idx).pipe_fds = some (r, w) ∧ out = w) →
        idx ≤ j
        ∧ (∃ c, (current :: next).get? (j - idx) = some c
            ∧ cmd = { c with stdin_fd := cmd.stdin_fd, stdout_fd := cmd.stdout_fd })
        ∧ (j = idx → cmd.stdin_fd = lastInput)
        ∧ (∀ prev, idx < j → (current :: next).get? (j - idx - 1) = some prev →
            prev.exec_path ≠ "cd".toList →
            ∃ r w, (os (j - 1)).pipe_fds = some (r, w) ∧ cmd.stdin_fd = r)
        ∧ (∀ nxt, (current :: next).get? (j - idx + 1) = some nxt →
            ∃ r w, (os j).pipe_fds = some (r, w) ∧ cmd.stdout_fd = w) := by
      intro out hj hcmd hout
      subst hj
      refine ⟨Nat.le_refl _, ⟨current, by simp, by rw [hcmd]⟩, fun _ => by rw [hcmd],
        fun prev hlt => absurd hlt (Nat.lt_irrefl _), ?_⟩
      intro nxt hn
      have hn1 : next.head? = some nxt := by
        cases next with
        | nil => simp at hn
        | cons a t => simpa using hn
      obtain ⟨r, w, hrw, ho⟩ := hout nxt hn1
      exact ⟨r, w, hrw, by rw [hcmd]; exact ho⟩
    by_cases hn : next = []
    · subst hn
      by_cases hcd : current.exec_path = "cd".toList
      · simp [execute_loop, hcd] at h
      · simp only [execute_loop, hcd, ne_eq, not_true_eq_false, false_and, if_false,
          true_or, if_true, List.nil_append, List.append_nil, List.mem_append, List.mem_cons,
          List.mem_singleton, List.not_mem_nil, or_false, Event.run.injEq,
          run_not_mem_close_one] at h
        exact here _ h.1 h.2 (fun nxt hnx => by simp at hnx)
    · by_cases hp : (os idx).pipe_fds = none
      · simp [execute_loop, hn, hp] at h
      · obtain ⟨⟨r, w⟩, hrw⟩ := Option.ne_none_iff_exists'.1 hp
        by_cases hcd : current.exec_path = "cd".toList
        · simp only [execute_loop, hn, hp, hcd, ne_eq, not_false_eq_true, and_false, if_false,
            if_true, List.mem_append, List.mem_cons, List.mem_singleton, List.not_mem_nil,
            or_false, reduceCtorEq, false_or] at h
          exact later _ _ _ h (fun hext => absurd hcd hext)
        · simp only [execute_loop, hn, hp, hcd, hrw, Option.getD_some, ne_eq, not_false_eq_true,
            and_false, if_false, if_true, false_or, reduceCtorEq] at h
          split at h
          · simp only [List.mem_append, List.mem_cons, List.mem_singleton, List.not_mem_nil,
              or_false, reduceCtorEq, false_or, Event.run.injEq, List.append_nil,
              run_not_mem_close_one, run_not_mem_close_two] at h
            exact here w h.1 h.2 (fun _ _ => ⟨r, w, hrw, rfl⟩)
          · simp only [List.mem_append, List.mem_cons, List.mem_singleton, List.not_mem_nil,
              or_false, reduceCtorEq, false_or, Event.run.injEq, List.append_nil,
              run_not_mem_close_one, run_not_mem_close_two] at h
            rcases h with h | h
            · exact here w h.1 h.2 (fun _ _ => ⟨r, w, hrw, rfl⟩)
            · exact later _ _ _ h (fun _ => ⟨r, w, hrw, rfl⟩)


theorem spawned_append (a b : List Event) : spawned (a ++ b) = spawned a ++ spawned b := by
  simp [spawned, List.filterMap_append]

theorem spawned_close_one (c : Prop) [Decidable c] (a : Int) :
    spawned (if c then [Event.close a] else []) = [] := by
  split_ifs <;> simp [spawned]

theorem spawned_close_two (c : Prop) [Decidable c] (a b : Int) :
    spawned (if c then [Event.close a, Event.close b] else []) = [] := by
  split_ifs <;> simp [spawned]

theorem spawned_pipe (c : Prop) [Decidable c] (fds : Option (Int × Int)) :
    spawned (if c then [Event.pipe fds] else []) = [] := by
  split_ifs <;> simp [spawned]

/-- The loop over external stages whose pipes and forks succeed: it stops at
the first stage `k` that is the last one or exits nonzero, after spawning the
stages up to `k`, and leaves the exit code of stage `k` in `*result`. -/
theorem execute_loop_status (os : Nat → StageOS) (codes : Nat → Nat) :
    ∀ (cmds : List Command) (idx : Nat) (lastInput : Int) (fd : Int × Int) (result : Int)
      (k : Nat),
      k < cmds.length →
      (∀ c ∈ cmds, c.exec_path ≠ "cd".toList) →
      (∀ i, i + 1 < cmds.length → (os (idx + i)).pipe_fds ≠ none) →
      (∀ i, i < cmds.length → (os (idx + i)).child = .exited (codes (idx + i))) →
      (∀ i, i < k → codes (idx + i) % 256 = 0) →
      (k + 1 = cmds.length ∨ codes (idx + k) % 256 ≠ 0) →
      (execute_loop os idx cmds lastInput fd result).result
          = ((codes (idx + k) % 256 : Nat) : Int)
        ∧ spawned (execute_loop os idx cmds lastInput fd result).log
          = (List.range (k + 1)).map (idx + ·) := by
  intro cmds
  induction cmds with
  | nil => intro idx lastInput fd result k hk; simp at hk
  | cons current next ih =>
    intro idx lastInput fd result k hk hext hpipe hchild hzero hstop
    have hcd : current.exec_path ≠ "cd".toList := hext current (List.mem_cons_self _ _)
    have hch : (os idx).child = .exited (codes idx) := by
      simpa using hchild 0 (by simp)
    have hnopipe : ¬ (next ≠ [] ∧ (os idx).pipe_fds = none) := by
      rintro ⟨hn, hp⟩
      have : 0 + 1 < (current :: next).length := by
        cases next with
        | nil => exact absurd rfl hn
        | cons a t => simp
      exact hpipe 0 this (by simpa using hp)
    rw [execute_loop]
    simp only [hnopipe, if_false, hcd, hch, run_command]
    cases k with
    | zero =>
      have hcond : next = [] ∨ ((codes idx % 256 : Nat) : Int) ≠ 0 := by
        rcases hstop with h | h
        · left
          cases next with
          | nil => rfl
          | cons a t => simp at h
        · right
          simp only [Nat.add_zero] at h
          exact_mod_cast h
      rw [if_pos hcond]
      simp only [spawned_append, spawned_close_one, spawned_close_two, spawned_pipe,
        List.nil_append, List.append_nil]
      simp [spawned, List.range_succ]
    | succ k =>
      have hz : codes idx % 256 = 0 := by simpa using hzero 0 (by omega)
      have hnext : next ≠ [] := by
        intro h; subst h; simp at hk
      have hcond : ¬ (next = [] ∨ ((codes idx % 256 : Nat) : Int) ≠ 0) := by
        simp [hnext, hz]
      rw [if_neg hcond]
      have hk' : k < next.length := by simpa using hk
      obtain ⟨h1, h2⟩ := ih (idx + 1)
        (if next ≠ [] then (os idx).pipe_fds.getD fd else fd).1
        (if next ≠ [] then (os idx).pipe_fds.getD fd else fd)
        ((codes idx % 256 : Nat) : Int) k hk'
        (fun c hc => hext c (List.mem_cons_of_mem _ hc))
        (fun i hi => by
          have := hpipe (i + 1) (by simpa using hi)
          rwa [show idx + (i + 1) = idx + 1 + i by omega] at this)
        (fun i hi => by
          have := hchild (i + 1) (by simpa using hi)
          rwa [show idx + (i + 1) = idx + 1 + i by omega] at this)
        (fun i hi => by
          have := hzero (i + 1) (by omega)
          rwa [show idx + (i + 1) = idx + 1 + i by omega] at this)
        (by
          rcases hstop with h | h
          · left; simp at h; omega
          · right; rwa [show idx + (k + 1) = idx + 1 + k by omega] at h)
      refine ⟨?_, ?_⟩
      · rw [show idx + (k + 1) = idx + 1 + k by omega]
        exact h1
      · simp only [spawned_append, spawned_close_one, spawned_pipe, h2]
        simp only [spawned, List.filterMap_cons, List.filterMap_nil, List.nil_append,
          List.singleton_append]
        rw [List.range_succ_eq_map (k + 1)]
        simp only [List.map_cons, List.map_map, Nat.add_zero, List.cons.injEq, true_and]
        apply List.map_congr_left
        intro a _
        simp only [Function.comp]
        omega


/-- C7 (amended). Pipe wiring does not consult the redirect paths: every stage
that `execute_line` hands to `run_command` is the parsed stage with only its
two descriptors assigned; after an external stage its standard input is the
read end of that stage's pipe, and before a following stage its standard
output is the write end of its own pipe, whether or not `redir_in_path` and
`redir_out_path` are set; no standard stream of a child is ever a named file. -/
theorem C7_wiring_ignores_redirect_paths (os : Nat → StageOS) (fd0 : Int × Int)
    (head : List Command) (j : Nat) (cmd : Command)
    (h : Event.run j cmd ∈ (execute_line os fd0 head).log) :
    (∃ c, head.get? j = some c
        ∧ cmd = { c with stdin_fd := cmd.stdin_fd, stdout_fd := cmd.stdout_fd })
      ∧ (∀ prev, 0 < j → head.get? (j - 1) = some prev → prev.exec_path ≠ "cd".toList →
          ∃ r w, (os (j - 1)).pipe_fds = some (r, w)
            ∧ child_stdin cmd = if r ≠ STDIN_FILENO then .descriptor r else .inherited)
      ∧ (∀ nxt, head.get? (j + 1) = some nxt →
          ∃ r w, (os j).pipe_fds = some (r, w)
            ∧ child_stdout cmd = if w ≠ STDOUT_FILENO then .descriptor w else .inherited)
      ∧ (∀ p, child_stdin cmd ≠ .file p ∧ child_stdout cmd ≠ .file p) := by
  have hmem : Event.run j cmd ∈ (execute_loop os 0 head STDIN_FILENO fd0 0).log := by
    unfold execute_line at h
    split_ifs at h with h0
    · simp at h
    · simpa [run_not_mem_close_one] using h
  obtain ⟨-, hc, -, hprev, hnext⟩ := execute_loop_run os head 0 STDIN_FILENO fd0 0 j cmd hmem
  refine ⟨by simpa using hc, ?_, ?_, ?_⟩
  · intro prev hj hp hext
    obtain ⟨r, w, hrw, hr⟩ := hprev prev hj (by simpa using hp) hext
    exact ⟨r, w, hrw, by simp [child_stdin, hr]⟩
  · intro nxt hn
    obtain ⟨r, w, hrw, hw⟩ := hnext nxt (by simpa using hn)
    exact ⟨r, w, hrw, by simp [child_stdout, hw]⟩
  · intro p
    constructor
    · unfold child_stdin; split_ifs <;> simp
    · unfold child_stdout; split_ifs <;> simp

/-- C8 (amended). Status aggregation over external stages whose pipes and
forks succeed and whose children exit normally with the codes `codes`: if `k`
is the first stage that is the last one or exits nonzero, `execute_line` spawns
exactly the stages `0..k` in order and returns the exit code of stage `k`. In
particular the pipeline runs to its last stage only when every earlier stage
exits 0. -/
theorem C8_status_of_first_nonzero_stage (os : Nat → StageOS) (fd0 : Int × Int)
    (head : List Command) (codes : Nat → Nat) (k : Nat)
    (hk : k < head.length)
    (hext : ∀ c ∈ head, c.exec_path ≠ "cd".toList)
    (hpipe : ∀ i, i + 1 < head.length → (os i).pipe_fds ≠ none)
    (hchild : ∀ i, i < head.length → (os i).child = .exited (codes i))
    (hzero : ∀ i, i < k → codes i % 256 = 0)
    (hstop : k + 1 = head.length ∨ codes k % 256 ≠ 0) :
    (execute_line os fd0 head).result = some ((codes k % 256 : Nat) : Int)
      ∧ spawned (execute_line os fd0 head).log = List.range (k + 1) := by
  have hne : head ≠ [] := by intro h; subst h; simp at hk
  obtain ⟨h1, h2⟩ := execute_loop_status os codes head 0 STDIN_FILENO fd0 0 k hk hext
    (fun i hi => by simpa using hpipe i hi) (fun i hi => by simpa using hchild i hi)
    (fun i hi => by simpa using hzero i hi) (by simpa using hstop)
  unfold execute_line
  rw [if_neg hne]
  simp only [Nat.zero_add] at h1 h2
  refine ⟨by simp only [h1], ?_⟩
  simp only [spawned_append, spawned_close_one, h2, List.append_nil]
  simp

/-- C9. Abort on orchestration failure: in a pipeline of two or more stages
whose first stage is external, if the pipe for the first stage cannot be
created, or the fork of the first stage fails, `execute_line` returns -1 and
calls `run_command` for no stage other than the first. -/
theorem C9_abort_on_first_stage_failure (os : Nat → StageOS) (fd0 : Int × Int)
    (c1 c2 : Command) (rest : List Command)
    (hext : c1.exec_path ≠ "cd".toList)
    (hfail : (os 0).pipe_fds = none ∨ (os 0).child = .fork_failed) :
    (execute_line os fd0 (c1 :: c2 :: rest)).result = some (-1)
      ∧ (∀ j ∈ spawned (execute_line os fd0 (c1 :: c2 :: rest)).log, j = 0)
      ∧ ((os 0).pipe_fds = none → spawned (execute_line os fd0 (c1 :: c2 :: rest)).log = []) := by
  unfold execute_line
  simp only [reduceCtorEq, if_false]
  rw [execute_loop]
  by_cases hp : (os 0).pipe_fds = none
  · simp [hp, spawned, spawned_append, spawned_close_one]
  · have hf : (os 0).child = .fork_failed := by
      rcases hfail with h | h
      · exact absurd h hp
      · exact h
    simp only [hp, and_false, if_false, hext, hf, run_command, ne_eq, reduceCtorEq,
      not_false_eq_true, if_true, false_or, show ¬ ((-1 : Int) = 0) by decide,
      spawned_append, spawned_close_one, spawned_close_two, List.append_nil]
    simp [spawned]


/-- C7 (witness): the second stage of `ls > out.txt | wc < in.txt`. -/
theorem C7_wiring_ignores_redirect_paths_witness :
    Event.run 1 { cmd_wc_in with stdin_fd := 3, stdout_fd := 1 }
        ∈ (execute_line os_pipe_ok (-1, -1) [cmd_ls_out, cmd_wc_in]).log
      ∧ (∀ p, child_stdin { cmd_wc_in with stdin_fd := 3, stdout_fd := 1 } ≠ .file p
          ∧ child_stdout { cmd_wc_in with stdin_fd := 3, stdout_fd := 1 } ≠ .file p) :=
  ⟨by decide,
    (C7_wiring_ignores_redirect_paths os_pipe_ok (-1, -1) [cmd_ls_out, cmd_wc_in] 1
      { cmd_wc_in with stdin_fd := 3, stdout_fd := 1 } (by decide)).2.2.2⟩

/-- C7 (counterexample). In `ls > out.txt | wc < in.txt`, with the pipe
descriptors 3 (read end) and 4 (write end), the stage `wc` has an input
redirect path and a preceding stage, yet its child reads from descriptor 3,
the read end of the pipe; the stage `ls` has an output redirect path and a
following stage, yet its child writes to descriptor 4, the write end. -/
theorem C7_redirect_paths_not_used :
    (execute_line os_pipe_ok (-1, -1) [cmd_ls_out, cmd_wc_in]).log
        = [.pipe (some (3, 4)),
           .run 0 { cmd_ls_out with stdin_fd := 0, stdout_fd := 4 }, .close 4,
           .run 1 { cmd_wc_in with stdin_fd := 3, stdout_fd := 1 }, .close 3, .close 3]
      ∧ cmd_wc_in.redir_in_path = some "in.txt".toList
      ∧ child_stdin { cmd_wc_in with stdin_fd := 3, stdout_fd := 1 } = .descriptor 3
      ∧ cmd_ls_out.redir_out_path = some "out.txt".toList
      ∧ child_stdout { cmd_ls_out with stdin_fd := 0, stdout_fd := 4 } = .descriptor 4 := by
  decide

/-- C8 (witness): three stages exiting 0, 0 and 7: all are spawned and the
result is 7. -/
theorem C8_status_of_first_nonzero_stage_witness :
    (execute_line os_last_seven (-1, -1) [cmd_ls_out, cmd_wc_in, cmd_wc_in]).result = some 7
      ∧ spawned (execute_line os_last_seven (-1, -1) [cmd_ls_out, cmd_wc_in, cmd_wc_in]).log
          = [0, 1, 2] :=
  C8_status_of_first_nonzero_stage os_last_seven (-1, -1) [cmd_ls_out, cmd_wc_in, cmd_wc_in]
    (fun i => if i = 2 then 7 else 0) 2 (by decide) (by decide)
    (fun _ _ => Option.some_ne_none _) (fun _ _ => rfl)
    (fun i hi => by interval_cases i <;> rfl) (Or.inl rfl)

/-- C8 (counterexample). Two external stages, pipe and forks succeed, the
first child exits 1 and the second would exit 0: `execute_line` returns 1, not
the exit code 0 of the last stage, and the second stage is never spawned. -/
theorem C8_nonzero_exit_stops_pipeline :
    (execute_line os_first_exit_one (-1, -1) [cmd_ls_out, cmd_wc_in]).result = some 1
      ∧ spawned (execute_line os_first_exit_one (-1, -1) [cmd_ls_out, cmd_wc_in]).log = [0]
      ∧ run_command cmd_wc_in (os_first_exit_one 1).child = 0 := by
  decide

/-- C9 (witness): the pipe for the first of two stages cannot be created. -/
theorem C9_abort_on_first_stage_failure_witness :
    (os_no_pipe 0).pipe_fds = none
      ∧ (execute_line os_no_pipe (-1, -1) [cmd_ls_out, cmd_wc_in]).result = some (-1)
      ∧ spawned (execute_line os_no_pipe (-1, -1) [cmd_ls_out, cmd_wc_in]).log = [] :=
  ⟨rfl,
    (C9_abort_on_first_stage_failure os_no_pipe (-1, -1) cmd_ls_out cmd_wc_in []
      (by decide) (Or.inl rfl)).1,
    (C9_abort_on_first_stage_failure os_no_pipe (-1, -1) cmd_ls_out cmd_wc_in []
      (by decide) (Or.inl rfl)).2.2 rfl⟩


/-! ## Parse errors and the variable table -/

/-- A line that starts with `PATH=` is an assignment with a valid name: it
returns NULL. -/
theorem parse_line_path_assignment (fs : FileSystem) (vars : List Variable) (line : CString)
    (h : defines_path_variable line = true) :
    (parse_line fs vars line).1 = .head [] := by
  have hl : line = 'P' :: 'A' :: 'T' :: 'H' :: '=' :: line.drop 5 := by
    have h1 : line.take 5 = "PATH=".toList := by simpa [defines_path_variable] using h
    have h2 := List.take_append_drop 5 line
    rw [h1] at h2
    exact h2.symm
  generalize line.drop 5 = rest at hl
  subst hl
  simp [parse_line, is_blank_or_comment, startsWithEqualSign, strchr, List.dropWhile,
    show isspace 'P' = false by decide, show ('P' : Char) ≠ NUL by decide,
    show isValidVarChar 'P' = true by decide, show isValidVarChar 'A' = true by decide,
    show isValidVarChar 'T' = true by decide, show isValidVarChar 'H' = true by decide]

/-- C10. Parse errors are atomic with respect to the variable table: whenever
`parse_line` returns the error result, the table afterwards is the table
before the call. -/
theorem C10_parse_error_keeps_table (fs : FileSystem) (vars : List Variable) (line : CString)
    (h : (parse_line fs vars line).1 = .error) :
    (parse_line fs vars line).2 = vars := by
  by_cases hp : defines_path_variable line = true
  · rw [parse_line_path_assignment fs vars line hp] at h
    cases h
  · unfold parse_line at h ⊢
    simp only [hp, Bool.false_eq_true, if_false] at h ⊢
    split_ifs at h ⊢ <;> try rfl
    cases hs : strchr '=' line with
    | some equalsPtr =>
      simp only [hs] at h ⊢
      split_ifs at h ⊢
      rfl
    | none =>
      simp only [hs]
      split <;> rfl

/-- C10 (witness): a line starting with `=` is a parse error and the table is
unchanged. -/
theorem C10_parse_error_keeps_table_witness :
    (parse_line fs_bin vars_path_A "=x".toList).1 = .error
      ∧ (parse_line fs_bin vars_path_A "=x".toList).2 = vars_path_A :=
  ⟨by decide, C10_parse_error_keeps_table fs_bin vars_path_A "=x".toList (by decide)⟩


/-! ## Assignment lines -/

theorem strchr_append (c : Char) (x rest : List Char) (hx : ∀ y ∈ x, y ≠ c) :
    strchr c (x ++ c :: rest) = some x.length := by
  induction x with
  | nil => simp [strchr]
  | cons y x ih =>
    have hy : y ≠ c := hx y (List.mem_cons_self _ _)
    simp [strchr, hy, ih (fun z hz => hx z (List.mem_cons_of_mem _ hz))]

theorem find_value_updateOrAppend (name value : CString) (vars : List Variable) :
    find_value_from_name name (updateOrAppend name value vars) = some value := by
  induction vars with
  | nil => simp [updateOrAppend, find_value_from_name, createVariable]
  | cons cur rest ih =>
    by_cases h : cur.name = name
    · simp [updateOrAppend, find_value_from_name, h]
    · simp [updateOrAppend, find_value_from_name, h, ih]

/-- After `addOrUpdateVariable` the lookup finds the value, except when `PATH`
is upserted into a table whose head is another variable. -/
theorem find_value_addOrUpdateVariable (name value : CString) (vars : List Variable)
    (h : name ≠ "PATH".toList ∨ vars = []
      ∨ ∃ p rest, vars = p :: rest ∧ p.name = "PATH".toList) :
    find_value_from_name name (addOrUpdateVariable vars name value).2 = some value := by
  cases vars with
  | nil => simp [addOrUpdateVariable, find_value_from_name, createVariable]
  | cons current rest =>
    by_cases hn : name = "PATH".toList
    · have hp : current.name = "PATH".toList := by
        rcases h with h | h | ⟨p, r, h1, h2⟩
        · exact absurd hn h
        · cases h
        · cases h1; exact h2
      simp [addOrUpdateVariable, hn, hp, find_value_from_name]
    · simp only [addOrUpdateVariable, hn, if_false]
      exact find_value_updateOrAppend name value _

/-- A line `NAME=VALUE` whose name is not `PATH` does not start with `PATH=`. -/
theorem defines_path_variable_false (NAME VALUE : CString) (hne : NAME ≠ "PATH".toList)
    (heq : ∀ c ∈ NAME, c ≠ '=') :
    defines_path_variable (NAME ++ '=' :: VALUE) = false := by
  simp only [defines_path_variable, decide_eq_false_iff_not]
  intro h
  rcases NAME with _ | ⟨a, _ | ⟨b, _ | ⟨c, _ | ⟨d, _ | ⟨e, t⟩⟩⟩⟩⟩
  · simp at h
  · simp at h
  · simp at h
  · simp at h
  · simp at h
    apply hne
    obtain ⟨rfl, rfl, rfl, rfl⟩ := h
    rfl
  · simp at h
    exact heq e (by simp) h.2.2.2.2

/-- Assignment lines outside the defect of `addOrUpdateVariable`: a line
`NAME=VALUE` with a non-empty name of letters and underscores returns NULL and
binds `NAME` to the literal `VALUE`, provided the name is not `PATH`, or the
table is empty, or the table is headed by `PATH`. -/
theorem parse_line_assignment_binds (fs : FileSystem) (vars : List Variable)
    (NAME VALUE : CString) (hN : NAME ≠ [])
    (hvalid : ∀ c ∈ NAME, isValidVarChar c = true)
    (h : NAME ≠ "PATH".toList ∨ vars = []
      ∨ ∃ p rest, vars = p :: rest ∧ p.name = "PATH".toList) :
    (parse_line fs vars (NAME ++ '=' :: VALUE)).1 = .head []
      ∧ find_value_from_name NAME (parse_line fs vars (NAME ++ '=' :: VALUE)).2
          = some VALUE := by
  have heq : ∀ c ∈ NAME, c ≠ '=' := fun c hc => (isValidVarChar_ne (hvalid c hc)).2.2.1
  obtain ⟨c0, ct, rfl⟩ := List.exists_cons_of_ne_nil hN
  have hc0 := hvalid c0 (List.mem_cons_self _ _)
  have hc0n := isValidVarChar_ne hc0
  have hc0s : isspace c0 = false := by
    cases hs : isspace c0
    · rfl
    · have := (isspace_ne hs).2
      rw [hc0] at this; cases this
  have hc0h : c0 ≠ '#' := by rintro rfl; revert hc0; decide
  have hstr := strchr_append '=' (c0 :: ct) VALUE heq
  have hall : ((c0 :: ct ++ '=' :: VALUE).take (c0 :: ct).length).all isValidVarChar = true := by
    rw [List.take_left]
    simp only [List.all_eq_true]
    exact hvalid
  have hdrop : (c0 :: ct ++ '=' :: VALUE).drop ((c0 :: ct).length + 1) = VALUE := by
    have := List.drop_left (c0 :: ct ++ ['=']) VALUE
    simp at this ⊢
  have htake : (c0 :: ct ++ '=' :: VALUE).take (c0 :: ct).length = c0 :: ct :=
    List.take_left _ _
  have hall1 : (c0 :: ct).all isValidVarChar = true := by rw [← htake]; exact hall
  unfold parse_line
  have hhead : ¬ ((c0 :: ct ++ '=' :: VALUE).head? = none
      ∨ (c0 :: ct ++ '=' :: VALUE).head? = some NUL) := by
    simp [hc0n.1]
  have hblank : is_blank_or_comment (c0 :: ct ++ '=' :: VALUE) = false := by
    simp [is_blank_or_comment, List.dropWhile, hc0s, hc0n.1, hc0h]
  have hstart : startsWithEqualSign (c0 :: ct ++ '=' :: VALUE) = false := by
    simp [startsWithEqualSign, hc0n.2.2.1]
  rw [if_neg hhead]
  simp only [hblank, hstart, Bool.false_eq_true, if_false, hstr, hall1, if_true, hdrop, htake]
  refine ⟨trivial, ?_⟩
  by_cases hn : c0 :: ct = "PATH".toList
  · have hdef : defines_path_variable (c0 :: ct ++ '=' :: VALUE) = true := by
      rw [hn]; simp [defines_path_variable]
    have hd5 : (c0 :: ct ++ '=' :: VALUE).drop 5 = VALUE := by
      rw [hn]; rfl
    simp only [hdef, if_true, hd5]
    apply find_value_addOrUpdateVariable
    right; right
    cases vars with
    | nil => exact ⟨_, _, rfl, rfl⟩
    | cons current rest =>
      have hp : current.name = "PATH".toList := by
        rcases h with h | h | ⟨p, r, h1, h2⟩
        · exact absurd hn h
        · cases h
        · cases h1; exact h2
      exact ⟨{ current with value := VALUE }, rest, by simp [addOrUpdateVariable, hp], hp⟩
  · have hdef := defines_path_variable_false (c0 :: ct) VALUE hn heq
    simp only [hdef, Bool.false_eq_true, if_false]
    exact find_value_addOrUpdateVariable _ _ _ (Or.inl hn)


/-! ## The loop budgets are never exhausted -/

theorem scan_name_bounds (is_end : Char → Bool) (suf : List Char) :
    ∀ j q, scan_name is_end suf j = .stop_at q → j ≤ q ∧ q ≤ j + suf.length := by
  induction suf with
  | nil =>
    intro j q h
    simp only [scan_name, NameScan.stop_at.injEq] at h
    simp; omega
  | cons c suf ih =>
    intro j q h
    rw [scan_name] at h
    split_ifs at h with h1 h2
    · simp only [NameScan.stop_at.injEq] at h
      simp; omega
    · have := ih _ _ h
      simp only [List.length_cons]
      omega

theorem scanFrom_le (stop : Nat → Char → Bool) (suf : List Char) :
    ∀ i q, scanFrom stop suf i = some q → q ≤ i + suf.length := by
  induction suf with
  | nil =>
    intro i q h
    rw [scanFrom] at h
    split at h
    · simp at h; simp; omega
    · cases h
  | cons c suf ih =>
    intro i q h
    rw [scanFrom] at h
    split at h
    · simp at h; omega
    · have := ih _ _ h
      simp only [List.length_cons]; omega

theorem scan_bounds (stop : Nat → Char → Bool) (s : List Char) (i q : Nat)
    (h : scan stop s i = some q) : i ≤ q ∧ q ≤ s.length := by
  unfold scan at h
  split_ifs at h with h1
  have h2 := scanFrom_ge _ _ _ _ h
  have h3 := scanFrom_le _ _ _ _ h
  simp only [List.length_drop] at h3
  omega

theorem cget_some_le {s : List Char} {i : Nat} {c : Char} (h : cget s i = some c) :
    i ≤ s.length := by
  unfold cget at h
  split_ifs at h with h1 h2
  · omega
  · omega

/-- The expansion loop never runs out of its budget. -/
theorem replace_loop_fuel (vars : List Variable) (line : CString) :
    ∀ (fuel i : Nat) (out : CString) (size : Nat), i ≤ line.length + 1 →
      line.length + 2 ≤ fuel + i →
      replace_loop vars line fuel i out size ≠ .out_of_fuel := by
  intro fuel
  induction fuel with
  | zero => intro i out size h1 h2; omega
  | succ fuel ih =>
    intro i out size h1 h2
    rw [replace_loop]
    cases hc : cget line i with
    | none => simp
    | some c =>
      have hi := cget_some_le hc
      simp only
      split_ifs with hn hd
      · simp
      · cases hc1 : cget line (i + 1) with
        | none => simp
        | some c1 =>
          have hi1 := cget_some_le hc1
          simp only
          split_ifs with hb he
          · cases hc2 : cget line (i + 2) with
            | none => simp
            | some c2 =>
              have hi2 := cget_some_le hc2
              simp only
              split_ifs with h3
              · simp
              · cases hs : scan_name (fun x => x = '}' || x = NUL) (line.drop (i + 2)) (i + 2) with
                | invalid => simp
                | stop_at j =>
                  have hb := scan_name_bounds _ _ _ _ hs
                  simp only [List.length_drop] at hb
                  simp only
                  split_ifs with h4
                  · simp
                  · cases hv : find_value_from_name (strndup line (i + 2) (j - (i + 2))) vars with
                    | none => simp
                    | some v => exact ih _ _ _ (by omega) (by omega)
          · simp
          · cases hs : scan_name (fun x => x = ' ' || x = '.' || x = NUL)
                (line.drop (i + 1)) (i + 1) with
            | invalid => simp
            | stop_at j =>
              have hb := scan_name_bounds _ _ _ _ hs
              simp only [List.length_drop] at hb
              simp only
              cases hv : find_value_from_name (strndup line (i + 1) (j - (i + 1))) vars with
              | none => simp
              | some v => exact ih _ _ _ (by omega) (by omega)
      · have hlt : i < line.length := by
          rcases Nat.lt_or_ge i line.length with h | h
          · exact h
          · have e : i = line.length := by omega
            rw [e] at hc
            simp only [cget, Nat.lt_irrefl, if_false, if_true, Option.some.injEq] at hc
            exact absurd hc.symm hn
        exact ih _ _ _ (by omega) (by omega)
      · simp

theorem replace_variables_mk_line_fuel (line : CString) (vars : List Variable) :
    replace_variables_mk_line line vars ≠ .out_of_fuel :=
  replace_loop_fuel vars line _ 0 [] _ (by omega) (by omega)

theorem redirect_target_bounds (stop : Nat → Char → Bool) (s : List Char)
    (pipe_index curr : Nat) (path : CString) (q : Nat)
    (h : redirect_target stop s pipe_index curr = .name path q) : curr ≤ q := by
  unfold redirect_target at h
  cases h1 : scan stop_space s curr with
  | none => simp [h1] at h
  | some p =>
    have hp := scan_bounds _ _ _ _ h1
    simp only [h1] at h
    cases h2 : cget s p with
    | none => simp [h2] at h
    | some c =>
      simp only [h2] at h
      split_ifs at h with h3
      cases h4 : scan stop s p with
      | none => simp [h4] at h
      | some q1 =>
        have hq := scan_bounds _ _ _ _ h4
        simp only [h4] at h
        split_ifs at h with h5
        simp only [Target.name.injEq] at h
        omega

/-- The per-command loop never runs out of its budget. -/
theorem parse_tokens_fuel (s : CString) (pipe_index : Nat) :
    ∀ (fuel curr : Nat) (cmd : Command), 1 ≤ fuel → pipe_index + 1 ≤ fuel + curr →
      parse_tokens s pipe_index fuel curr cmd ≠ .out_of_fuel := by
  intro fuel
  induction fuel with
  | zero => intro curr cmd h1; omega
  | succ fuel ih =>
    intro curr cmd _ h2
    rw [parse_tokens]
    split_ifs with hlt
    · cases hc : cget s curr with
      | none => simp
      | some c =>
        simp only
        split_ifs with h1 h3 h4 h5
        · cases hc1 : cget s (curr + 1) with
          | none => simp
          | some c1 =>
            simp only
            split_ifs with h6
            · cases ht : redirect_target stop_word s pipe_index (curr + 2) with
              | out_of_bounds => simp
              | error => simp
              | name path q =>
                have := redirect_target_bounds _ _ _ _ _ _ ht
                exact ih _ _ (by omega) (by omega)
            · cases ht : redirect_target (stop_word_or_pipe pipe_index) s pipe_index
                  (curr + 1) with
              | out_of_bounds => simp
              | error => simp
              | name path q =>
                have := redirect_target_bounds _ _ _ _ _ _ ht
                exact ih _ _ (by omega) (by omega)
        · cases ht : redirect_target stop_word s pipe_index (curr + 1) with
          | out_of_bounds => simp
          | error => simp
          | name path q =>
            have := redirect_target_bounds _ _ _ _ _ _ ht
            exact ih _ _ (by omega) (by omega)
        · simp
        · cases hq : scan stop_word s curr with
          | none => simp
          | some q =>
            have := scan_bounds _ _ _ _ hq
            exact ih _ _ (by omega) (by omega)
        · exact ih _ _ (by omega) (by omega)
    · simp

/-- The main loop never runs out of its budget. -/
theorem parse_commands_fuel (fs : FileSystem) (path : Option Variable) (s : CString) :
    ∀ (fuel curr : Nat) (head : List Command), 1 ≤ fuel → s.length + 2 ≤ fuel + curr →
      parse_commands fs path s fuel curr head ≠ .out_of_fuel := by
  intro fuel
  induction fuel with
  | zero => intro curr head h1; omega
  | succ fuel ih =>
    intro curr head _ h2
    rw [parse_commands]
    cases hc : cget s curr with
    | none => simp
    | some c0 =>
      have hi := cget_some_le hc
      simp only
      split_ifs with h1
      · simp
      · cases hp : scan stop_space s curr with
        | none => simp
        | some p =>
          have hpb := scan_bounds _ _ _ _ hp
          simp only
          cases hcp : cget s p with
          | none => simp
          | some c =>
            simp only
            split_ifs with h3
            · simp
            · cases hpi : scan stop_pipe s p with
              | none => simp
              | some pipe_index =>
                have hpib := scan_bounds _ _ _ _ hpi
                simp only
                cases hq : scan stop_word s p with
                | none => simp
                | some q =>
                  have hqb := scan_bounds _ _ _ _ hq
                  simp only
                  cases hr : resolve_executable fs (strndup s p (q - p)) path with
                  | null => simp
                  | fault => simp
                  | path exec_path =>
                    simp only
                    have hpt := parse_tokens_fuel s pipe_index (s.length + 2) q
                      { exec_path := exec_path, args := [strndup s p (q - p)],
                        stdin_fd := STDIN_FILENO, stdout_fd := STDOUT_FILENO,
                        redir_in_path := none, redir_out_path := none,
                        redir_append := 0 } (by omega) (by omega)
                    revert hpt
                    cases parse_tokens s pipe_index (s.length + 2) q
                      { exec_path := exec_path, args := [strndup s p (q - p)],
                        stdin_fd := STDIN_FILENO, stdout_fd := STDOUT_FILENO,
                        redir_in_path := none, redir_out_path := none,
                        redir_append := 0 } with
                    | out_of_fuel => intro hpt; exact absurd rfl hpt
                    | out_of_bounds => intro _; simp
                    | error => intro _; simp
                    | comment cmd => intro _; simp
                    | done cmd => intro _; exact ih _ _ (by omega) (by omega)

/-- `parse_line` never returns for lack of budget: every result is one the C
code determines. -/
theorem parse_line_fuel (fs : FileSystem) (vars : List Variable) (line : CString) :
    (parse_line fs vars line).1 ≠ .out_of_fuel := by
  simp only [parse_line]
  generalize (if defines_path_variable line = true then
    (addOrUpdateVariable vars "PATH".toList (List.drop 5 line)).2 else vars) = vars1
  split
  · simp
  · split
    · simp
    · split
      · simp
      · cases hs : strchr '=' line with
        | some equalsPtr =>
          simp only
          split_ifs <;> simp
        | none =>
          simp only
          have h4 := replace_variables_mk_line_fuel line vars1
          revert h4
          cases replace_variables_mk_line line vars1 with
          | null => intro _; simp
          | out_of_bounds => intro _; simp
          | overflow => intro _; simp
          | out_of_fuel => intro h4; exact absurd rfl h4
          | new_line s =>
            intro _
            exact parse_commands_fuel fs _ s _ 0 [] (by omega) (by omega)

/-! ## Upsert of a name other than PATH -/

theorem updateOrAppend_found (name v : CString) (pre : List Variable) (cur : Variable)
    (post : List Variable) (hpre : ∀ x ∈ pre, x.name ≠ name) (hcur : cur.name = name) :
    updateOrAppend name v (pre ++ cur :: post) = pre ++ { cur with value := v } :: post := by
  induction pre with
  | nil => simp [updateOrAppend, hcur]
  | cons x pre ih =>
    have hx := hpre x (List.mem_cons_self _ _)
    simp [updateOrAppend, hx, ih (fun y hy => hpre y (List.mem_cons_of_mem _ hy))]

theorem updateOrAppend_absent (name v : CString) (vars : List Variable)
    (h : ∀ x ∈ vars, x.name ≠ name) :
    updateOrAppend name v vars = vars ++ [⟨name, v⟩] := by
  induction vars with
  | nil => simp [updateOrAppend, createVariable]
  | cons x vars ih =>
    have hx := h x (List.mem_cons_self _ _)
    simp [updateOrAppend, hx, ih (fun y hy => h y (List.mem_cons_of_mem _ hy))]

/-- C14. Upsert of a name other than `PATH` into a non-empty table returns 0
and either replaces the value of the first entry with that name, all entries
before and after it staying as they are, or, when no entry has the name,
links the new entry after the last one. -/
theorem C14_upsert_updates_or_appends (vars : List Variable) (name v : CString)
    (hne : vars ≠ []) (hname : name ≠ "PATH".toList) :
    (addOrUpdateVariable vars name v).1 = 0
      ∧ (∀ pre cur post, vars = pre ++ cur :: post → (∀ x ∈ pre, x.name ≠ name) →
          cur.name = name →
          (addOrUpdateVariable vars name v).2 = pre ++ { cur with value := v } :: post)
      ∧ ((∀ x ∈ vars, x.name ≠ name) →
          (addOrUpdateVariable vars name v).2 = vars ++ [⟨name, v⟩]) := by
  obtain ⟨current, rest, rfl⟩ := List.exists_cons_of_ne_nil hne
  have e : addOrUpdateVariable (current :: rest) name v
      = (0, updateOrAppend name v (current :: rest)) := by
    simp only [addOrUpdateVariable, hname, if_false]
  rw [e]
  refine ⟨rfl, ?_, ?_⟩
  · intro pre cur post hvars hpre hcur
    show updateOrAppend name v (current :: rest) = _
    rw [hvars]
    exact updateOrAppend_found name v pre cur post hpre hcur
  · intro habs
    exact updateOrAppend_absent name v _ habs

/-- C14 (witness): in the table `PATH=/bin`, `A=hi` the upsert of `A` replaces
the value in place and the upsert of the new name `B` appends at the tail. -/
theorem C14_upsert_updates_or_appends_witness :
    vars_path_A ≠ [] ∧ "A".toList ≠ "PATH".toList
      ∧ (addOrUpdateVariable vars_path_A "A".toList "x".toList).2
          = [⟨"PATH".toList, "/bin".toList⟩, ⟨"A".toList, "x".toList⟩]
      ∧ (addOrUpdateVariable vars_path_A "B".toList "x".toList).2
          = vars_path_A ++ [⟨"B".toList, "x".toList⟩] :=
  ⟨by decide, by decide,
    (C14_upsert_updates_or_appends vars_path_A "A".toList "x".toList (by decide)
      (by decide)).2.1 [⟨"PATH".toList, "/bin".toList⟩] ⟨"A".toList, "hi".toList⟩ [] rfl
      (by decide) rfl,
    (C14_upsert_updates_or_appends vars_path_A "B".toList "x".toList (by decide)
      (by decide)).2.2 (by decide)⟩

/-! ## Search of the PATH directories -/

/-- The directory loop returns the join of the first matching directory with
the command name, and NULL when no directory matches. -/
theorem search_path_first_match (fs : FileSystem) (command_name : CString)
    (dirs : List CString) :
    search_path fs command_name dirs
      = match first_match fs command_name dirs with
        | some D => .path (join_path D command_name)
        | none => .null := by
  induction dirs with
  | nil => simp [search_path, first_match]
  | cons d more ih =>
    rw [search_path]
    cases hd : fs d with
    | none =>
      simp only [first_match, List.find?, hd] at ih ⊢
      exact ih
    | some entries =>
      by_cases hin : command_name ∈ entries
      · simp [first_match, List.find?, hd, hin]
      · simp only [first_match, List.find?, hd, hin, if_false, decide_False] at ih ⊢
        exact ih

theorem strtok_all_run (delim : Char) (d : List Char) (hd : ∀ c ∈ d, c ≠ delim) :
    ∀ (cur rest : List Char),
      strtok_all delim cur (d ++ rest) = strtok_all delim (cur ++ d) rest := by
  induction d with
  | nil => intro cur rest; simp
  | cons c d ih =>
    intro cur rest
    have hc := hd c (List.mem_cons_self _ _)
    rw [List.cons_append, strtok_all]
    simp only [hc, if_false]
    rw [ih (fun x hx => hd x (List.mem_cons_of_mem _ hx))]
    simp

/-- The successive `strtok` results on directories joined by colons are the
directories. -/
theorem strtok_all_colon_joined :
    ∀ dirs : List CString, (∀ d ∈ dirs, d ≠ [] ∧ ∀ c ∈ d, c ≠ ':') →
      strtok_all ':' [] (colon_joined dirs) = dirs := by
  intro dirs
  induction dirs with
  | nil => intro _; simp [colon_joined, strtok_all]
  | cons d more ih =>
    intro h
    have hd := h d (List.mem_cons_self _ _)
    cases more with
    | nil =>
      have := strtok_all_run ':' d hd.2 [] []
      simp only [List.append_nil, List.nil_append] at this
      rw [colon_joined, this, strtok_all]
      simp [hd.1]
    | cons e more =>
      have := strtok_all_run ':' d hd.2 [] (':' :: colon_joined (e :: more))
      simp only [List.nil_append] at this
      rw [colon_joined, this, strtok_all]
      simp only [if_true, hd.1, if_false]
      rw [ih (fun x hx => h x (List.mem_cons_of_mem _ hx))]

/-- PATH search in terms of the `strtok` results: as soon as the value holds a
character other than `:`, the result is the join of the first directory among
the `strtok` results whose listing holds the command name, and NULL when there
is none. -/
theorem resolve_executable_search (fs : FileSystem) (p : Variable) (command_name : CString)
    (hp : p.name = PATH_VAR_NAME) (hcd : command_name ≠ CD) (hslash : '/' ∉ command_name)
    (hdirs : strtok_all ':' [] p.value ≠ []) :
    resolve_executable fs command_name (some p)
      = match first_match fs command_name (strtok_all ':' [] p.value) with
        | some D => .path (join_path D command_name)
        | none => .null := by
  obtain ⟨d0, more, hd⟩ := List.exists_cons_of_ne_nil hdirs
  simp only [resolve_executable, hcd, hp, hslash, if_false, ne_eq, not_true_eq_false, hd]
  exact search_path_first_match fs command_name (d0 :: more)

/-- PATH search on a value that names at least one directory: the result is
the join of the first directory, in the order of the value, whose listing holds
the command name; directories that cannot be opened are passed over; NULL
when no directory matches. -/
theorem resolve_executable_first_match (fs : FileSystem) (p : Variable)
    (command_name : CString) (dirs : List CString)
    (hp : p.name = PATH_VAR_NAME) (hcd : command_name ≠ CD)
    (hslash : '/' ∉ command_name) (hdirs : dirs ≠ [])
    (hd : ∀ d ∈ dirs, d ≠ [] ∧ ∀ c ∈ d, c ≠ ':') (hval : p.value = colon_joined dirs) :
    resolve_executable fs command_name (some p)
      = match first_match fs command_name dirs with
        | some D => .path (join_path D command_name)
        | none => .null := by
  obtain ⟨d0, more, rfl⟩ := List.exists_cons_of_ne_nil hdirs
  simp only [resolve_executable, hcd, hp, hslash, if_false, ne_eq, not_true_eq_false, hval,
    strtok_all_colon_joined _ hd]
  exact search_path_first_match fs command_name (d0 :: more)

/-- C11 (failing input). The line `PATH=` stores `PATH` with the empty value;
with that table the value holds no directory, `strtok` returns NULL and the
`do ... while` loop passes it to `opendir` before any test: the resolution of
`ls` is a fault instead of the not-found result, and a command line is not
parsed. -/
theorem C11_empty_path_value_faults :
    parse_line fs_bin [] "PATH=".toList = (.head [], vars_path_empty)
      ∧ resolve_executable fs_bin "ls".toList vars_path_empty.head? = .fault
      ∧ parse_line fs_bin vars_path_empty "ls #".toList = (.undefined, vars_path_empty) := by
  decide

/-! ## Bare references and unbound names -/

/-- The bare form of a reference in a line without further `$`: the value
replaces `$`, the name and the character that ends the name, which is not
copied. When the line ends with that character the result is `a ++ v`; when
text follows, its first character is written outside the block. -/
theorem replace_variables_mk_line_bare (vars : List Variable) (a N v b : CString) (d : Char)
    (ha : ∀ c ∈ a, c ≠ NUL ∧ c ≠ '$') (hb : ∀ c ∈ b, c ≠ NUL ∧ c ≠ '$')
    (hvalid : ∀ c ∈ N, isValidVarChar c = true) (hd : d = ' ' ∨ d = '.')
    (hv : find_value_from_name N vars = some v) :
    replace_variables_mk_line (a ++ ('$' :: (N ++ d :: b))) vars
      = if b = [] then .new_line (a ++ v) else .overflow := by
  unfold replace_variables_mk_line
  generalize hline : a ++ ('$' :: (N ++ d :: b)) = line
  have h0 : suffix_at line 0 (a ++ ('$' :: (N ++ d :: b))) := by
    rw [hline]; exact suffix_at_zero line
  have hlen : line.length = a.length + (N.length + b.length + 2) := by
    rw [← hline]; simp; omega
  have hfuel : line.length + 2 = ((N.length + b.length + 2) + 1 + 1) + a.length := by omega
  rw [hfuel, replace_loop_copy vars line a ha _ _ 0 _ _ h0
    (Or.inr (by simp only [List.length_nil]; omega))]
  have h1 := suffix_at_append a _ h0
  simp only [Nat.zero_add, List.nil_append] at h1 ⊢
  rw [replace_loop_bare vars line N b a d _ _ _ h1 hvalid hd, hv]
  simp only []
  have h5 := suffix_at_append N _ (suffix_at_cons h1).2
  have h6 := (suffix_at_cons h5).2
  have hfin := replace_loop_after_value vars line (a ++ v) b _ (N.length + b.length + 2) h6 hb
  rw [List.length_append] at hfin
  exact hfin

/-- C17 (failing input). With `A` bound to `hi` the bare reference followed by
a space loses that space: the line `echo $A `, which ends with the space,
expands to `echo hi`. When text follows the space or the dot, the result is
not the line with the value in place of the reference either: the character
after the dropped one is written outside the block of the new line. -/
theorem C17_bare_reference_drops_terminator :
    replace_variables_mk_line "echo $A ".toList vars_path_A = .new_line "echo hi".toList
      ∧ replace_variables_mk_line "echo $A b".toList vars_path_A
          ≠ .new_line "echo hi b".toList
      ∧ replace_variables_mk_line "echo $A b".toList vars_path_A = .overflow
      ∧ replace_variables_mk_line "cat $A.txt".toList vars_path_A = .overflow := by
  decide

/-- A reference to a name the table does not bind ends the expansion with
NULL, in the braced and in the bare form. -/
theorem replace_variables_mk_line_unbound (vars : List Variable) (a N b line : CString)
    (ha : ∀ c ∈ a, c ≠ NUL ∧ c ≠ '$')
    (hvalid : ∀ c ∈ N, isValidVarChar c = true)
    (hv : find_value_from_name N vars = none)
    (hline : line = a ++ ('$' :: '{' :: (N ++ '}' :: b))
      ∨ line = a ++ ('$' :: (N ++ ' ' :: b)) ∨ line = a ++ ('$' :: (N ++ '.' :: b))) :
    replace_variables_mk_line line vars = .null := by
  unfold replace_variables_mk_line
  have h00 := suffix_at_zero line
  rcases hline with hl | hl
  · -- braced
    have h0 : suffix_at line 0 (a ++ ('$' :: '{' :: (N ++ '}' :: b))) := by
      rw [← hl]; exact h00
    have hlen : line.length = a.length + (N.length + b.length + 3) := by
      rw [hl]; simp; omega
    have hfuel : line.length + 2 = ((N.length + b.length + 4) + 1) + a.length := by omega
    rw [hfuel, replace_loop_copy vars line a ha _ _ 0 _ _ h0
      (Or.inr (by simp only [List.length_nil]; omega))]
    have h1 := suffix_at_append a _ h0
    simp only [Nat.zero_add, List.nil_append] at h1 ⊢
    rw [replace_loop_braced vars line N b a _ _ _ h1 hvalid, hv]
  · -- bare
    obtain ⟨d, hd, hl⟩ : ∃ d, (d = ' ' ∨ d = '.') ∧ line = a ++ ('$' :: (N ++ d :: b)) := by
      rcases hl with hl | hl
      · exact ⟨' ', Or.inl rfl, hl⟩
      · exact ⟨'.', Or.inr rfl, hl⟩
    have h0 : suffix_at line 0 (a ++ ('$' :: (N ++ d :: b))) := by
      rw [← hl]; exact h00
    have hlen : line.length = a.length + (N.length + b.length + 2) := by
      rw [hl]; simp; omega
    have hfuel : line.length + 2 = ((N.length + b.length + 3) + 1) + a.length := by omega
    rw [hfuel, replace_loop_copy vars line a ha _ _ 0 _ _ h0
      (Or.inr (by simp only [List.length_nil]; omega))]
    have h1 := suffix_at_append a _ h0
    simp only [Nat.zero_add, List.nil_append] at h1 ⊢
    rw [replace_loop_bare vars line N b a d _ _ _ h1 hvalid hd, hv]

/-- A line that is not empty, blank or a comment and holds no `=` goes to the
expansion, and its result decides what `parse_line` returns; the table is not
touched. -/
theorem parse_line_expansion (fs : FileSystem) (vars : List Variable) (line : CString)
    (c0 : Char) (t : List Char) (hl : line = c0 :: t) (hc0 : c0 ≠ NUL)
    (hblank : is_blank_or_comment line = false) (heq : ∀ c ∈ line, c ≠ '=') :
    parse_line fs vars line
      = match replace_variables_mk_line line vars with
        | .null => (.error, vars)
        | .out_of_bounds => (.undefined, vars)
        | .overflow => (.undefined, vars)
        | .out_of_fuel => (.out_of_fuel, vars)
        | .new_line s => (parse_commands fs vars.head? s (s.length + 2) 0 [], vars) := by
  have hstart : startsWithEqualSign line = false := by
    rw [hl] at heq ⊢
    have := heq c0 (List.mem_cons_self _ _)
    simp [startsWithEqualSign, this]
  have hpath : defines_path_variable line = false := by
    cases h : defines_path_variable line
    · rfl
    · exfalso
      simp only [defines_path_variable, decide_eq_true_eq] at h
      have hm : '=' ∈ line.take 5 := by rw [h]; decide
      exact heq '=' (List.mem_of_mem_take hm) rfl
  have hchr : strchr '=' line = none :=
    strchr_none (fun hm => heq '=' hm rfl)
  have hhead : ¬ (line.head? = none ∨ line.head? = some NUL) := by
    rw [hl]; simp [hc0]
  unfold parse_line
  rw [if_neg hhead, hblank, hstart, hpath, hchr]
  simp only [Bool.false_eq_true, if_false]

/-- The lookup of a name that no entry of the table has returns NULL. -/
theorem find_value_from_name_none (name : CString) (vars : List Variable)
    (h : ∀ x ∈ vars, x.name ≠ name) : find_value_from_name name vars = none := by
  induction vars with
  | nil => rfl
  | cons x vars ih =>
    have hx := h x (List.mem_cons_self _ _)
    simp only [find_value_from_name, hx, if_false]
    exact ih (fun y hy => h y (List.mem_cons_of_mem _ hy))

/-- C18. An unbound reference aborts the whole expansion: when the first `$`
of a line starts a braced reference, or a bare reference ended by a space or a
dot, to a name of letters and underscores that no table entry has,
`replace_variables_mk_line` returns NULL (no line), and `parse_line` on such a
line, when it is not a comment and holds no `=`, returns the error result and
leaves the table as it was. -/
theorem C18_unbound_reference_aborts (fs : FileSystem) (vars : List Variable)
    (a N b line : CString)
    (ha : ∀ c ∈ a, c ≠ NUL ∧ c ≠ '$')
    (hvalid : ∀ c ∈ N, isValidVarChar c = true)
    (hv : ∀ x ∈ vars, x.name ≠ N)
    (hline : line = a ++ ('$' :: '{' :: (N ++ '}' :: b))
      ∨ line = a ++ ('$' :: (N ++ ' ' :: b)) ∨ line = a ++ ('$' :: (N ++ '.' :: b))) :
    replace_variables_mk_line line vars = .null
      ∧ (is_blank_or_comment line = false → (∀ c ∈ line, c ≠ '=') →
          parse_line fs vars line = (.error, vars)) := by
  have hnull := replace_variables_mk_line_unbound vars a N b line ha hvalid
    (find_value_from_name_none N vars hv) hline
  refine ⟨hnull, ?_⟩
  intro hblank heq
  obtain ⟨c0, t, hl, hc0⟩ : ∃ c0 t, line = c0 :: t ∧ c0 ≠ NUL := by
    cases a with
    | nil =>
      rcases hline with h | h | h <;> exact ⟨'$', _, by simpa using h, by decide⟩
    | cons x a1 =>
      have hx := (ha x (List.mem_cons_self _ _)).1
      rcases hline with h | h | h <;> exact ⟨x, _, by simpa using h, hx⟩
  rw [parse_line_expansion fs vars line c0 t hl hc0 hblank heq, hnull]

/-- C18 (witness): `B` is not bound in the table `PATH=/bin`, `A=hi`; the
line `echo`, a braced reference to `B`, ` b` has no expansion and is a parse
error. -/
theorem C18_unbound_reference_aborts_witness :
    (∀ x ∈ vars_path_A, x.name ≠ "B".toList)
      ∧ replace_variables_mk_line "echo $\x7bB\x7d b".toList vars_path_A = .null
      ∧ parse_line fs_bin vars_path_A "echo $\x7bB\x7d b".toList = (.error, vars_path_A) :=
  have h := C18_unbound_reference_aborts fs_bin vars_path_A "echo ".toList "B".toList
    " b".toList "echo $\x7bB\x7d b".toList (by decide) (by decide) (by decide)
    (Or.inl (by decide))
  ⟨by decide, h.1, h.2 (by decide) (by decide)⟩

/-! ## What the items of a stage leave in the command node -/

theorem apply_items_append (cmd : Command) (xs ys : List Item) :
    apply_items cmd (xs ++ ys) = apply_items (apply_items cmd xs) ys := by
  induction xs generalizing cmd with
  | nil => rfl
  | cons x xs ih => simp [apply_items, ih]

/-- Items that are not output redirects keep the output path. -/
theorem apply_items_update_out (post : List Item) (h : ∀ it ∈ post, it.is_output = false)
    (x : Option CString) :
    ∀ cmd : Command, apply_items { cmd with redir_out_path := x } post
      = { apply_items cmd post with redir_out_path := x } := by
  induction post with
  | nil => intro cmd; rfl
  | cons it t ih =>
    intro cmd
    have hit := h it (List.mem_cons_self _ _)
    have iht := ih (fun y hy => h y (List.mem_cons_of_mem _ hy))
    cases it with
    | space => exact iht cmd
    | arg w => exact iht { cmd with args := cmd.args ++ [w], args_end := .indeterminate }
    | redir_in gap w => exact iht { cmd with redir_in_path := some w }
    | redir_out gap w => simp [Item.is_output] at hit
    | redir_append gap w => simp [Item.is_output] at hit

/-- The output path is the target of the last output redirect of the stage,
whether it is written `>` or `>>`. -/
theorem apply_items_last_output (cmd : Command) (pre post : List Item) (gap w : CString)
    (h : ∀ it ∈ post, it.is_output = false) :
    (apply_items cmd (pre ++ Item.redir_out gap w :: post)).redir_out_path = some w
      ∧ (apply_items cmd (pre ++ Item.redir_append gap w :: post)).redir_out_path = some w := by
  constructor
  · rw [apply_items_append]
    show (apply_items { apply_items cmd pre with redir_out_path := some w } post).redir_out_path
      = some w
    rw [apply_items_update_out post h]
  · rw [apply_items_append]
    show (apply_items { apply_items cmd pre with redir_append := 1, redir_out_path := some w }
      post).redir_out_path = some w
    rw [apply_items_update_out post h (some w) { apply_items cmd pre with redir_append := 1 }]

/-- C15 (failing input). In the stage `ls >> a > b` the last output redirect is
the truncating one, and the path is `b`, but the append flag set by the earlier
`>>` is still 1: the `>` branch stores the path and does not reset the flag.
In the opposite order the flag is 1 as it should be. -/
theorem C15_truncate_after_append_keeps_flag :
    parse_line fs_bin vars_path_A "ls >> a > b #".toList
        = (.head [{ exec_path := "/bin/ls".toList, args := ["ls".toList], stdin_fd := 0,
                    stdout_fd := 1, redir_in_path := none,
                    redir_out_path := some "b".toList, redir_append := 1 }], vars_path_A)
      ∧ parse_line fs_bin vars_path_A "ls > a >> b #".toList
        = (.head [{ exec_path := "/bin/ls".toList, args := ["ls".toList], stdin_fd := 0,
                    stdout_fd := 1, redir_in_path := none,
                    redir_out_path := some "b".toList, redir_append := 1 }], vars_path_A) := by
  decide

/-! ## Pipe descriptors -/

theorem pipe_not_mem_close_one (fds : Option (Int × Int)) (c : Prop) [Decidable c] (a : Int) :
    Event.pipe fds ∈ (if c then [Event.close a] else []) ↔ False := by
  split_ifs <;> simp

theorem pipe_not_mem_close_two (fds : Option (Int × Int)) (c : Prop) [Decidable c]
    (a b : Int) :
    Event.pipe fds ∈ (if c then [Event.close a, Event.close b] else []) ↔ False := by
  split_ifs <;> simp

/-- Every `pipe` event of the loop records what the operating system answered
for some stage. -/
theorem execute_loop_pipe_event (os : Nat → StageOS) :
    ∀ (cmds : List Command) (idx : Nat) (lastInput : Int) (fd : Int × Int) (result : Int)
      (fds : Option (Int × Int)),
      Event.pipe fds ∈ (execute_loop os idx cmds lastInput fd result).log →
      ∃ i, (os i).pipe_fds = fds := by
  intro cmds
  induction cmds with
  | nil =>
    intro idx lastInput fd result fds h
    simp [execute_loop] at h
  | cons current next ih =>
    intro idx lastInput fd result fds h
    by_cases hn : next = []
    · subst hn
      by_cases hcd : current.exec_path = "cd".toList
      · simp [execute_loop, hcd] at h
      · simp only [execute_loop, hcd, ne_eq, not_true_eq_false, false_and, if_false, true_or,
          if_true, List.nil_append, List.append_nil, List.mem_append, List.mem_cons,
          List.mem_singleton, List.not_mem_nil, or_false, reduceCtorEq,
          pipe_not_mem_close_one] at h
    · by_cases hp : (os idx).pipe_fds = none
      · simp only [execute_loop, hn, hp, ne_eq, not_false_eq_true, and_self, if_true,
          List.mem_singleton, Event.pipe.injEq] at h
        exact ⟨idx, by rw [hp, h]⟩
      · by_cases hcd : current.exec_path = "cd".toList
        · simp only [execute_loop, hn, hp, hcd, ne_eq, not_false_eq_true, and_false, if_false,
            if_true, List.mem_append, List.mem_cons, List.mem_singleton, List.not_mem_nil,
            or_false, reduceCtorEq, Event.pipe.injEq] at h
          rcases h with h | h
          · exact ⟨idx, h.symm⟩
          · exact ih _ _ _ _ _ h
        · simp only [execute_loop, hn, hp, hcd, ne_eq, not_false_eq_true, and_false, if_false,
            if_true, false_or, reduceCtorEq] at h
          split at h
          · simp only [List.mem_append, List.mem_cons, List.mem_singleton, List.not_mem_nil,
              or_false, reduceCtorEq, Event.pipe.injEq, pipe_not_mem_close_one,
              pipe_not_mem_close_two] at h
            exact ⟨idx, h.symm⟩
          · simp only [List.mem_append, List.mem_cons, List.mem_singleton, List.not_mem_nil,
              or_false, reduceCtorEq, Event.pipe.injEq, pipe_not_mem_close_one] at h
            rcases h with h | h
            · exact ⟨idx, h.symm⟩
            · exact ih _ _ _ _ _ h

/-- The loop over external stages: both ends of every pipe it creates are
closed by the loop, except that the read end of the last pipe may be what
`lastInput` holds when the loop is left; the same holds for the descriptor the
loop was entered with. -/
theorem execute_loop_closes (os : Nat → StageOS)
    (hos : ∀ i r w, (os i).pipe_fds = some (r, w) → r ≠ STDIN_FILENO) :
    ∀ (cmds : List Command) (idx : Nat) (lastInput : Int) (fd : Int × Int) (result : Int),
      (∀ c ∈ cmds, c.exec_path ≠ "cd".toList) →
      (∀ r w, Event.pipe (some (r, w)) ∈ (execute_loop os idx cmds lastInput fd result).log →
        Event.close w ∈ (execute_loop os idx cmds lastInput fd result).log
          ∧ (Event.close r ∈ (execute_loop os idx cmds lastInput fd result).log
              ∨ (execute_loop os idx cmds lastInput fd result).lastInput = r))
      ∧ (lastInput ≠ STDIN_FILENO →
          Event.close lastInput ∈ (execute_loop os idx cmds lastInput fd result).log
            ∨ (execute_loop os idx cmds lastInput fd result).lastInput = lastInput) := by
  intro cmds
  induction cmds with
  | nil =>
    intro idx lastInput fd result _
    simp [execute_loop]
  | cons current next ih =>
    intro idx lastInput fd result hext
    have hcd : current.exec_path ≠ "cd".toList := hext current (List.mem_cons_self _ _)
    have hnext : ∀ c ∈ next, c.exec_path ≠ "cd".toList :=
      fun c hc => hext c (List.mem_cons_of_mem _ hc)
    by_cases hn : next = []
    · subst hn
      simp only [execute_loop, hcd, ne_eq, not_true_eq_false, false_and, if_false, true_or,
        if_true, List.nil_append, List.append_nil]
      refine ⟨?_, ?_⟩
      · intro r w h
        simp [pipe_not_mem_close_one] at h
      · intro hl
        left
        simp [hl]
    · by_cases hp : (os idx).pipe_fds = none
      · simp [execute_loop, hn, hp]
      · obtain ⟨⟨r0, w0⟩, hrw⟩ := Option.ne_none_iff_exists'.1 hp
        have hr0 := hos idx r0 w0 hrw
        by_cases hres : run_command { current with stdin_fd := lastInput, stdout_fd := w0 }
            (os idx).child ≠ 0
        · simp only [execute_loop, hn, hp, hcd, hrw, Option.getD_some, ne_eq,
            not_false_eq_true, and_false, if_false, if_true, false_or, reduceCtorEq, hres,
            not_true_eq_false] 
          refine ⟨?_, ?_⟩
          · intro r w h
            have : r = r0 ∧ w = w0 := by
              simpa [pipe_not_mem_close_one] using h
            obtain ⟨rfl, rfl⟩ := this
            simp
          · intro hl
            left
            simp [hl]
        · have hres0 : run_command { current with stdin_fd := lastInput, stdout_fd := w0 }
              (os idx).child = 0 := by
            by_contra h; exact hres h
          obtain ⟨iha, ihb⟩ := ih (idx + 1) r0 (r0, w0) 0 hnext
          simp only [execute_loop, hn, hp, hcd, hrw, Option.getD_some, ne_eq,
            not_false_eq_true, and_false, if_false, if_true, false_or, reduceCtorEq, hres0,
            not_true_eq_false]
          refine ⟨?_, ?_⟩
          · intro r w h
            simp only [List.mem_append, List.mem_cons, List.mem_singleton, List.not_mem_nil,
              or_false, reduceCtorEq, false_or, Event.pipe.injEq, Option.some.injEq,
              Prod.mk.injEq] at h
            rcases h with (h | h) | h
            · obtain ⟨rfl, rfl⟩ := h
              refine ⟨by simp, ?_⟩
              rcases ihb hr0 with h1 | h1
              · left; simp [h1]
              · right; exact h1
            · exact absurd h (by simp [pipe_not_mem_close_one])
            · obtain ⟨h1, h2⟩ := iha r w h
              refine ⟨by simp [h1], ?_⟩
              rcases h2 with h2 | h2
              · left; simp [h2]
              · right; exact h2
          · intro hl
            left
            simp [hl]

/-- A pipeline of external stages: when `execute_line` returns, both ends of
every pipe it created have been closed (the read end possibly twice). -/
theorem execute_line_closes_pipes (os : Nat → StageOS) (fd0 : Int × Int)
    (head : List Command)
    (hos : ∀ i r w, (os i).pipe_fds = some (r, w) → r ≠ STDIN_FILENO)
    (hext : ∀ c ∈ head, c.exec_path ≠ "cd".toList) (r w : Int)
    (h : Event.pipe (some (r, w)) ∈ (execute_line os fd0 head).log) :
    Event.close r ∈ (execute_line os fd0 head).log
      ∧ Event.close w ∈ (execute_line os fd0 head).log := by
  by_cases hh : head = []
  · simp [execute_line, hh] at h
  · obtain ⟨iha, -⟩ := execute_loop_closes os hos head 0 STDIN_FILENO fd0 0 hext
    simp only [execute_line, hh, if_false, List.mem_append] at h ⊢
    have hin : Event.pipe (some (r, w))
        ∈ (execute_loop os 0 head STDIN_FILENO fd0 0).log := by
      rcases h with h | h
      · exact h
      · exact absurd h (by simp [pipe_not_mem_close_one])
    obtain ⟨hw, hr⟩ := iha r w hin
    refine ⟨?_, Or.inl hw⟩
    rcases hr with hr | hr
    · exact Or.inl hr
    · right
      obtain ⟨i, hi⟩ := execute_loop_pipe_event os head 0 STDIN_FILENO fd0 0 _ hin
      have hne := hos i r w hi
      rw [hr]
      simp [hne]

/-- C19 (failing input). In the pipeline `cd /tmp | ls` the pipe created for
the first stage has the ends 3 and 4; the builtin leaves the iteration by
`continue`, so the write end 4 is never closed: the calls made are `pipe`, the
builtin, `run_command` for `ls` and `close(3)`. For a single external stage no
pipe is created, and the descriptor closed after the loop is the
indeterminate initial content of `fd[0]`. -/
theorem C19_builtin_leaves_pipe_open (fd0 : Int × Int) :
    (execute_line os_pipe_ok fd0 [cmd_cd_tmp, cmd_ls]).log
        = [.pipe (some (3, 4)), .cd 0 (some "/tmp".toList), .run 1 cmd_ls, .close 3]
      ∧ Event.close 4 ∉ (execute_line os_pipe_ok fd0 [cmd_cd_tmp, cmd_ls]).log
      ∧ (execute_line os_pipe_ok fd0 [cmd_ls]).log
          = .run 0 cmd_ls :: (if fd0.1 ≠ STDIN_FILENO then [.close fd0.1] else []) := by
  have e : (execute_line os_pipe_ok fd0 [cmd_cd_tmp, cmd_ls]).log
      = [.pipe (some (3, 4)), .cd 0 (some "/tmp".toList), .run 1 cmd_ls, .close 3] := by
    simp [execute_line, execute_loop, os_pipe_ok, cmd_cd_tmp, cmd_ls, run_command,
      STDIN_FILENO, STDOUT_FILENO]
  refine ⟨e, ?_, ?_⟩
  · rw [e]; decide
  · simp [execute_line, execute_loop, os_pipe_ok, cmd_ls, run_command,
      STDIN_FILENO, STDOUT_FILENO]

/-! ## Lines of stages closed by `|` -/

/-- A line without `=`, `$` and NUL whose first character after white space
is not `#` is handed to the main loop as it is. -/
theorem parse_line_plain (fs : FileSystem) (vars : List Variable)
    (ws : List Char) (c : Char) (t : List Char)
    (hws : ∀ x ∈ ws, isspace x = true) (hc : isspace c = false) (hch : c ≠ '#')
    (hline : ∀ x ∈ ws ++ c :: t, x ≠ NUL ∧ x ≠ '$' ∧ x ≠ '=') :
    parse_line fs vars (ws ++ c :: t)
      = (parse_commands fs vars.head? (ws ++ c :: t) ((ws ++ c :: t).length + 2) 0 [],
          vars) := by
  have hcn : c ≠ NUL := (hline c (by simp)).1
  have hblank : is_blank_or_comment (ws ++ c :: t) = false := by
    rw [is_blank_or_comment, dropWhile_isspace_run ws c t hws hc]
    simp [hcn, hch]
  obtain ⟨c0, t0, hl, hc0⟩ : ∃ c0 t0, ws ++ c :: t = c0 :: t0 ∧ c0 ≠ NUL := by
    cases ws with
    | nil => exact ⟨c, t, rfl, hcn⟩
    | cons w ws1 => exact ⟨w, ws1 ++ c :: t, rfl, (hline w (by simp)).1⟩
  rw [parse_line_expansion fs vars _ c0 t0 hl hc0 hblank (fun x hx => (hline x hx).2.2),
    replace_variables_mk_line_plain vars _ (fun x hx => ⟨(hline x hx).1, (hline x hx).2.1⟩)]

/-- The main loop returns the list built so far when it stands at the
terminator. -/
theorem parse_commands_at_end (fs : FileSystem) (path : Option Variable) (s : List Char)
    (fuel curr : Nat) (head : List Command) (hs : suffix_at s curr []) :
    parse_commands fs path s (fuel + 1) curr head = .head head := by
  rw [parse_commands, (suffix_at_nil hs).2]
  simp

/-- A stage that holds nothing but white space, or that starts with a
character that cannot start a command name, ends the main loop with the
error result. -/
theorem parse_commands_empty_stage (fs : FileSystem) (path : Option Variable) (s : List Char)
    (ws tail : List Char) (fuel curr : Nat) (head : List Command)
    (hs : suffix_at s curr (ws ++ tail))
    (hws : ∀ x ∈ ws, isspace x = true)
    (htail : (tail = [] ∧ ws ≠ [])
      ∨ ∃ c rest, tail = c :: rest ∧ isspace c = false ∧ isValidVarChar c = false ∧ c ≠ NUL) :
    parse_commands fs path s (fuel + 1) curr head = .error := by
  have hp := suffix_at_append ws _ hs
  have hfirst : ∃ f, cget s curr = some f ∧ f ≠ NUL := by
    cases ws with
    | nil =>
      rcases htail with ⟨-, h⟩ | ⟨c, rest, rfl, -, -, hcn⟩
      · exact absurd rfl h
      · exact ⟨c, (suffix_at_cons (by simpa using hs)).1, hcn⟩
    | cons w ws1 =>
      have := (suffix_at_cons (by simpa using hs : suffix_at s curr (w :: (ws1 ++ tail)))).1
      exact ⟨w, this, (isspace_ne (hws w (List.mem_cons_self _ _))).1⟩
  obtain ⟨f, hf, hfn⟩ := hfirst
  have hrun : ∀ k, ∀ x ∈ ws, stop_space (curr + k) x = false := by
    intro k x hx
    simp [stop_space, hws x hx, (isspace_ne (hws x hx)).1]
  rcases htail with ⟨rfl, -⟩ | ⟨c, rest, rfl, hcs, hcv, hcn⟩
  · have hskip : scan stop_space s curr = some (curr + ws.length) := by
      rw [scan_eq_scanFrom stop_space hs, scanFrom_skip stop_space ws [] _ hrun]
      simp [scanFrom, stop_space]
    rw [parse_commands, hf]
    simp only [hfn, if_false]
    rw [hskip]
    simp only [(suffix_at_nil hp).2]
    simp [isValidVarChar, isalpha, NUL]
  · have hskip : scan stop_space s curr = some (curr + ws.length) := by
      rw [scan_eq_scanFrom stop_space hs]
      exact scanFrom_run stop_space ws c rest _ hrun (by simp [stop_space, hcs])
    rw [parse_commands, hf]
    simp only [hfn, if_false]
    rw [hskip]
    simp only [(suffix_at_cons hp).1]
    simp [hcv]

/-- The text of stages each closed by `|` starts, after white space, with the
first character of a command name, or with what `tail` starts with when there
is no stage. -/
theorem pipe_line_start (fs : FileSystem) (path : Option Variable) (stages : List SpacedStage)
    (tail : List Char)
    (hok : ∀ x ∈ stages, x.ok fs path = true)
    (htail : stages = [] → ∃ ws c t, tail = ws ++ c :: t ∧ (∀ x ∈ ws, isspace x = true)
      ∧ isspace c = false ∧ c ≠ '#') :
    ∃ ws c t, pipe_line stages tail = ws ++ c :: t ∧ (∀ x ∈ ws, isspace x = true)
      ∧ isspace c = false ∧ c ≠ '#' := by
  cases stages with
  | nil => exact htail rfl
  | cons st more =>
    obtain ⟨hws1, -, ⟨c1, ct, hcmd, hc1⟩, -, -⟩ :=
      SpacedStage.ok_parts (hok st (List.mem_cons_self _ _))
    refine ⟨st.ws, c1, ct ++ ' ' :: (tokens_text st.items ++ '|' :: pipe_line more tail),
      by simp [pipe_line, SpacedStage.text, hcmd], hws1, ?_, ?_⟩
    · cases h : isspace c1
      · rfl
      · have := (isspace_ne h).2
        rw [hc1] at this; cases this
    · rintro rfl; revert hc1; decide

/-- On a line of well-formed stages each closed by `|`, `parse_line` links the
command nodes of the stages and goes on with the main loop at the text after
the last `|`, the table staying as it was. -/
theorem parse_line_pipe_line (fs : FileSystem) (vars : List Variable)
    (stages : List SpacedStage) (tail : List Char)
    (hok : ∀ x ∈ stages, x.ok fs vars.head? = true)
    (htail : stages = [] → ∃ ws c t, tail = ws ++ c :: t ∧ (∀ x ∈ ws, isspace x = true)
      ∧ isspace c = false ∧ c ≠ '#')
    (hline : ∀ c ∈ pipe_line stages tail, c ≠ NUL ∧ c ≠ '$' ∧ c ≠ '=') :
    ∃ next fuel, suffix_at (pipe_line stages tail) next tail
      ∧ parse_line fs vars (pipe_line stages tail)
          = (parse_commands fs vars.head? (pipe_line stages tail) (fuel + 2) next
              (stages.map SpacedStage.closed), vars) := by
  obtain ⟨ws, c, t, hshape, hws, hc, hch⟩ := pipe_line_start fs vars.head? stages tail hok htail
  have hl := pipe_line_length tail stages
  obtain ⟨next, hn, hrec⟩ := parse_commands_pipe_line fs vars.head? _ tail stages
    ((pipe_line stages tail).length - stages.length + 2) 0 [] hok (suffix_at_zero _)
  refine ⟨next, (pipe_line stages tail).length - stages.length, hn, ?_⟩
  have e : (pipe_line stages tail).length + 2
      = ((pipe_line stages tail).length - stages.length + 2) + stages.length := by omega
  simp only [List.nil_append] at hrec
  rw [← hrec, ← e]
  rw [hshape] at hline ⊢
  exact parse_line_plain fs vars ws c t hws hc hch hline

/-- A line that ends right after a `|`: the main loop stands at the
terminator after the last stage and returns the stages read so far; the
missing stage after the `|` is not noticed. -/
theorem parse_line_trailing_pipe (fs : FileSystem) (vars : List Variable)
    (st : SpacedStage) (more : List SpacedStage)
    (hok : ∀ x ∈ st :: more, x.ok fs vars.head? = true)
    (hline : ∀ c ∈ pipe_line (st :: more) [], c ≠ NUL ∧ c ≠ '$' ∧ c ≠ '=') :
    parse_line fs vars (pipe_line (st :: more) [])
      = (.head ((st :: more).map SpacedStage.closed), vars) := by
  obtain ⟨next, fuel, hn, hrec⟩ := parse_line_pipe_line fs vars (st :: more) [] hok
    (fun h => by cases h) hline
  rw [hrec, parse_commands_at_end fs vars.head? _ (fuel + 1) next _ hn]

/-- An empty stage that the main loop does reach is a parse error: after
well-formed stages each closed by `|`, a further `|` (two pipes with nothing
or white space between them, or a `|` at the start of the line) or white
space up to the end of the line gives the error result. -/
theorem parse_line_empty_stage (fs : FileSystem) (vars : List Variable)
    (stages : List SpacedStage) (ws rest tail : List Char)
    (hok : ∀ x ∈ stages, x.ok fs vars.head? = true)
    (hws : ∀ x ∈ ws, isspace x = true)
    (htail : tail = ws ++ '|' :: rest ∨ (tail = ws ∧ ws ≠ [] ∧ stages ≠ []))
    (hline : ∀ c ∈ pipe_line stages tail, c ≠ NUL ∧ c ≠ '$' ∧ c ≠ '=') :
    parse_line fs vars (pipe_line stages tail) = (.error, vars) := by
  obtain ⟨next, fuel, hn, hrec⟩ := parse_line_pipe_line fs vars stages tail hok
    (fun h => by
      rcases htail with rfl | ⟨-, -, hne⟩
      · exact ⟨ws, '|', rest, rfl, hws, by decide, by decide⟩
      · exact absurd h hne) hline
  rw [hrec]
  rcases htail with rfl | ⟨rfl, hne, -⟩
  · rw [parse_commands_empty_stage fs vars.head? _ ws ('|' :: rest) (fuel + 1) next _ hn hws
      (Or.inr ⟨'|', rest, rfl, by decide, by decide, by decide⟩)]
  · rw [parse_commands_empty_stage fs vars.head? _ tail [] (fuel + 1) next _
      (by simpa using hn) hws (Or.inl ⟨rfl, hne⟩)]

/-- C13 (failing input). With `ls` resolvable, the line `ls |` has an empty
segment after the `|`, yet `parse_line` returns the one-stage pipeline `ls`
instead of the error result: after the stage the main loop stands at the
terminator and stops. When white space or a second `|` follows, the same line
is rejected. -/
theorem C13_trailing_pipe_is_accepted :
    parse_line fs_bin vars_path_A "ls |".toList = (.head [cmd_ls], vars_path_A)
      ∧ parse_line fs_bin vars_path_A "ls | ".toList = (.error, vars_path_A)
      ∧ parse_line fs_bin vars_path_A "ls || wc ".toList = (.error, vars_path_A)
      ∧ parse_line fs_bin vars_path_A "| ls ".toList = (.error, vars_path_A) := by
  decide

/-- C20 (failing input). With `echo` and `wc` resolvable, the line
`echo hello | wc -c` is not parsed into two stages: the scan of the last
argument has no end-of-line test and leaves the line; with a space after the
last argument the advance to `pipe_index + 1` steps over the terminator. The
two stages are returned, in order, when the line is closed by a further `|`,
and also when it is closed by a comment, the argument array of the last stage
then being left without its closing NULL. -/
theorem C20_last_segment_leaves_line :
    parse_line fs_bin vars_path_A "echo hello | wc -c".toList = (.undefined, vars_path_A)
      ∧ parse_line fs_bin vars_path_A "echo hello | wc -c ".toList
          = (.undefined, vars_path_A)
      ∧ parse_line fs_bin vars_path_A "echo hello | wc -c |".toList
          = (.head [{ cmd_ls with exec_path := "/bin/echo".toList,
                                  args := ["echo".toList, "hello".toList] },
                    { cmd_ls with exec_path := "/bin/wc".toList,
                                  args := ["wc".toList, "-c".toList] }], vars_path_A)
      ∧ parse_line fs_bin vars_path_A "echo hello | wc -c #".toList
          = (.head [{ cmd_ls with exec_path := "/bin/echo".toList,
                                  args := ["echo".toList, "hello".toList] },
                    { cmd_ls with exec_path := "/bin/wc".toList,
                                  args := ["wc".toList, "-c".toList],
                                  args_end := .indeterminate }], vars_path_A) := by
  decide

/-! ## Redirect operators without a target -/

theorem scanFrom_lt (stop : Nat → Char → Bool) (c : Char) (rest : List Char) (i q : Nat)
    (hc : stop i c = false) (h : scanFrom stop (c :: rest) i = some q) : i < q := by
  rw [scanFrom] at h
  simp only [hc, Bool.false_eq_true, if_false] at h
  have := scanFrom_ge _ _ _ _ h
  omega

theorem stop_pipe_operator (k : Nat) (x : Char) (h : x = '>' ∨ x = '<') :
    stop_pipe k x = false := by
  rcases h with rfl | rfl <;> rfl

/-- After a redirect operator and optional white space, the end of the line,
the `|` that ends the stage, a `#` or another operator is not a target. -/
theorem redirect_target_missing (stop : Nat → Char → Bool) (s : List Char)
    (pipe_index start : Nat) (gap term : List Char)
    (hs : suffix_at s start (gap ++ term))
    (hgap : ∀ x ∈ gap, isspace x = true)
    (hterm : term = [] ∨ ∃ c rest, term = c :: rest
      ∧ (c = '<' ∨ c = '#' ∨ c = '>' ∨ (c = '|' ∧ pipe_index = start + gap.length))) :
    redirect_target stop s pipe_index start = .error := by
  have hp := suffix_at_append gap _ hs
  have hrun : ∀ k, ∀ x ∈ gap, stop_space (start + k) x = false := by
    intro k x hx
    simp [stop_space, hgap x hx, (isspace_ne (hgap x hx)).1]
  rcases hterm with rfl | ⟨c, rest, rfl, hc⟩
  · have hskip : scan stop_space s start = some (start + gap.length) := by
      rw [scan_eq_scanFrom stop_space hs, scanFrom_skip stop_space gap [] _ hrun]
      simp [scanFrom, stop_space]
    rw [redirect_target, hskip]
    simp only [(suffix_at_nil hp).2]
    simp
  · have hcs : isspace c = false := by
      rcases hc with rfl | rfl | rfl | ⟨rfl, -⟩ <;> decide
    have hskip : scan stop_space s start = some (start + gap.length) := by
      rw [scan_eq_scanFrom stop_space hs]
      exact scanFrom_run stop_space gap c rest _ hrun (by simp [stop_space, hcs])
    rw [redirect_target, hskip]
    simp only [(suffix_at_cons hp).1]
    rcases hc with rfl | rfl | rfl | ⟨rfl, hpi⟩ <;> simp [*]

/-- The per-command loop at a redirect operator that has no target returns
the error result. `op` is the operator as it is written; a `>` directly
followed by another `>` is the operator `>>`. -/
theorem parse_tokens_missing_target (s : List Char) (pipe_index fuel curr : Nat)
    (cmd : Command) (op gap term : List Char)
    (hs : suffix_at s curr (op ++ (gap ++ term)))
    (hpi : scanFrom stop_pipe (op ++ (gap ++ term)) curr = some pipe_index)
    (hop : (op = ['>'] ∧ (gap = [] → ∀ rest, term ≠ '>' :: rest)) ∨ op = ['>', '>']
      ∨ op = ['<'])
    (hgap : ∀ x ∈ gap, isspace x = true)
    (hterm : term = [] ∨ ∃ c rest, term = c :: rest
      ∧ (c = '<' ∨ c = '#' ∨ c = '>' ∨ c = '|')) :
    parse_tokens s pipe_index (fuel + 1) curr cmd = .error := by
  -- the first character of the operator does not end the stage
  obtain ⟨o, ot, hoeq, ho⟩ : ∃ o ot, op = o :: ot ∧ (o = '>' ∨ o = '<') := by
    rcases hop with ⟨rfl, -⟩ | rfl | rfl
    · exact ⟨'>', [], rfl, Or.inl rfl⟩
    · exact ⟨'>', ['>'], rfl, Or.inl rfl⟩
    · exact ⟨'<', [], rfl, Or.inr rfl⟩
  have hlt : curr < pipe_index := by
    rw [hoeq] at hpi
    exact scanFrom_lt stop_pipe o _ curr pipe_index (stop_pipe_operator _ o ho) hpi
  -- where the stage ends when the operator is followed by `|`
  have hterm1 : term = [] ∨ ∃ c rest, term = c :: rest
      ∧ (c = '<' ∨ c = '#' ∨ c = '>'
          ∨ (c = '|' ∧ pipe_index = curr + op.length + gap.length)) := by
    rcases hterm with h | ⟨c, rest, rfl, hc⟩
    · exact Or.inl h
    · refine Or.inr ⟨c, rest, rfl, ?_⟩
      rcases hc with h | h | h | rfl
      · exact Or.inl h
      · exact Or.inr (Or.inl h)
      · exact Or.inr (Or.inr (Or.inl h))
      · refine Or.inr (Or.inr (Or.inr ⟨rfl, ?_⟩))
        have hrun : ∀ k, ∀ x ∈ op ++ gap, stop_pipe (curr + k) x = false := by
          intro k x hx
          rcases List.mem_append.1 hx with hx | hx
          · apply stop_pipe_operator
            rcases hop with ⟨rfl, -⟩ | rfl | rfl <;>
              simp only [List.mem_cons, List.mem_singleton, List.not_mem_nil, or_false,
                or_self] at hx <;> simp [hx]
          · have := isspace_ne (hgap x hx)
            have h2 : x ≠ '|' := by rintro rfl; exact absurd (hgap _ hx) (by decide)
            simp [stop_pipe, this.1, h2]
        have := scanFrom_run stop_pipe (op ++ gap) '|' rest curr hrun (by simp [stop_pipe])
        rw [List.append_assoc, hpi] at this
        simpa [Nat.add_assoc] using this
  rcases hop with ⟨rfl, hgt⟩ | rfl | rfl
  · -- `>`
    obtain ⟨g0, h1⟩ := suffix_at_cons (by simpa using hs :
      suffix_at s curr ('>' :: (gap ++ term)))
    have hsecond : ∃ c1, cget s (curr + 1) = some c1 ∧ c1 ≠ '>' := by
      cases gap with
      | nil =>
        rcases hterm with rfl | ⟨c, rest, rfl, -⟩
        · exact ⟨NUL, (suffix_at_nil (by simpa using h1)).2, by decide⟩
        · exact ⟨c, (suffix_at_cons (by simpa using h1)).1,
            fun e => hgt rfl rest (by rw [e])⟩
      | cons w gap1 =>
        refine ⟨w, (suffix_at_cons (by simpa using h1)).1, ?_⟩
        rintro rfl
        exact absurd (hgap _ (List.mem_cons_self _ _)) (by decide)
    obtain ⟨c1, g1, hc1⟩ := hsecond
    have hmiss := redirect_target_missing (stop_word_or_pipe pipe_index) s pipe_index
      (curr + 1) gap term h1 hgap (by simpa using hterm1)
    rw [parse_tokens, if_pos hlt, g0]
    simp only [if_true]
    rw [g1]
    simp only [hc1, if_false, hmiss]
  · -- `>>`
    obtain ⟨g0, h1⟩ := suffix_at_cons (by simpa using hs :
      suffix_at s curr ('>' :: '>' :: (gap ++ term)))
    obtain ⟨g1, h2⟩ := suffix_at_cons h1
    have hmiss := redirect_target_missing stop_word s pipe_index
      (curr + 1 + 1) gap term h2 hgap (by simpa [Nat.add_assoc] using hterm1)
    rw [parse_tokens, if_pos hlt, g0]
    simp only [if_true]
    rw [g1]
    simp only [if_true, hmiss]
  · -- `<`
    obtain ⟨g0, h1⟩ := suffix_at_cons (by simpa using hs :
      suffix_at s curr ('<' :: (gap ++ term)))
    have hmiss := redirect_target_missing stop_word s pipe_index
      (curr + 1) gap term h1 hgap (by simpa using hterm1)
    rw [parse_tokens, if_pos hlt, g0]
    simp only [show ¬ ('<' = '>') by decide, if_false, if_true, hmiss]

/-- A line of well-formed stages each closed by `|`, then a well-formed stage
and a text on which the per-command loop returns the error result:
`parse_line` returns the error result and leaves the table as it was. -/
theorem parse_line_stage_error (fs : FileSystem) (vars : List Variable)
    (stages : List SpacedStage) (st : SpacedStage) (T : List Char)
    (hok : ∀ x ∈ stages, x.ok fs vars.head? = true) (hst : st.ok fs vars.head? = true)
    (hline : ∀ c ∈ pipe_line stages (st.text ++ T), c ≠ NUL ∧ c ≠ '$' ∧ c ≠ '=')
    (herr : ∀ (pipe_index fuel curr : Nat) (cmd : Command),
      suffix_at (pipe_line stages (st.text ++ T)) curr T →
      scanFrom stop_pipe T curr = some pipe_index →
      parse_tokens (pipe_line stages (st.text ++ T)) pipe_index (fuel + 1) curr cmd = .error) :
    parse_line fs vars (pipe_line stages (st.text ++ T)) = (.error, vars) := by
  obtain ⟨hws, -, ⟨c0, ct, hcmd, hc0⟩, -, -⟩ := SpacedStage.ok_parts hst
  have hc0s : isspace c0 = false := by
    cases h : isspace c0
    · rfl
    · have := (isspace_ne h).2
      rw [hc0] at this; cases this
  have hc0h : c0 ≠ '#' := by rintro rfl; revert hc0; decide
  obtain ⟨next, fuel, hn, hrec⟩ := parse_line_pipe_line fs vars stages (st.text ++ T) hok
    (fun _ => ⟨st.ws, c0, ct ++ ' ' :: (tokens_text st.items ++ T),
      by simp [SpacedStage.text, hcmd], hws, hc0s, hc0h⟩) hline
  obtain ⟨pipe_index, hpi⟩ := scanFrom_total stop_pipe (fun _ => by simp [stop_pipe]) T
    (next + st.text.length)
  rw [hrec, parse_commands_plain_start fs vars.head? _ st T (fuel + 1) next pipe_index _ hst
    hn hpi, herr pipe_index _ _ _ (suffix_at_append st.text _ hn) hpi]

/-- A redirect operator that stands where a token starts and has no target is
a parse error: after well-formed stages each closed by `|`, a well-formed
stage in which every token is followed by a space, then `>`, `>>` or `<`,
optional white space and the end of the line, `|`, `#` or another operator. -/
theorem parse_line_missing_target (fs : FileSystem) (vars : List Variable)
    (stages : List SpacedStage) (st : SpacedStage) (op gap term : List Char)
    (hok : ∀ x ∈ stages, x.ok fs vars.head? = true) (hst : st.ok fs vars.head? = true)
    (hop : (op = ['>'] ∧ (gap = [] → ∀ rest, term ≠ '>' :: rest)) ∨ op = ['>', '>']
      ∨ op = ['<'])
    (hgap : ∀ x ∈ gap, isspace x = true)
    (hterm : term = [] ∨ ∃ c rest, term = c :: rest
      ∧ (c = '<' ∨ c = '#' ∨ c = '>' ∨ c = '|'))
    (hline : ∀ c ∈ pipe_line stages (st.text ++ (op ++ (gap ++ term))),
      c ≠ NUL ∧ c ≠ '$' ∧ c ≠ '=') :
    parse_line fs vars (pipe_line stages (st.text ++ (op ++ (gap ++ term))))
      = (.error, vars) :=
  parse_line_stage_error fs vars stages st _ hok hst hline
    (fun pipe_index fuel curr cmd hs hpi =>
      parse_tokens_missing_target _ pipe_index fuel curr cmd op gap term hs hpi hop hgap hterm)

/-- C16 (failing input). With `ls` resolvable, in `ls a> #` the operator `>`
is followed by white space and `#`, and in `ls a<|` the operator `<` is
followed by `|`, yet `parse_line` returns the pipeline `ls a` instead of the
error result: the scan of the argument `a` stops at the operator and the
advance made after every token steps over it, so the operator is never seen.
The same operators after a space are rejected. -/
theorem C16_operator_after_argument_is_skipped :
    parse_line fs_bin vars_path_A "ls a> #".toList
        = (.head [{ cmd_ls with args := ["ls".toList, "a".toList],
                                args_end := .indeterminate }], vars_path_A)
      ∧ parse_line fs_bin vars_path_A "ls a<|".toList
        = (.head [{ cmd_ls with args := ["ls".toList, "a".toList] }], vars_path_A)
      ∧ parse_line fs_bin vars_path_A "ls a > #".toList = (.error, vars_path_A)
      ∧ parse_line fs_bin vars_path_A "ls a <|".toList = (.error, vars_path_A) := by
  decide

theorem scanFrom_skip_lt (stop : Nat → Char → Bool) (x suf : List Char) :
    ∀ i, (∀ k, k < x.length → ∀ c ∈ x, stop (i + k) c = false) →
      scanFrom stop (x ++ suf) i = scanFrom stop suf (i + x.length) := by
  induction x with
  | nil => intro i _; simp
  | cons c x ih =>
    intro i hx
    have hc : stop i c = false := by
      simpa using hx 0 (by simp) c (List.mem_cons_self _ _)
    have h1 := ih (i + 1)
      (fun k hk y hy => by
        have := hx (k + 1) (by simp; omega) y (List.mem_cons_of_mem _ hy)
        rwa [show i + (k + 1) = i + 1 + k by omega] at this)
    rw [List.cons_append, scanFrom]
    simp only [hc, Bool.false_eq_true, if_false]
    rw [h1]
    congr 1
    simp; omega

/-- The per-command loop at a `>` whose target runs up to the end of the
stage (the `|` or the end of the line): the scan of the target stops at
`pipe_index` and the test that follows returns the error result. -/
theorem parse_tokens_truncate_target_at_end (s : List Char) (pipe_index fuel curr : Nat)
    (cmd : Command) (gap w term : List Char)
    (hs : suffix_at s curr ('>' :: (gap ++ (w ++ term))))
    (hpi : scanFrom stop_pipe ('>' :: (gap ++ (w ++ term))) curr = some pipe_index)
    (hgap : ∀ x ∈ gap, isspace x = true) (hw : target_ok w = true)
    (hterm : term = [] ∨ ∃ rest, term = '|' :: rest) :
    parse_tokens s pipe_index (fuel + 1) curr cmd = .error := by
  simp only [target_ok, Bool.and_eq_true] at hw
  obtain ⟨hwok, hfirst⟩ := hw
  obtain ⟨hplain, c, t, rfl, hhash⟩ := word_ok_parts hwok
  have hcs : isspace c = false := by simpa using hfirst
  have hc := plain_char_ne (hplain c (List.mem_cons_self _ _))
  -- the stage ends right after the target
  have hnostop : ∀ k, ∀ x ∈ '>' :: (gap ++ c :: t), stop_pipe (curr + k) x = false := by
    intro k x hx
    simp only [List.mem_cons, List.mem_append] at hx
    rcases hx with rfl | hx | hx
    · rfl
    · have := isspace_ne (hgap x hx)
      have h2 : x ≠ '|' := by rintro rfl; exact absurd (hgap _ hx) (by decide)
      simp [stop_pipe, this.1, h2]
    · exact (plain_char_stop (hplain x (by simpa using hx)) _).2
  have hpidx : pipe_index = curr + 1 + gap.length + (c :: t).length := by
    have e : '>' :: (gap ++ (c :: t ++ term)) = ('>' :: (gap ++ c :: t)) ++ term := by simp
    rw [e, scanFrom_skip stop_pipe _ term curr hnostop] at hpi
    rcases hterm with rfl | ⟨rest, rfl⟩
    · simp only [scanFrom, stop_pipe, decide_True, Bool.or_true, if_true, Option.some.injEq]
        at hpi
      rw [← hpi]; simp; omega
    · simp only [scanFrom, stop_pipe, decide_True, Bool.true_or, if_true, Option.some.injEq]
        at hpi
      rw [← hpi]; simp; omega
  have hlt : curr < pipe_index := by omega
  obtain ⟨g0, h1⟩ := suffix_at_cons hs
  have hsecond : ∃ c1, cget s (curr + 1) = some c1 ∧ c1 ≠ '>' := by
    cases gap with
    | nil => exact ⟨c, (suffix_at_cons (by simpa using h1)).1, hc.2.2.1⟩
    | cons x gap1 =>
      refine ⟨x, (suffix_at_cons (by simpa using h1)).1, ?_⟩
      rintro rfl
      exact absurd (hgap _ (List.mem_cons_self _ _)) (by decide)
  obtain ⟨c1, g1, hc1⟩ := hsecond
  have hp := suffix_at_append gap _ h1
  obtain ⟨gp, -⟩ := suffix_at_cons (by simpa using hp :
    suffix_at s (curr + 1 + gap.length) (c :: (t ++ term)))
  have hskip : scan stop_space s (curr + 1) = some (curr + 1 + gap.length) := by
    have hs1 : suffix_at s (curr + 1) (gap ++ c :: (t ++ term)) := by simpa using h1
    rw [scan_eq_scanFrom stop_space hs1]
    apply scanFrom_run
    · intro k x hx
      simp [stop_space, hgap x hx, (isspace_ne (hgap x hx)).1]
    · simp [stop_space, hcs]
  have hwstop : ∀ k, k < (c :: t).length → ∀ x ∈ c :: t,
      stop_word_or_pipe pipe_index (curr + 1 + gap.length + k) x = false := by
    intro k hk x hx
    have hx1 := plain_char_ne (hplain x hx)
    have hk1 : curr + 1 + gap.length + k ≠ pipe_index := by omega
    simp [stop_word_or_pipe, hx1.1, hx1.2.1, hx1.2.2.1, hk1]
  have hscan : scan (stop_word_or_pipe pipe_index) s (curr + 1 + gap.length)
      = some pipe_index := by
    rw [scan_eq_scanFrom _ hp,
      scanFrom_skip_lt (stop_word_or_pipe pipe_index) (c :: t) term _ hwstop, ← hpidx]
    rcases hterm with rfl | ⟨rest, rfl⟩
    · simp [scanFrom, stop_word_or_pipe]
    · simp [scanFrom, stop_word_or_pipe]
  have hne : ¬ (curr + 1 + gap.length = pipe_index) := by
    rw [hpidx]; simp
  rw [parse_tokens, if_pos hlt, g0]
  simp only [if_true]
  rw [g1]
  simp only [hc1, if_false]
  rw [redirect_target, hskip]
  simp only [gp, hc.2.2.2.2, hne, hc.2.1, hhash, hc.2.2.1, decide_False, Bool.or_self,
    Bool.false_eq_true, if_false, hscan, if_true]

/-- The target of `>` must be followed by a space inside its stage: after
well-formed stages each closed by `|` and a well-formed stage, a `>` whose
target is the last token of the line or directly precedes `|` makes
`parse_line` return the error result. -/
theorem parse_line_truncate_target_at_stage_end (fs : FileSystem) (vars : List Variable)
    (stages : List SpacedStage) (st : SpacedStage) (gap w term : List Char)
    (hok : ∀ x ∈ stages, x.ok fs vars.head? = true) (hst : st.ok fs vars.head? = true)
    (hgap : ∀ x ∈ gap, isspace x = true) (hw : target_ok w = true)
    (hterm : term = [] ∨ ∃ rest, term = '|' :: rest)
    (hline : ∀ c ∈ pipe_line stages (st.text ++ '>' :: (gap ++ (w ++ term))),
      c ≠ NUL ∧ c ≠ '$' ∧ c ≠ '=') :
    parse_line fs vars (pipe_line stages (st.text ++ '>' :: (gap ++ (w ++ term))))
      = (.error, vars) :=
  parse_line_stage_error fs vars stages st _ hok hst hline
    (fun pipe_index fuel curr cmd hs hpi =>
      parse_tokens_truncate_target_at_end _ pipe_index fuel curr cmd gap w term hs hpi hgap hw
        hterm)

/-! ## The truncating output redirect -/

theorem updateOrAppend_names (name value : CString) (vars : List Variable) :
    (updateOrAppend name value vars).map Variable.name
      = if name ∈ vars.map Variable.name then vars.map Variable.name
        else vars.map Variable.name ++ [name] := by
  induction vars with
  | nil => simp [updateOrAppend, createVariable]
  | cons x vars ih =>
    by_cases hx : x.name = name
    · simp [updateOrAppend, hx]
    · have hx1 : ¬ name = x.name := fun e => hx e.symm
      by_cases hin : name ∈ vars.map Variable.name
      · rw [if_pos hin] at ih
        simp only [updateOrAppend, hx, if_false, List.map_cons, ih, List.mem_cons, hin, or_true,
          if_true]
      · rw [if_neg hin] at ih
        simp only [updateOrAppend, hx, if_false, List.map_cons, ih, List.mem_cons, hin, hx1,
          or_self, List.cons_append]

/-- One upsert keeps the names of the table pairwise different. -/
theorem addOrUpdateVariable_nodup (vars : List Variable) (name value : CString)
    (h : (vars.map Variable.name).Nodup) :
    ((addOrUpdateVariable vars name value).2.map Variable.name).Nodup := by
  cases vars with
  | nil => simp [addOrUpdateVariable, createVariable]
  | cons current rest =>
    simp only [addOrUpdateVariable]
    split_ifs with h1 h2
    · exact h
    · exact h
    · rw [updateOrAppend_names]
      split_ifs with h3
      · exact h
      · exact List.Nodup.append h (List.nodup_singleton _) (by simpa using h3)

theorem upsertAll_nodup (calls : List (CString × CString)) :
    ∀ vars : List Variable, (vars.map Variable.name).Nodup →
      ((upsertAll vars calls).map Variable.name).Nodup := by
  induction calls with
  | nil => intro vars h; exact h
  | cons c calls ih =>
    intro vars h
    exact ih _ (addOrUpdateVariable_nodup vars c.1 c.2 h)

/-- In a table with pairwise different names the lookup of the name of an
entry returns the value of that entry. -/
theorem find_value_of_mem (vars : List Variable) (h : (vars.map Variable.name).Nodup)
    (x : Variable) (hx : x ∈ vars) : find_value_from_name x.name vars = some x.value := by
  induction vars with
  | nil => cases hx
  | cons y vars ih =>
    rw [List.map_cons, List.nodup_cons] at h
    rcases List.mem_cons.1 hx with rfl | hx1
    · simp [find_value_from_name]
    · have hne : y.name ≠ x.name := fun e => h.1 (e ▸ List.mem_map_of_mem _ hx1)
      simp only [find_value_from_name, hne, if_false]
      exact ih h.2 hx1

/-- C24. Names in the variable table are unique: in the table reached from the
empty table by any sequence of `addOrUpdateVariable` calls no two entries have
the same name, and the lookup of the name of any entry returns the value of
that entry, which is the only binding of the name. -/
theorem C24_names_unique (calls : List (CString × CString)) :
    ((upsertAll [] calls).map Variable.name).Nodup
      ∧ ∀ x ∈ upsertAll [] calls,
          find_value_from_name x.name (upsertAll [] calls) = some x.value
            ∧ ∀ y ∈ upsertAll [] calls, y.name = x.name → y = x := by
  have h := upsertAll_nodup calls [] (by simp)
  refine ⟨h, fun x hx => ⟨find_value_of_mem _ h x hx, ?_⟩⟩
  intro y hy hname
  exact List.inj_on_of_nodup_map h hy hx hname

/-! ## Assignment lines with a malformed name -/

/-- C22. A malformed assignment name is a parse error: when a line that is not
blank or a comment holds `=` and the text before the first `=` is empty or
holds a character other than a letter or underscore, `parse_line` returns the
error result and the table is what it was; the line is not handed to the
tokenizer. -/
theorem C22_malformed_assignment_name (fs : FileSystem) (vars : List Variable)
    (pre post : CString)
    (hpre : ∀ c ∈ pre, c ≠ '=')
    (hnul : ∀ c ∈ pre ++ '=' :: post, c ≠ NUL)
    (hblank : is_blank_or_comment (pre ++ '=' :: post) = false)
    (hbad : pre = [] ∨ ∃ c ∈ pre, isValidVarChar c = false) :
    parse_line fs vars (pre ++ '=' :: post) = (.error, vars) := by
  have hhead : ¬ ((pre ++ '=' :: post).head? = none ∨ (pre ++ '=' :: post).head? = some NUL) := by
    cases pre with
    | nil => simp [NUL]
    | cons x pre1 => simpa using hnul x (by simp)
  unfold parse_line
  rw [if_neg hhead, hblank]
  simp only [Bool.false_eq_true, if_false]
  rcases hbad with rfl | ⟨c, hc, hcv⟩
  · simp [startsWithEqualSign]
  · obtain ⟨x, pre1, rfl⟩ := List.exists_cons_of_ne_nil (List.ne_nil_of_mem hc)
    have hx : x ≠ '=' := hpre x (List.mem_cons_self _ _)
    have hstart : startsWithEqualSign ((x :: pre1) ++ '=' :: post) = false := by
      simp [startsWithEqualSign, hx]
    have hchr := strchr_append '=' (x :: pre1) post hpre
    have htake : ((x :: pre1) ++ '=' :: post).take (x :: pre1).length = x :: pre1 :=
      List.take_left' rfl
    have hall : ((x :: pre1).all isValidVarChar) = false := by
      rw [List.all_eq_false]
      exact ⟨c, hc, by simp [hcv]⟩
    have hpath : defines_path_variable ((x :: pre1) ++ '=' :: post) = false := by
      cases h : defines_path_variable ((x :: pre1) ++ '=' :: post)
      · rfl
      · exfalso
        simp only [defines_path_variable, decide_eq_true_eq] at h
        rcases pre1 with _ | ⟨y, _ | ⟨z, _ | ⟨w, _ | ⟨v, pre2⟩⟩⟩⟩
        · simp at h
        · simp at h
        · simp at h
        · simp only [List.cons_append, List.nil_append, List.take_succ_cons, List.take_zero,
            String.toList, List.cons.injEq, and_true] at h
          obtain ⟨rfl, rfl, rfl, rfl, -⟩ := h
          simp only [List.mem_cons, List.mem_singleton, List.not_mem_nil, or_false] at hc
          rcases hc with rfl | rfl | rfl | rfl <;> revert hcv <;> decide
        · simp only [List.cons_append, List.take_succ_cons, List.take_zero,
            String.toList, List.cons.injEq, and_true] at h
          exact hpre v (by simp) h.2.2.2.2
    rw [hstart, hpath, hchr]
    simp only [Bool.false_eq_true, if_false, htake, hall]

/-- C22 (witness): `echo a=b` holds a space before the `=`; it is a parse error
and the table is unchanged. -/
theorem C22_malformed_assignment_name_witness :
    parse_line fs_bin vars_path_A "echo a=b".toList = (.error, vars_path_A) :=
  C22_malformed_assignment_name fs_bin vars_path_A "echo a".toList "b".toList
    (by decide) (by decide) (by decide) (Or.inr ⟨' ', by decide, by decide⟩)

/-- C23 (failing input). Reads outside the line: with `ls` resolvable and `A`
bound, the scan of a command name or of an argument that runs to the end of
the line, the scan of a redirect target of `<` at the end of the line, the
advance to the next stage after a trailing space and the advance past the end
character of a bare reference at the end of the line all move the read
position beyond the terminator. -/
theorem C23_reads_past_terminator :
    parse_line fs_bin vars_path_A "ls".toList = (.undefined, vars_path_A)
      ∧ parse_line fs_bin vars_path_A "ls -l".toList = (.undefined, vars_path_A)
      ∧ parse_line fs_bin vars_path_A "ls < in".toList = (.undefined, vars_path_A)
      ∧ parse_line fs_bin vars_path_A "ls ".toList = (.undefined, vars_path_A)
      ∧ replace_variables_mk_line "echo $A".toList vars_path_A = .out_of_bounds
      ∧ parse_line fs_bin vars_path_A "echo $A".toList = (.undefined, vars_path_A) := by
  decide

/-! ## Characters of the tokens -/

/-- The characters a scan passes over did not stop it. -/
theorem scanFrom_take (stop : Nat → Char → Bool) (suf : List Char) :
    ∀ i q, scanFrom stop suf i = some q → ∀ c ∈ suf.take (q - i), ∃ k, stop k c = false := by
  induction suf with
  | nil => intro i q _ c hc; simp at hc
  | cons x suf ih =>
    intro i q h c hc
    rw [scanFrom] at h
    by_cases hx : stop i x = true
    · simp only [hx, if_true, Option.some.injEq] at h
      subst h
      simp at hc
    · simp only [hx, Bool.false_eq_true, if_false] at h
      have hge := scanFrom_ge _ _ _ _ h
      have e : q - i = (q - (i + 1)) + 1 := by omega
      rw [e, List.take_succ_cons, List.mem_cons] at hc
      rcases hc with rfl | hc
      · exact ⟨i, by simpa using hx⟩
      · exact ih _ _ h c hc

theorem scan_token (stop : Nat → Char → Bool) (s : CString) (p q : Nat)
    (h : scan stop s p = some q) : ∀ c ∈ strndup s p (q - p), ∃ k, stop k c = false := by
  unfold scan at h
  split_ifs at h
  exact scanFrom_take stop _ p q h

/-- A character that does not stop a token scan is not a space, `<` or `>`. -/
theorem token_char (stop : Nat → Char → Bool) (pipe_index : Nat)
    (hstop : stop = stop_word ∨ stop = stop_word_or_pipe pipe_index) (c : Char)
    (h : ∃ k, stop k c = false) : c ≠ ' ' ∧ c ≠ '<' ∧ c ≠ '>' := by
  obtain ⟨k, hk⟩ := h
  rcases hstop with rfl | rfl
  · simp only [stop_word, Bool.or_eq_false_iff, decide_eq_false_iff_not] at hk
    exact ⟨hk.1.1, hk.2, hk.1.2⟩
  · simp only [stop_word_or_pipe, Bool.or_eq_false_iff, decide_eq_false_iff_not] at hk
    exact ⟨hk.1.1.1, hk.1.2, hk.1.1.2⟩

theorem redirect_target_clean (stop : Nat → Char → Bool) (s : List Char)
    (pipe_index curr : Nat) (path : CString) (q : Nat)
    (hstop : stop = stop_word ∨ stop = stop_word_or_pipe pipe_index)
    (h : redirect_target stop s pipe_index curr = .name path q) :
    ∀ c ∈ path, c ≠ ' ' ∧ c ≠ '<' ∧ c ≠ '>' := by
  unfold redirect_target at h
  cases h1 : scan stop_space s curr with
  | none => simp [h1] at h
  | some p =>
    simp only [h1] at h
    cases h2 : cget s p with
    | none => simp [h2] at h
    | some c0 =>
      simp only [h2] at h
      split_ifs at h with h3
      cases h4 : scan stop s p with
      | none => simp [h4] at h
      | some q1 =>
        simp only [h4] at h
        split_ifs at h with h5
        simp only [Target.name.injEq] at h
        obtain ⟨rfl, -⟩ := h
        intro c hc
        exact token_char stop pipe_index hstop c (scan_token stop s p q1 h4 c hc)

theorem Command.clean_args_end (cmd : Command) (e : ArgvEnd) (h : cmd.clean) :
    Command.clean { cmd with args_end := e } := h

theorem Command.clean_args (cmd : Command) (w : CString) (e : ArgvEnd) (h : cmd.clean)
    (hw : ∀ c ∈ w, c ≠ ' ' ∧ c ≠ '<' ∧ c ≠ '>') :
    Command.clean { cmd with args := cmd.args ++ [w], args_end := e } := by
  intro tok htok
  simp only [Command.tokens, List.mem_append, List.mem_singleton] at htok
  rcases htok with ((ht | rfl) | ht) | ht
  · exact h tok (by simp [Command.tokens, ht])
  · exact hw
  · exact h tok (by simp only [Command.tokens, List.mem_append]; exact Or.inl (Or.inr ht))
  · exact h tok (by simp only [Command.tokens, List.mem_append]; exact Or.inr ht)

theorem Command.clean_redir_in (cmd : Command) (w : CString) (h : cmd.clean)
    (hw : ∀ c ∈ w, c ≠ ' ' ∧ c ≠ '<' ∧ c ≠ '>') :
    Command.clean { cmd with redir_in_path := some w } := by
  intro tok htok
  simp only [Command.tokens, List.mem_append, Option.toList, List.mem_singleton] at htok
  rcases htok with (ht | rfl) | ht
  · exact h tok (by simp [Command.tokens, ht])
  · exact hw
  · exact h tok (by simp only [Command.tokens, List.mem_append]; exact Or.inr ht)

theorem Command.clean_redir_out (cmd : Command) (w : CString) (a : Nat) (h : cmd.clean)
    (hw : ∀ c ∈ w, c ≠ ' ' ∧ c ≠ '<' ∧ c ≠ '>') :
    Command.clean { cmd with redir_append := a, redir_out_path := some w } := by
  intro tok htok
  simp only [Command.tokens, List.mem_append, Option.toList, List.mem_singleton] at htok
  rcases htok with (ht | ht) | rfl
  · exact h tok (by simp [Command.tokens, ht])
  · exact h tok (by simp only [Command.tokens, List.mem_append]; exact Or.inl (Or.inr ht))
  · exact hw

/-- The per-command loop stores only tokens without space, `<` and `>`. -/
theorem parse_tokens_clean (s : CString) (pipe_index : Nat) :
    ∀ (fuel curr : Nat) (cmd : Command), cmd.clean →
      ∀ cmd1, (parse_tokens s pipe_index fuel curr cmd = .done cmd1
        ∨ parse_tokens s pipe_index fuel curr cmd = .comment cmd1) → cmd1.clean := by
  intro fuel
  induction fuel with
  | zero => intro curr cmd _ cmd1 h; simp [parse_tokens] at h
  | succ fuel ih =>
    intro curr cmd hcl cmd1 h
    rw [parse_tokens] at h
    split_ifs at h with hlt
    · cases hc : cget s curr with
      | none => simp [hc] at h
      | some c =>
        simp only [hc] at h
        split_ifs at h with h1 h3 h4 h5
        · cases hc1 : cget s (curr + 1) with
          | none => simp [hc1] at h
          | some c1 =>
            simp only [hc1] at h
            split_ifs at h with h6
            · cases ht : redirect_target stop_word s pipe_index (curr + 2) with
              | out_of_bounds => simp [ht] at h
              | error => simp [ht] at h
              | name path q =>
                simp only [ht] at h
                exact ih _ _ (Command.clean_redir_out cmd path 1 hcl
                  (redirect_target_clean _ _ pipe_index _ _ _ (Or.inl rfl) ht)) cmd1 h
            · cases ht : redirect_target (stop_word_or_pipe pipe_index) s pipe_index
                  (curr + 1) with
              | out_of_bounds => simp [ht] at h
              | error => simp [ht] at h
              | name path q =>
                simp only [ht] at h
                exact ih _ _ (Command.clean_redir_out cmd path cmd.redir_append hcl
                  (redirect_target_clean _ _ pipe_index _ _ _ (Or.inr rfl) ht)) cmd1 h
        · cases ht : redirect_target stop_word s pipe_index (curr + 1) with
          | out_of_bounds => simp [ht] at h
          | error => simp [ht] at h
          | name path q =>
            simp only [ht] at h
            exact ih _ _ (Command.clean_redir_in cmd path hcl
              (redirect_target_clean _ _ pipe_index _ _ _ (Or.inl rfl) ht)) cmd1 h
        · simp only [reduceCtorEq, StageResult.comment.injEq, false_or] at h
          rw [← h]; exact hcl
        · cases hq : scan stop_word s curr with
          | none => simp [hq] at h
          | some q =>
            simp only [hq] at h
            exact ih _ _ (Command.clean_args cmd _ _ hcl
              (fun x hx => token_char stop_word pipe_index (Or.inl rfl) x
                (scan_token stop_word s curr q hq x hx))) cmd1 h
        · exact ih _ _ hcl cmd1 h
    · simp only [StageResult.done.injEq, reduceCtorEq, or_false] at h
      rw [← h]; exact hcl

/-- The main loop returns only command nodes whose tokens hold no space, `<`
or `>`. -/
theorem parse_commands_clean (fs : FileSystem) (path : Option Variable) (s : CString) :
    ∀ (fuel curr : Nat) (head : List Command), (∀ cmd ∈ head, cmd.clean) →
      ∀ cmds, parse_commands fs path s fuel curr head = .head cmds →
        ∀ cmd ∈ cmds, cmd.clean := by
  intro fuel
  induction fuel with
  | zero => intro curr head _ cmds h; simp [parse_commands] at h
  | succ fuel ih =>
    intro curr head hhead cmds h
    rw [parse_commands] at h
    cases hc : cget s curr with
    | none => simp [hc] at h
    | some c0 =>
      simp only [hc] at h
      split_ifs at h with h1
      · simp only [ParseResult.head.injEq] at h
        rw [← h]; exact hhead
      · cases hp : scan stop_space s curr with
        | none => simp [hp] at h
        | some p =>
          simp only [hp] at h
          cases hcp : cget s p with
          | none => simp [hcp] at h
          | some c =>
            simp only [hcp] at h
            split_ifs at h with h3
            cases hpi : scan stop_pipe s p with
            | none => simp [hpi] at h
            | some pipe_index =>
              simp only [hpi] at h
              cases hq : scan stop_word s p with
              | none => simp [hq] at h
              | some q =>
                simp only [hq] at h
                cases hr : resolve_executable fs (strndup s p (q - p)) path with
                | null => simp [hr] at h
                | fault => simp [hr] at h
                | path exec_path =>
                  simp only [hr] at h
                  have hname : ∀ x ∈ strndup s p (q - p), x ≠ ' ' ∧ x ≠ '<' ∧ x ≠ '>' :=
                    fun x hx => token_char stop_word pipe_index (Or.inl rfl) x
                      (scan_token stop_word s p q hq x hx)
                  have hinit : Command.clean
                      { exec_path := exec_path, args := [strndup s p (q - p)],
                        stdin_fd := STDIN_FILENO, stdout_fd := STDOUT_FILENO,
                        redir_in_path := none, redir_out_path := none,
                        redir_append := 0 } := by
                    intro tok htok
                    simp only [Command.tokens, Option.toList, List.append_nil,
                      List.mem_singleton] at htok
                    rw [htok]; exact hname
                  have hpt := parse_tokens_clean s pipe_index (s.length + 2) q _ hinit
                  revert h hpt
                  cases parse_tokens s pipe_index (s.length + 2) q
                    { exec_path := exec_path, args := [strndup s p (q - p)],
                      stdin_fd := STDIN_FILENO, stdout_fd := STDOUT_FILENO,
                      redir_in_path := none, redir_out_path := none,
                      redir_append := 0 } with
                  | out_of_fuel => intro h; simp at h
                  | out_of_bounds => intro h; simp at h
                  | error => intro h; simp at h
                  | comment cmd =>
                    intro h hpt
                    simp only [ParseResult.head.injEq] at h
                    rw [← h]
                    intro x hx
                    rcases List.mem_append.1 hx with hx | hx
                    · exact hhead x hx
                    · rw [List.mem_singleton.1 hx]
                      exact hpt cmd (Or.inr rfl)
                  | done cmd =>
                    intro h hpt
                    refine ih _ _ ?_ cmds h
                    intro x hx
                    rcases List.mem_append.1 hx with hx | hx
                    · exact hhead x hx
                    · rw [List.mem_singleton.1 hx]
                      exact hpt cmd (Or.inl rfl)

/-- In every pipeline returned by `parse_line`, no command name, argument or
redirect path holds a space, `<` or `>`: these three characters end every
token scan. -/
theorem parse_line_tokens_clean (fs : FileSystem) (vars : List Variable) (line : CString)
    (cmds : List Command) (h : (parse_line fs vars line).1 = .head cmds) :
    ∀ cmd ∈ cmds, ∀ tok ∈ cmd.tokens, ∀ c ∈ tok, c ≠ ' ' ∧ c ≠ '<' ∧ c ≠ '>' := by
  have hnil : ∀ {v : List Variable},
      ((ParseResult.head [], v) : ParseResult × List Variable).1 = .head cmds →
      ∀ cmd ∈ cmds, ∀ tok ∈ cmd.tokens, ∀ c ∈ tok, c ≠ ' ' ∧ c ≠ '<' ∧ c ≠ '>' := by
    intro v h0 cmd hcmd
    simp only [ParseResult.head.injEq] at h0
    rw [← h0] at hcmd; cases hcmd
  simp only [parse_line] at h
  generalize (if defines_path_variable line = true then
    (addOrUpdateVariable vars "PATH".toList (List.drop 5 line)).2 else vars) = vars1 at h
  split at h
  · exact hnil h
  · split at h
    · exact hnil h
    · split at h
      · simp at h
      · cases hs : strchr '=' line with
        | some equalsPtr =>
          simp only [hs] at h
          split_ifs at h
          exact hnil h
        | none =>
          simp only [hs] at h
          revert h
          cases replace_variables_mk_line line vars1 with
          | null => intro h; simp at h
          | out_of_bounds => intro h; simp at h
          | overflow => intro h; simp at h
          | out_of_fuel => intro h; simp at h
          | new_line s =>
            intro h
            exact parse_commands_clean fs _ s _ 0 [] (fun _ hx => by cases hx) cmds h

/-- C21 (failing input). With `ls` and `wc` resolvable, an argument, a redirect
path or a command name that is directly followed by `|` takes the `|` and the
text after it up to the next space into the token, and a tab inside an
argument stays in it: the token scans stop at a space, `<` and `>` only. The
text after the `|` is then read a second time as the next stage. -/
theorem C21_pipe_and_tab_inside_tokens :
    parse_line fs_bin vars_path_A "ls a|wc #".toList
        = (.head [{ cmd_ls with args := ["ls".toList, "a|wc".toList] },
                  { cmd_ls with exec_path := "/bin/wc".toList, args := ["wc".toList] }],
            vars_path_A)
      ∧ parse_line fs_bin vars_path_A "ls < in|wc #".toList
        = (.head [{ cmd_ls with redir_in_path := some "in|wc".toList },
                  { cmd_ls with exec_path := "/bin/wc".toList, args := ["wc".toList] }],
            vars_path_A)
      ∧ parse_line fs_bin vars_path_A "a/b|wc #".toList
        = (.head [{ cmd_ls with exec_path := "a/b|wc".toList, args := ["a/b|wc".toList] },
                  { cmd_ls with exec_path := "/bin/wc".toList, args := ["wc".toList] }],
            vars_path_A)
      ∧ parse_line fs_bin vars_path_A "ls a\tb #".toList
        = (.head [{ cmd_ls with args := ["ls".toList, "a\tb".toList],
                                args_end := .indeterminate }], vars_path_A)
      ∧ '|' ∈ "a|wc".toList ∧ isspace '\t' = true := by
  decide

end CShell
